import Mathlib

/-!
A shallow embedding of the Quine–McCluskey logic-expression simplifier
(`src/main.cpp`): lexical validation, implicit-AND insertion, conversion to
reverse polish notation, expression-tree construction, truth-table
enumeration, the Quine–McCluskey merge phase and the greedy cover selector,
together with theorems about the pipeline.

Strings are modelled as `List Char`, the C++ containers as lists
(`std::stack` as a list with its head as the top, the `unordered_map`s as
association lists in insertion order, `unordered_set<size_t>` as `Finset ℕ`).
The `do … while` and `while` loops are modelled with explicit fuel; theorems
below show the fuel chosen is enough on every state the program can reach.
-/

namespace QMC

/-- The apostrophe character `'\x27'`, the surface NOT operator. -/
def quote : Char := Char.ofNat 39

/-- `isupper` restricted to ASCII, as used on the input alphabet. -/
def isUpperC (c : Char) : Bool := 'A' ≤ c && c ≤ 'Z'

/-- `isdigit` on ASCII. -/
def isDigitC (c : Char) : Bool := '0' ≤ c && c ≤ '9'

/-- The character test of `validate` in `main.cpp`: a character passes when it
is an uppercase letter or one of `( ) + ' 1 0 ^`. -/
def allowedChar (c : Char) : Bool :=
  isUpperC c || c = '(' || c = ')' || c = '+' || c = quote || c = '1' || c = '0' || c = '^'

/-- `validate` of `main.cpp`: every character must be allowed. -/
def validate (s : List Char) : Bool := s.all allowedChar

/-- Insertion into a sorted duplicate-free list, modelling `std::set<char>::insert`. -/
def sinsert (c : Char) : List Char → List Char
  | [] => [c]
  | d :: ds => if c < d then c :: d :: ds else if c = d then d :: ds else d :: sinsert c ds

/-- The variable set `var` collected by `validate`: all uppercase letters of the
input, in ascending character order (the iteration order of `std::set<char>`). -/
def varSet (s : List Char) : List Char :=
  s.foldl (fun a c => if isUpperC c then sinsert c a else a) []

/-- Tail of `cvtAL`: walk the string remembering the previous character and
insert an explicit `*` before a variable, digit or `(` that is not preceded
by `(`, `+` or `^`. -/
def cvtALgo (prev : Char) : List Char → List Char
  | [] => []
  | c :: cs =>
    (if (isUpperC c || isDigitC c || c = '(') && prev ≠ '(' && prev ≠ '+' && prev ≠ '^'
      then ['*', c] else [c]) ++ cvtALgo c cs

/-- `cvtAL` of `main.cpp`: explicit AND insertion.  The first character is
copied unconditionally. -/
def cvtAL : List Char → List Char
  | [] => []
  | c :: cs => c :: cvtALgo c cs

/-- The priority table `prl`; absent characters get the `unordered_map`
default value `0`. -/
def prf (c : Char) : Nat :=
  if c = '(' then 1 else if c = '+' then 2 else if c = '^' then 3
  else if c = '*' then 4 else if c = quote then 5 else if c = ')' then 6 else 0

/-- The main loop of `cvtRPN`: process the input with an operator stack
(head = top) and an output string `tmp`.  Returns `none` on the
`[ERROR] Invalid expression` path (a `)` that pops the whole stack without
finding a `(`).  At the end the remaining stack is flushed to the output. -/
def rpnGo : List Char → List Char → List Char → Option (List Char)
  | [], tmp, stk => some (tmp ++ stk)
  | c :: cs, tmp, stk =>
    if isUpperC c || isDigitC c then rpnGo cs (tmp ++ [c]) stk
    else
      match stk with
      | [] => rpnGo cs tmp [c]
      | t :: rest =>
        if c = '(' then rpnGo cs tmp (c :: t :: rest)
        else if c = ')' then
          let pr := (t :: rest).span (fun x => x ≠ '(')
          match pr.2 with
          | [] => none
          | _ :: rest2 => rpnGo cs (tmp ++ pr.1) rest2
        else if prf t < prf c then rpnGo cs tmp (c :: t :: rest)
        else
          let pr := (t :: rest).span (fun x => prf x > prf c)
          rpnGo cs (tmp ++ pr.1) (c :: pr.2)

/-- The `Compress NOT logic` post-pass of `cvtRPN`: `j` counts the current run
of apostrophes; a run collapses to one apostrophe when odd, none when even. -/
def compress : List Char → Nat → List Char
  | [], j => if j % 2 = 1 then [quote] else []
  | c :: cs, j =>
    if c = quote then compress cs (j + 1)
    else (if j % 2 = 1 then [quote] else []) ++ c :: compress cs 0

/-- `cvtRPN` of `main.cpp`: shunting-yard conversion followed by the NOT-run
compression pass. -/
def cvtRPN (e : List Char) : Option (List Char) :=
  (rpnGo e [] []).map (fun t => compress t 0)

/-- Expression-tree nodes (`OpNode` and its subclasses).  `VarNode` holds
either a variable character or, for a digit token `d`, the constant value
`d - '0'`; the two uses are split into `varN` and `constN` here. -/
inductive OpNode : Type
  | varN (c : Char)
  | constN (n : Nat)
  | notN (l : OpNode)
  | andN (l r : OpNode)
  | orN (l r : OpNode)
  | xorN (l r : OpNode)
  deriving DecidableEq, Repr

/-- `OpNode::get()`: evaluation under an assignment `mvar` (total, with the
`unordered_map` default `0` for unset characters).  A `VarNode` holding a
value `< 2` returns it directly; a digit value `≥ 2` indexes `mvar` at an
unset key and yields the default `0`. -/
def eval (mvar : Char → Nat) : OpNode → Nat
  | .varN c => mvar c
  | .constN n => if n < 2 then n else 0
  | .notN l => eval mvar l ^^^ 1
  | .andN l r => eval mvar l &&& eval mvar r
  | .orN l r => eval mvar l ||| eval mvar r
  | .xorN l r => eval mvar l ^^^ eval mvar r

/-- The distinct failure messages of the pipeline.  `invalidLogic` stands for
the message `[ERROR] Invalid logic`, printed both for an unrecognized postfix
token and for a final stack with more than one node.  `stackUB` marks the
place where `analyze` reads `stk.top()` from an empty operand stack, which is
undefined behaviour in the source. -/
inductive Err : Type
  | invalidCharacter
  | invalidExpression
  | invalidNot
  | invalidAnd
  | invalidXor
  | invalidOr
  | invalidLogic
  | stackUB
  deriving DecidableEq, Repr

/-- The tree-building loop of `analyze`: consume postfix tokens against an
operand stack (head = most recently pushed). -/
def buildGo : List Char → List OpNode → Except Err (List OpNode)
  | [], stk => .ok stk
  | c :: cs, stk =>
    if isUpperC c then buildGo cs (.varN c :: stk)
    else if isDigitC c then buildGo cs (.constN (c.toNat - '0'.toNat) :: stk)
    else if c = quote then
      match stk with
      | [] => .error .invalidNot
      | a :: rest => buildGo cs (.notN a :: rest)
    else if c = '*' then
      match stk with
      | a :: b :: rest => buildGo cs (.andN a b :: rest)
      | _ => .error .invalidAnd
    else if c = '^' then
      match stk with
      | a :: b :: rest => buildGo cs (.xorN a b :: rest)
      | _ => .error .invalidXor
    else if c = '+' then
      match stk with
      | a :: b :: rest => buildGo cs (.orN a b :: rest)
      | _ => .error .invalidOr
    else .error .invalidLogic

/-- The assignment built by one row of `tvt`: walking the variable set in
ascending order with a counter starting at `size - 1`, variable `v` is mapped
to bit `(i >> cnt) & 1`; characters outside the set get the map default `0`. -/
def mkAssign : List Char → Nat → Nat → Char → Nat
  | [], _, _, _ => 0
  | v :: vs, i, cnt, c => if c = v then (i >>> cnt) &&& 1 else mkAssign vs i (cnt - 1) c

/-- `root.get()` on row `i` of the truth table. -/
def rowEval (t : OpNode) (vars : List Char) (i : Nat) : Nat :=
  eval (mkAssign vars i (vars.length - 1)) t

/-- The minterm list `m` produced by `tvt`: all `i < 2^N` whose row evaluates
to a nonzero value, in increasing order. -/
def minterms (t : OpNode) (vars : List Char) : List Nat :=
  (List.range (2 ^ vars.length)).filter (fun i => rowEval t vars i != 0)

/-- An implicant pattern: a string over `0`, `1`, `-`. -/
abbrev Pat := List Char

/-- `count1` of `main.cpp`: the number of `1` characters. -/
def count1 (p : Pat) : Nat := (p.filter (fun c => c = '1')).length

/-- Bit `j` of `i` as a character. -/
def bitChar (i j : Nat) : Char := if (i >>> j) &&& 1 = 1 then '1' else '0'

/-- A minterm index as its `N`-bit pattern, most significant bit first
(the string built by the `Convert to string` loop of `QMA`). -/
def patOfNat (N i : Nat) : Pat := (List.range N).map (fun t => bitChar i (N - 1 - t))

/-- The coverage map `st`, an association list from patterns to the set of
original minterm indices they cover. -/
abbrev STMap := List (Pat × Finset Nat)

/-- Association-list lookup in `st`. -/
def stFind? : STMap → Pat → Option (Finset Nat)
  | [], _ => none
  | e :: es, p => if e.1 = p then some e.2 else stFind? es p

/-- `st.find(p) != st.end()`. -/
def stMem (st : STMap) (p : Pat) : Bool := (stFind? st p).isSome

/-- `st.at(p)` (with the empty set for an absent key). -/
def stGet (st : STMap) (p : Pat) : Finset Nat := (stFind? st p).getD ∅

/-- `st[p].emplace(i)`: add `i` to the entry of `p`, creating the entry if
absent. -/
def stAdd : STMap → Pat → Nat → STMap
  | [], p, i => [(p, {i})]
  | e :: es, p, i => if e.1 = p then (e.1, insert i e.2) :: es else e :: stAdd es p i

/-- The `Convert to string` phase of `QMA`: each minterm becomes its bit
pattern, seeded with coverage `{minterm}`. -/
def initState (N : Nat) (m : List Nat) : List Pat × STMap :=
  m.foldl (fun a i => (a.1 ++ [patOfNat N i], stAdd a.2 (patOfNat N i) i)) ([], [])

/-- The number of positions where two patterns differ (the comparison loop of
`QMA` stops counting at 2, which does not change whether the count equals 1). -/
def diffCnt (j k : Pat) : Nat := ((j.zip k).filter (fun x => x.1 ≠ x.2)).length

/-- The merged pattern: positions where the operands agree are copied,
the differing position becomes `-`. -/
def mergePat (j k : Pat) : Pat := (j.zip k).map (fun x => if x.1 = x.2 then x.1 else '-')

/-- Group `grp[n]`: the live patterns with `n` ones, in list order. -/
def grpOf (ls : List Pat) (n : Nat) : List Pat := ls.filter (fun p => count1 p = n)

/-- The maximal 1-count `mx` over the live patterns. -/
def mxOf (ls : List Pat) : Nat := (ls.map count1).foldl max 0

/-- The pairs `(j, k)` compared in one round: for `i = 1 … mx`, when both
`grp[i]` and `grp[i-1]` are nonempty, every `j ∈ grp[i]` against every
`k ∈ grp[i-1]`. -/
def pairList (ls : List Pat) : List (Pat × Pat) :=
  (List.range (mxOf ls)).flatMap (fun i0 =>
    if grpOf ls (i0 + 1) ≠ [] ∧ grpOf ls i0 ≠ [] then
      (grpOf ls (i0 + 1)).flatMap (fun j => (grpOf ls i0).map (fun k => (j, k)))
    else [])

/-- The mutable state threaded through one round's comparison loops:
the coverage map, the list `tls` of newly created patterns, the consumed
set `chk` and the merge flag `f`. -/
structure CmpAcc : Type where
  st : STMap
  tls : List Pat
  chk : List Pat
  f : Bool

/-- One comparison of the merge phase: on a pair differing in exactly one
position, form the merged pattern; if it is not yet in `st`, record it with
the union of the operands' coverage and append it to `tls`; in all successful
cases mark both operands consumed and set the merge flag. -/
def cmpStep (a : CmpAcc) (jk : Pat × Pat) : CmpAcc :=
  if diffCnt jk.1 jk.2 = 1 then
    let tmp := mergePat jk.1 jk.2
    { st := if stMem a.st tmp then a.st else (tmp, stGet a.st jk.1 ∪ stGet a.st jk.2) :: a.st
      tls := if stMem a.st tmp then a.tls else a.tls ++ [tmp]
      chk := jk.1 :: jk.2 :: a.chk
      f := true }
  else a

/-- The state of the merge phase between rounds. -/
structure MState : Type where
  ls : List Pat
  st : STMap

/-- One round of the `do … while` loop of `QMA`: run all comparisons, then
keep the newly created patterns followed by the unconsumed survivors.
The boolean is the merge flag `f`. -/
def runRound (s : MState) : MState × Bool :=
  let a := (pairList s.ls).foldl cmpStep ⟨s.st, [], [], false⟩
  (⟨a.tls ++ s.ls.filter (fun p => ¬ p ∈ a.chk), a.st⟩, a.f)

/-- The `do … while (f)` loop, with explicit fuel: run a round; repeat while
it performed a merge. -/
def mergeLoop : Nat → MState → MState
  | 0, s => s
  | fuel + 1, s =>
    let r := runRound s
    if r.2 then mergeLoop fuel r.1 else r.1

/-- The state after the merge phase of `QMA` on minterm list `m` over `N`
variables.  Fuel `N + 1` is enough: the theorems below show a fixpoint is
reached after at most `N + 1` rounds on every input the pipeline produces. -/
def mergeResult (N : Nat) (m : List Nat) : MState :=
  let init := initState N m
  mergeLoop (N + 1) ⟨init.1, init.2⟩

/-- The element-count map `cnt` of `gpl`: an association list from minterm
index to the live patterns covering it (keys in first-encounter order,
coverage sets iterated in ascending order). -/
abbrev CntMap := List (Nat × List Pat)

/-- Lookup in `cnt`. -/
def cntFind? : CntMap → Nat → Option (List Pat)
  | [], _ => none
  | e :: es, i => if e.1 = i then some e.2 else cntFind? es i

/-- `cnt[i].emplace(p)`. -/
def cntAdd : CntMap → Nat → Pat → CntMap
  | [], i, p => [(i, [p])]
  | e :: es, i, p => if e.1 = i then (e.1, e.2 ++ [p]) :: es else e :: cntAdd es i p

/-- The `Count element` loop of `gpl`. -/
def cntBuild (ls : List Pat) (st : STMap) : CntMap :=
  ls.foldl (fun c p => ((stGet st p).sort (· ≤ ·)).foldl (fun c i => cntAdd c i p) c) []

/-- The `Find min element count` loop: the first key whose pattern list is
strictly smaller than everything before it. -/
def pickMin (c : CntMap) : Nat :=
  (c.foldl (fun a e =>
      match a with
      | none => some (e.2.length, e.1)
      | some m => if e.2.length < m.1 then some (e.2.length, e.1) else some m)
    none).elim 0 (fun m => m.2)

/-- The `Find max element set` loop: among the patterns covering the chosen
minterm, the first whose current coverage is strictly larger than everything
before it (starting from size `0` and the empty string). -/
def pickMax (st : STMap) (ps : List Pat) : Pat :=
  (ps.foldl (fun a p => if (stGet st p).card > a.1 then ((stGet st p).card, p) else a)
    (0, ([] : Pat))).2

/-- The `Delete` phase of one `gpl` iteration on the coverage map: the chosen
pattern's set is cleared, every other entry loses the covered indices.
(When the chosen pattern is absent from `st` the source would default-insert
an empty entry; on every reachable state the chosen pattern is present.) -/
def stErase (st : STMap) (ms : Pat) (cov : Finset Nat) : STMap :=
  st.map (fun e => if e.1 = ms then (e.1, (∅ : Finset Nat)) else (e.1, e.2 \ cov))

/-- Covered minterm keys leave `cnt`. -/
def cntRemove (c : CntMap) (cov : Finset Nat) : CntMap := c.filter (fun e => ¬ e.1 ∈ cov)

/-- The `Simplify` loop of `gpl`, with explicit fuel: while `cnt` is nonempty,
select the most-constrained minterm, then the broadest pattern covering it,
record it and delete everything it covers. -/
def gplLoop : Nat → CntMap → STMap → List Pat → List Pat
  | 0, _, _, rtn => rtn
  | fuel + 1, cnt, st, rtn =>
    if cnt = [] then rtn
    else
      let mns := pickMin cnt
      let ms := pickMax st ((cntFind? cnt mns).getD [])
      let cov := stGet st ms
      gplLoop fuel (cntRemove cnt cov) (stErase st ms cov) (rtn ++ [ms])

/-- `gpl` of `main.cpp`.  The fuel equals the number of keys of `cnt`, and
every iteration on a reachable state removes at least the selected key. -/
def gpl (ls : List Pat) (st : STMap) : List Pat :=
  let cnt := cntBuild ls st
  gplLoop cnt.length cnt st []

/-- `QMA` of `main.cpp`: merge phase followed by the greedy cover selection.
The coverage map of the merge result is returned alongside the selection. -/
def QMA (N : Nat) (m : List Nat) : List Pat × STMap :=
  (gpl (mergeResult N m).ls (mergeResult N m).st, (mergeResult N m).st)

/-- One product term of the printed simplified expression: walking the
variable set in ascending order, position `0` yields a negated literal,
`1` a plain literal, `-` nothing. -/
def renderTerm (vars : List Char) (p : Pat) : List Char :=
  (vars.zip p).flatMap (fun x =>
    if x.2 = '0' then [x.1, quote] else if x.2 = '1' then [x.1] else [])

/-- Lexicographic comparison of character lists, the order of
`std::sort` on `std::string`. -/
def lexLe : List Char → List Char → Bool
  | [], _ => true
  | _ :: _, [] => false
  | a :: as, b :: bs => if a < b then true else if b < a then false else lexLe as bs

/-- Sorted insertion for `isortL`. -/
def isort1 (x : List Char) : List (List Char) → List (List Char)
  | [] => [x]
  | y :: ys => if lexLe x y then x :: y :: ys else y :: isort1 x ys

/-- Insertion sort by `lexLe`, the effect of `std::sort(lss.begin(), lss.end())`. -/
def isortL : List (List Char) → List (List Char)
  | [] => []
  | x :: xs => isort1 x (isortL xs)

/-- Joining the sorted product terms with `+`. -/
def intercalatePlus : List (List Char) → List Char
  | [] => []
  | [t] => t
  | t :: ts => t ++ '+' :: intercalatePlus ts

/-- What `analyze` reports on success: a constant expression (no variables),
the constant-0 or constant-1 verdict, or the selected implicants together
with the rendered simplified expression. -/
inductive Verdict : Type
  | constant (b : Nat)
  | zero
  | one
  | sop (sel : List Pat) (rendered : List Char)
  deriving DecidableEq, Repr

/-- The observable result of a successful run: the variable set, the minterm
list and the verdict (empty minterm list for the zero-variable case, where
`tvt` is never run). -/
structure Output : Type where
  vars : List Char
  m : List Nat
  verdict : Verdict
  deriving DecidableEq, Repr

/-- The whole pipeline: `validate` followed by `analyze` of `main.cpp`. -/
def analyze (input : List Char) : Except Err Output :=
  if validate input then
    let vars := varSet input
    match cvtRPN (cvtAL input) with
    | none => .error .invalidExpression
    | some rpn =>
      match buildGo rpn [] with
      | .error e => .error e
      | .ok stk =>
        if stk.length > 1 then .error .invalidLogic
        else
          match stk with
          | [] => .error .stackUB
          | root :: _ =>
            if vars.length = 0 then .ok ⟨vars, [], .constant (eval (fun _ => 0) root)⟩
            else
              let m := minterms root vars
              if m = [] then .ok ⟨vars, m, .zero⟩
              else if m.length = 2 ^ vars.length then .ok ⟨vars, m, .one⟩
              else
                let sel := (QMA vars.length m).1
                .ok ⟨vars, m, .sop sel (intercalatePlus (isortL (sel.map (renderTerm vars))))⟩
  else .error .invalidCharacter

end QMC

namespace QMC

/-! ### Basic lemmas about the variable set and the truth-table enumerator -/

theorem mem_sinsert {a c : Char} {l : List Char} : a ∈ sinsert c l ↔ a = c ∨ a ∈ l := by
  induction l with
  | nil => simp [sinsert]
  | cons d ds ih =>
    rw [sinsert]
    split
    · simp [List.mem_cons, or_assoc]
    · split
      · next h1 h2 =>
        subst h2
        simp only [List.mem_cons]
        tauto
      · simp only [List.mem_cons, ih]
        tauto

theorem sinsert_sorted {c : Char} {l : List Char} (h : l.Sorted (· < ·)) :
    (sinsert c l).Sorted (· < ·) := by
  induction l with
  | nil => simp [sinsert]
  | cons d ds ih =>
    rw [List.sorted_cons] at h
    rw [sinsert]
    split
    · next h1 =>
      rw [List.sorted_cons]
      constructor
      · intro b hb
        rcases List.mem_cons.mp hb with rfl | hb
        · exact h1
        · exact lt_trans h1 (h.1 b hb)
      · rw [List.sorted_cons]; exact h
    · split
      · next h1 h2 =>
        subst h2
        rw [List.sorted_cons]; exact h
      · next h1 h2 =>
        rw [List.sorted_cons]
        refine ⟨?_, ih h.2⟩
        intro b hb
        rcases mem_sinsert.mp hb with rfl | hb
        · rcases lt_trichotomy b d with h3 | h3 | h3
          · exact absurd h3 h1
          · exact absurd h3 h2
          · exact h3
        · exact h.1 b hb

theorem varSet_go_sorted (s : List Char) (a : List Char) (ha : a.Sorted (· < ·)) :
    (s.foldl (fun a c => if isUpperC c then sinsert c a else a) a).Sorted (· < ·) := by
  induction s generalizing a with
  | nil => exact ha
  | cons c cs ih =>
    simp only [List.foldl_cons]
    by_cases h : isUpperC c
    · simp only [h, if_true]; exact ih _ (sinsert_sorted ha)
    · simp only [h, if_false]; exact ih _ ha

/-- The variable set is sorted ascending: the fixed variable order. -/
theorem varSet_sorted (s : List Char) : (varSet s).Sorted (· < ·) :=
  varSet_go_sorted s [] (by simp)

theorem varSet_nodup (s : List Char) : (varSet s).Nodup :=
  (varSet_sorted s).nodup

theorem varSet_go_mem (s : List Char) (a : List Char) (c : Char) :
    c ∈ s.foldl (fun a c => if isUpperC c then sinsert c a else a) a ↔
      c ∈ a ∨ (isUpperC c ∧ c ∈ s) := by
  induction s generalizing a with
  | nil => simp
  | cons d ds ih =>
    simp only [List.foldl_cons]
    by_cases h : isUpperC d
    · rw [if_pos h, ih]
      simp only [mem_sinsert, List.mem_cons]
      constructor
      · rintro ((rfl | hc) | hc)
        · exact Or.inr ⟨h, Or.inl rfl⟩
        · exact Or.inl hc
        · exact Or.inr ⟨hc.1, Or.inr hc.2⟩
      · rintro (hc | ⟨hu, rfl | hc⟩)
        · exact Or.inl (Or.inr hc)
        · exact Or.inl (Or.inl rfl)
        · exact Or.inr ⟨hu, hc⟩
    · rw [if_neg h, ih]
      simp only [List.mem_cons]
      constructor
      · rintro (hc | ⟨hu, hc⟩)
        · exact Or.inl hc
        · exact Or.inr ⟨hu, Or.inr hc⟩
      · rintro (hc | ⟨hu, rfl | hc⟩)
        · exact Or.inl hc
        · exact absurd hu h
        · exact Or.inr ⟨hu, hc⟩

/-- Membership in the variable set: the uppercase characters of the input. -/
theorem mem_varSet {s : List Char} {c : Char} : c ∈ varSet s ↔ isUpperC c ∧ c ∈ s := by
  rw [varSet, varSet_go_mem]; simp

/-- The assignment of a table row maps the `k`-th variable (for any start
value of the counter) to bit `cnt - k`. -/
theorem mkAssign_get_aux : ∀ (vars : List Char) (i cnt : Nat), vars.Nodup →
    ∀ (k : Nat) (hk : k < vars.length),
      mkAssign vars i cnt (vars.get ⟨k, hk⟩) = (i >>> (cnt - k)) &&& 1
  | [], _, _, _, k, hk => by simp at hk
  | v :: vs, i, cnt, hnd, 0, hk => by simp [mkAssign]
  | v :: vs, i, cnt, hnd, k' + 1, hk => by
    rcases List.nodup_cons.mp hnd with ⟨hv, hnd'⟩
    have hk' : k' < vs.length := Nat.lt_of_succ_lt_succ hk
    have hne : vs.get ⟨k', hk'⟩ ≠ v := fun h => hv (h ▸ List.get_mem vs k' hk')
    have hg : (v :: vs).get ⟨k' + 1, hk⟩ = vs.get ⟨k', hk'⟩ := rfl
    rw [hg]
    simp only [mkAssign, if_neg hne]
    rw [mkAssign_get_aux vs i (cnt - 1) hnd' k' hk']
    have he : cnt - 1 - k' = cnt - (k' + 1) := by omega
    rw [he]

/-- Row `i` maps the `k`-th variable of the ascending order to bit
`(i >> (N - 1 - k)) & 1`: the first variable is the most significant bit. -/
theorem mkAssign_get (vars : List Char) (i : Nat) (hnd : vars.Nodup)
    (k : Nat) (hk : k < vars.length) :
    mkAssign vars i (vars.length - 1) (vars.get ⟨k, hk⟩)
      = (i >>> (vars.length - 1 - k)) &&& 1 :=
  mkAssign_get_aux vars i (vars.length - 1) hnd k hk

theorem minterms_sorted (t : OpNode) (vars : List Char) :
    List.Sorted (· < ·) (minterms t vars) :=
  List.Pairwise.filter _ (List.pairwise_lt_range _)

theorem minterms_length_le (t : OpNode) (vars : List Char) :
    (minterms t vars).length ≤ 2 ^ vars.length := by
  have h := List.length_filter_le (fun i => rowEval t vars i != 0) (List.range (2 ^ vars.length))
  rwa [List.length_range] at h

theorem mem_minterms {t : OpNode} {vars : List Char} {i : Nat} :
    i ∈ minterms t vars ↔ i < 2 ^ vars.length ∧ rowEval t vars i ≠ 0 := by
  rw [minterms, List.mem_filter, List.mem_range, bne_iff_ne]

end QMC

namespace QMC

/-! ### C10: the tree builder's final stack read -/

/-- C10: on the input `()` the postfix stream is empty, the builder processes
it without reporting any of its error kinds and leaves an empty operand
stack, and the only guard before `analyze` reads the root is the
`size > 1` check — so the read happens on an empty stack (modelled by the
distinguished `stackUB` value, an out-of-bounds `stk.top()` in the source). -/
theorem C10_empty_operand_stack :
    cvtRPN (cvtAL ['(', ')']) = some [] ∧
    buildGo [] [] = Except.ok ([] : List OpNode) ∧
    ¬ (([] : List OpNode).length > 1) ∧
    analyze ['(', ')'] = Except.error Err.stackUB := by
  exact ⟨by decide, rfl, by decide, rfl⟩

/-! ### C4: enumeration order of the truth table -/

/-- C4: for a valid expression over `N ≥ 1` variables, the table enumerator
ranges over `i < 2^N` and maps the `k`-th variable of the fixed ascending
order to bit `(i >> (N-1-k)) & 1` (first variable most significant), and the
recorded minterm sequence is strictly increasing of length at most `2^N`. -/
theorem C4_enumeration_order (input : List Char) (root : OpNode) (k : Nat)
    (hN : 1 ≤ (varSet input).length) (hk : k < (varSet input).length) :
    (∀ i, mkAssign (varSet input) i ((varSet input).length - 1) ((varSet input).get ⟨k, hk⟩)
        = (i >>> ((varSet input).length - 1 - k)) &&& 1)
    ∧ List.Sorted (· < ·) (minterms root (varSet input))
    ∧ (minterms root (varSet input)).length ≤ 2 ^ (varSet input).length :=
  ⟨fun i => mkAssign_get _ i (varSet_nodup input) k hk,
    minterms_sorted _ _, minterms_length_le _ _⟩

theorem C4_witness :
    1 ≤ (varSet ['B', 'A']).length ∧ 0 < (varSet ['B', 'A']).length ∧
    ((∀ i, mkAssign (varSet ['B', 'A']) i ((varSet ['B', 'A']).length - 1)
          ((varSet ['B', 'A']).get ⟨0, by decide⟩)
        = (i >>> ((varSet ['B', 'A']).length - 1 - 0)) &&& 1)
      ∧ List.Sorted (· < ·) (minterms (OpNode.varN 'A') (varSet ['B', 'A']))
      ∧ (minterms (OpNode.varN 'A') (varSet ['B', 'A'])).length
          ≤ 2 ^ (varSet ['B', 'A']).length) :=
  ⟨by decide, by decide,
    C4_enumeration_order ['B', 'A'] (OpNode.varN 'A') 0 (by decide) (by decide)⟩

/-! ### C8: constant-case handling in `analyze` -/

/-- C8: with an empty variable set `analyze` reports the constant value of a
single tree evaluation (no truth table, no minterm search); otherwise an
empty minterm set yields the constant-0 verdict and a full minterm set the
constant-1 verdict, both decided before the prime-implicant generator and
cover selector run. -/
theorem C8_constant_cases (input rpn : List Char) (root : OpNode)
    (hv : validate input = true)
    (hr : cvtRPN (cvtAL input) = some rpn)
    (hb : buildGo rpn [] = Except.ok [root]) :
    (varSet input = [] →
      analyze input = Except.ok ⟨varSet input, [], .constant (eval (fun _ => 0) root)⟩)
    ∧ (varSet input ≠ [] → minterms root (varSet input) = [] →
      analyze input = Except.ok ⟨varSet input, minterms root (varSet input), .zero⟩)
    ∧ (varSet input ≠ [] →
      (minterms root (varSet input)).length = 2 ^ (varSet input).length →
      analyze input = Except.ok ⟨varSet input, minterms root (varSet input), .one⟩) := by
  have hlen0 : ((varSet input).length = 0) = (varSet input = []) := by
    simp [List.length_eq_zero]
  refine ⟨?_, ?_, ?_⟩
  · intro h0
    simp [analyze, hv, hr, hb, h0]
  · intro hne hm
    simp [analyze, hv, hr, hb, hlen0, hne, hm]
  · intro hne hlen
    have hmne : minterms root (varSet input) ≠ [] := by
      intro h
      rw [h] at hlen
      have hp : (0 : Nat) < 2 ^ (varSet input).length := Nat.pos_pow_of_pos _ (by norm_num)
      simp at hlen
      omega
    simp [analyze, hv, hr, hb, hlen0, hne, hmne, hlen]

theorem C8_witness :
    validate ['0'] = true ∧ cvtRPN (cvtAL ['0']) = some ['0'] ∧
    buildGo ['0'] [] = Except.ok [OpNode.constN 0] ∧
    ((varSet ['0'] = [] →
      analyze ['0'] = Except.ok ⟨varSet ['0'], [],
        .constant (eval (fun _ => 0) (OpNode.constN 0))⟩)
    ∧ (varSet ['0'] ≠ [] → minterms (OpNode.constN 0) (varSet ['0']) = [] →
      analyze ['0'] = Except.ok ⟨varSet ['0'],
        minterms (OpNode.constN 0) (varSet ['0']), .zero⟩)
    ∧ (varSet ['0'] ≠ [] →
      (minterms (OpNode.constN 0) (varSet ['0'])).length = 2 ^ (varSet ['0']).length →
      analyze ['0'] = Except.ok ⟨varSet ['0'],
        minterms (OpNode.constN 0) (varSet ['0']), .one⟩)) :=
  ⟨by decide, rfl, rfl, C8_constant_cases ['0'] ['0'] (OpNode.constN 0) (by decide) rfl rfl⟩

/-! ### C9: the NOT-run collapse pass -/

/-- Modelled from the spec's wording of the collapse pass (C9): walk the
postfix stream; each maximal contiguous run of `k` NOT markers collapses to
one marker if `k` is odd and none if `k` is even, and every other token is
copied unchanged. -/
def collapseRunsSpec : List Char → List Char
  | [] => []
  | c :: cs =>
    if c = quote then
      (if (1 + (cs.takeWhile (fun x => x = quote)).length) % 2 = 1 then [quote] else [])
        ++ collapseRunsSpec (cs.dropWhile (fun x => x = quote))
    else c :: collapseRunsSpec cs
termination_by l => l.length
decreasing_by
  all_goals simp only [List.length_cons]
  all_goals first
    | exact Nat.lt_succ_of_le (List.IsSuffix.length_le (List.dropWhile_suffix _))
    | omega

theorem compress_quote_cons (cs : List Char) (j : Nat) :
    compress (quote :: cs) j = compress cs (j + 1) := by
  rw [compress]
  simp

theorem compress_other_cons {c : Char} (h : ¬ c = quote) (cs : List Char) (j : Nat) :
    compress (c :: cs) j = (if j % 2 = 1 then [quote] else []) ++ c :: compress cs 0 := by
  rw [compress, if_neg h]

theorem compress_replicate (k : Nat) (rest : List Char) (j : Nat) :
    compress (List.replicate k quote ++ rest) j = compress rest (j + k) := by
  induction k generalizing j with
  | zero => simp
  | succ k ih =>
    rw [List.replicate_succ, List.cons_append, compress_quote_cons, ih]
    congr 1
    omega

theorem takeWhile_quote_replicate (cs : List Char) :
    cs.takeWhile (fun x => x = quote)
      = List.replicate (cs.takeWhile (fun x => x = quote)).length quote := by
  rw [List.eq_replicate]
  refine ⟨rfl, fun b hb => ?_⟩
  have h := List.mem_takeWhile_imp hb
  exact of_decide_eq_true h

theorem dropWhile_head_false (p : Char → Bool) :
    ∀ (cs : List Char) {d : Char} {ds : List Char},
      cs.dropWhile p = d :: ds → p d = false
  | [], _, _, h => by simp [List.dropWhile] at h
  | c :: cs, d, ds, h => by
    rw [List.dropWhile_cons] at h
    by_cases hp : p c
    · rw [if_pos hp] at h
      exact dropWhile_head_false p cs h
    · rw [if_neg hp] at h
      injection h with h1 _
      subst h1
      exact Bool.eq_false_iff.mpr hp

theorem compress_eq_collapse_len :
    ∀ (n : Nat) (l : List Char), l.length ≤ n → compress l 0 = collapseRunsSpec l := by
  intro n
  induction n with
  | zero =>
    intro l hl
    have h0 : l = [] := List.length_eq_zero.mp (Nat.le_zero.mp hl)
    subst h0
    simp [compress, collapseRunsSpec]
  | succ n ih =>
    intro l hl
    match l with
    | [] => simp [compress, collapseRunsSpec]
    | c :: cs =>
      by_cases hc : c = quote
      · subst hc
        rw [collapseRunsSpec, if_pos rfl]
        have hsplit : quote :: cs
            = List.replicate (1 + (cs.takeWhile (fun x => x = quote)).length) quote
              ++ cs.dropWhile (fun x => x = quote) := by
          rw [Nat.one_add, List.replicate_succ, List.cons_append,
            ← takeWhile_quote_replicate, List.takeWhile_append_dropWhile]
        rw [hsplit, compress_replicate, Nat.zero_add]
        have hdl := List.IsSuffix.length_le
          (List.dropWhile_suffix (l := cs) (fun x => x = quote))
        rcases hdrop : cs.dropWhile (fun x => x = quote) with _ | ⟨d, ds⟩
        · simp [compress, collapseRunsSpec]
        · have hd : ¬ d = quote := by
            have hb := dropWhile_head_false (fun x => x = quote) cs hdrop
            exact of_decide_eq_false hb
          rw [compress_other_cons hd, collapseRunsSpec, if_neg hd]
          have hds : ds.length ≤ n := by
            rw [hdrop] at hdl
            simp only [List.length_cons] at hdl hl
            omega
          rw [ih ds hds]
      · rw [compress_other_cons hc, collapseRunsSpec, if_neg hc]
        simp only [List.length_cons] at hl
        rw [ih cs (by omega)]
        simp

/-- C9: the character-counting compression pass of `cvtRPN` collapses every
maximal contiguous run of `k` NOT markers to exactly `k % 2` markers and
changes nothing else in the postfix stream (equivalence with the run-based
description of the spec), and `cvtRPN` applies exactly this pass to its
postfix output. -/
theorem C9_not_run_collapse :
    (∀ l : List Char, compress l 0 = collapseRunsSpec l)
    ∧ (∀ e : List Char, cvtRPN e = (rpnGo e [] []).map collapseRunsSpec) := by
  have h : ∀ l : List Char, compress l 0 = collapseRunsSpec l :=
    fun l => compress_eq_collapse_len l.length l le_rfl
  refine ⟨h, fun e => ?_⟩
  rw [cvtRPN]
  rcases rpnGo e [] [] with _ | t
  · rfl
  · simp [h t]

/-! ### Pattern combinatorics for the merge phase -/

/-- Consistency of a minterm index with a pattern: reading the pattern from
the most significant side, every non-dash position must equal the
corresponding bit.  Position `l` of a pattern of length `N` governs bit
`N - 1 - l`, so the head of `c :: p` governs bit `p.length`. -/
def consistent : Pat → Nat → Bool
  | [], _ => true
  | c :: p, i => (c = '-' || c = bitChar i p.length) && consistent p i

/-- The set of minterm indices a pattern denotes. -/
def cube (p : Pat) : Finset Nat :=
  (Finset.range (2 ^ p.length)).filter (fun i => consistent p i = true)

/-- The numeric value of a binary pattern (most significant first). -/
def natOfPat (p : Pat) : Nat :=
  p.foldl (fun acc c => 2 * acc + (if c = '1' then 1 else 0)) 0

/-- Number of dash positions. -/
def dcount (p : Pat) : Nat := (p.filter (fun c => c = '-')).length

/-- Every character is `0` or `1`. -/
def binPat (p : Pat) : Prop := ∀ c ∈ p, c = '0' ∨ c = '1'

/-- Every character is `0`, `1` or `-`. -/
def patChars (p : Pat) : Prop := ∀ c ∈ p, c = '0' ∨ c = '1' ∨ c = '-'

theorem bitChar_eq (i j : Nat) : bitChar i j = if i / 2 ^ j % 2 = 1 then '1' else '0' := by
  simp [bitChar, Nat.shiftRight_eq_div_pow, Nat.and_one_is_mod]

theorem bitChar_cases (i j : Nat) : bitChar i j = '0' ∨ bitChar i j = '1' := by
  rw [bitChar_eq]
  split
  · exact Or.inr rfl
  · exact Or.inl rfl

theorem mem_cube {p : Pat} {i : Nat} :
    i ∈ cube p ↔ i < 2 ^ p.length ∧ consistent p i = true := by
  rw [cube, Finset.mem_filter, Finset.mem_range]

theorem natOfPat_go : ∀ (p : Pat) (a : Nat),
    p.foldl (fun acc c => 2 * acc + (if c = '1' then 1 else 0)) a
      = a * 2 ^ p.length + natOfPat p
  | [], a => by simp [natOfPat]
  | c :: q, a => by
    rw [natOfPat, List.foldl_cons, List.foldl_cons, natOfPat_go q, natOfPat_go q]
    simp only [List.length_cons]
    ring

theorem natOfPat_cons (c : Char) (q : Pat) :
    natOfPat (c :: q) = (if c = '1' then 1 else 0) * 2 ^ q.length + natOfPat q := by
  rw [natOfPat, List.foldl_cons, natOfPat_go q]
  simp

theorem natOfPat_lt (p : Pat) : natOfPat p < 2 ^ p.length := by
  induction p with
  | nil => simp [natOfPat]
  | cons c q ih =>
    rw [natOfPat_cons]
    simp only [List.length_cons, pow_succ]
    split
    · omega
    · omega

/-- Characterization of consistency with a fully binary pattern. -/
theorem consistent_binPat {p : Pat} (hb : binPat p) (j : Nat) :
    consistent p j = true ↔ j % 2 ^ p.length = natOfPat p := by
  induction p with
  | nil => simp [consistent, natOfPat, Nat.mod_one]
  | cons c q ih =>
    have hbq : binPat q := fun x hx => hb x (List.mem_cons_of_mem c hx)
    have hc := hb c (List.mem_cons_self c q)
    have hmod : j % 2 ^ (q.length + 1) = j % 2 ^ q.length + 2 ^ q.length * (j / 2 ^ q.length % 2) := by
      rw [pow_succ]
      exact Nat.mod_mul
    have hnq := natOfPat_lt q
    have hdec : (decide (c = '-') || decide (c = bitChar j q.length)) = true
        ↔ (if c = '1' then 1 else 0) = j / 2 ^ q.length % 2 := by
      have h2 : j / 2 ^ q.length % 2 = 0 ∨ j / 2 ^ q.length % 2 = 1 := Nat.mod_two_eq_zero_or_one _
      rcases hc with rfl | rfl
      · rcases h2 with h2 | h2
        · simp [bitChar_eq, h2]
        · simp [bitChar_eq, h2]
      · rcases h2 with h2 | h2
        · simp [bitChar_eq, h2]
        · simp [bitChar_eq, h2]
    rw [consistent, natOfPat_cons]
    simp only [List.length_cons, Bool.and_eq_true, hdec, ih hbq, hmod]
    have h2 : j / 2 ^ q.length % 2 = 0 ∨ j / 2 ^ q.length % 2 = 1 :=
      Nat.mod_two_eq_zero_or_one _
    have hjq : j % 2 ^ q.length < 2 ^ q.length :=
      Nat.mod_lt _ (Nat.pos_pow_of_pos _ (by norm_num))
    rcases h2 with h2 | h2 <;> rcases hc with rfl | rfl <;> simp [h2] <;> omega

theorem patOfNat_succ (N i : Nat) :
    patOfNat (N + 1) i = bitChar i N :: patOfNat N i := by
  simp only [patOfNat, List.range_succ_eq_map, List.map_cons, List.map_map]
  refine congrArg₂ List.cons ?_ ?_
  · norm_num
  · apply List.map_congr_left
    intro t ht
    simp only [Function.comp_apply]
    congr 1
    omega

theorem patOfNat_length (N i : Nat) : (patOfNat N i).length = N := by
  simp [patOfNat]

theorem patOfNat_binPat (N i : Nat) : binPat (patOfNat N i) := by
  intro c hc
  rw [patOfNat] at hc
  rcases List.mem_map.mp hc with ⟨t, _, rfl⟩
  rcases bitChar_cases i (N - 1 - t) with h | h
  · exact Or.inl h
  · exact Or.inr h

theorem natOfPat_patOfNat (N i : Nat) : natOfPat (patOfNat N i) = i % 2 ^ N := by
  induction N with
  | zero => simp [patOfNat, natOfPat, Nat.mod_one]
  | succ n ih =>
    rw [patOfNat_succ, natOfPat_cons, ih, patOfNat_length]
    have hb : (if bitChar i n = '1' then 1 else 0) = i / 2 ^ n % 2 := by
      have h2 : i / 2 ^ n % 2 = 0 ∨ i / 2 ^ n % 2 = 1 := Nat.mod_two_eq_zero_or_one _
      rcases h2 with h2 | h2
      · simp [bitChar_eq, h2]
      · simp [bitChar_eq, h2]
    rw [hb, pow_succ, Nat.mod_mul]
    ring

theorem cube_patOfNat_self {N i : Nat} (hi : i < 2 ^ N) :
    cube (patOfNat N i) = {i} := by
  ext j
  rw [mem_cube, Finset.mem_singleton, patOfNat_length]
  rw [consistent_binPat (patOfNat_binPat N i), patOfNat_length, natOfPat_patOfNat]
  constructor
  · rintro ⟨hj, hje⟩
    rw [Nat.mod_eq_of_lt hj, Nat.mod_eq_of_lt hi] at hje
    exact hje
  · rintro rfl
    rw [Nat.mod_eq_of_lt hi]
    exact ⟨hi, rfl⟩

theorem consistent_append (p q : Pat) (i : Nat) :
    consistent (p ++ q) i = (consistent p (i >>> q.length) && consistent q i) := by
  induction p with
  | nil => simp [consistent]
  | cons c p ih =>
    have hb : bitChar i (p.length + q.length) = bitChar (i >>> q.length) p.length := by
      simp only [bitChar_eq, Nat.shiftRight_eq_div_pow, Nat.div_div_eq_div_mul]
      rw [pow_add, mul_comm (2 ^ p.length)]
    simp only [List.cons_append, consistent, List.append_eq, List.length_append, ih, hb,
      Bool.and_assoc]

theorem consistent_dash_split (x b : Pat) (i : Nat) :
    consistent (x ++ '-' :: b) i
      = (consistent (x ++ '0' :: b) i || consistent (x ++ '1' :: b) i) := by
  simp only [consistent_append, consistent, List.length_cons]
  rcases bitChar_cases i b.length with h | h <;>
    cases hx : consistent x (i >>> (b.length + 1)) <;>
      cases hcb : consistent b i <;> simp [h]

theorem count1_append (x y : Pat) : count1 (x ++ y) = count1 x + count1 y := by
  simp [count1, List.filter_append]

theorem dcount_append (x y : Pat) : dcount (x ++ y) = dcount x + dcount y := by
  simp [dcount, List.filter_append]

theorem count1_cons (c : Char) (p : Pat) :
    count1 (c :: p) = (if c = '1' then 1 else 0) + count1 p := by
  rw [count1, List.filter_cons]
  split
  · next h => simp only [List.length_cons, count1]; rw [if_pos (of_decide_eq_true h)]; omega
  · next h =>
    rw [count1, if_neg ?_]
    · omega
    · intro hc; rw [hc] at h; simp at h

theorem dcount_cons (c : Char) (p : Pat) :
    dcount (c :: p) = (if c = '-' then 1 else 0) + dcount p := by
  rw [dcount, List.filter_cons]
  split
  · next h => simp only [List.length_cons, dcount]; rw [if_pos (of_decide_eq_true h)]; omega
  · next h =>
    rw [dcount, if_neg ?_]
    · omega
    · intro hc; rw [hc] at h; simp at h

theorem diffCnt_cons (x y : Char) (p q : Pat) :
    diffCnt (x :: p) (y :: q) = (if x = y then 0 else 1) + diffCnt p q := by
  rw [diffCnt, List.zip_cons_cons, List.filter_cons]
  split
  · next h =>
    have hxy : ¬ x = y := of_decide_eq_true h
    rw [if_neg hxy]
    simp only [List.length_cons, diffCnt]
    omega
  · next h =>
    have hxy : x = y := by
      by_contra hne
      rw [decide_eq_true (by exact hne : (x, y).1 ≠ (x, y).2)] at h
      exact h rfl
    rw [if_pos hxy, diffCnt]
    omega

theorem mergePat_cons (x y : Char) (p q : Pat) :
    mergePat (x :: p) (y :: q) = (if x = y then x else '-') :: mergePat p q := by
  rw [mergePat, List.zip_cons_cons, List.map_cons, mergePat]

theorem diffCnt_self (p : Pat) : diffCnt p p = 0 := by
  induction p with
  | nil => rfl
  | cons c q ih => rw [diffCnt_cons, if_pos rfl, ih]

theorem mergePat_self (p : Pat) : mergePat p p = p := by
  induction p with
  | nil => rfl
  | cons c q ih => rw [mergePat_cons, if_pos rfl, ih]

theorem diffCnt_zero_iff : ∀ {p q : Pat}, p.length = q.length → (diffCnt p q = 0 ↔ p = q)
  | [], [], _ => by simp [diffCnt]
  | [], _ :: _, h => by simp at h
  | _ :: _, [], h => by simp at h
  | x :: p, y :: q, h => by
    rw [diffCnt_cons]
    have ih := diffCnt_zero_iff (p := p) (q := q) (by simpa using h)
    constructor
    · intro h0
      have hxy : x = y := by
        by_contra hne
        rw [if_neg hne] at h0
        omega
      rw [if_pos hxy] at h0
      simp only [Nat.zero_add] at h0
      rw [hxy, ih.mp h0]
    · intro he
      injection he with h1 h2
      rw [if_pos h1, ih.mpr h2]

theorem diffCnt_append (a b u v : Pat) (h : a.length = b.length) :
    diffCnt (a ++ u) (b ++ v) = diffCnt a b + diffCnt u v := by
  rw [diffCnt, List.zip_append h, List.filter_append, List.length_append, diffCnt, diffCnt]

theorem mergePat_append (a b u v : Pat) (h : a.length = b.length) :
    mergePat (a ++ u) (b ++ v) = mergePat a b ++ mergePat u v := by
  rw [mergePat, List.zip_append h, List.map_append, mergePat, mergePat]

theorem diffCnt_one_decomp : ∀ {j k : Pat}, j.length = k.length → diffCnt j k = 1 →
    ∃ (x b : Pat) (c₁ c₂ : Char), j = x ++ c₁ :: b ∧ k = x ++ c₂ :: b ∧ ¬ c₁ = c₂
  | [], [], _, h1 => by simp [diffCnt] at h1
  | [], _ :: _, h, _ => by simp at h
  | _ :: _, [], h, _ => by simp at h
  | x :: p, y :: q, h, h1 => by
    have hlen : p.length = q.length := by simpa using h
    by_cases hxy : x = y
    · rw [diffCnt_cons, if_pos hxy, Nat.zero_add] at h1
      rcases diffCnt_one_decomp hlen h1 with ⟨a, b, c₁, c₂, hp, hq, hne⟩
      exact ⟨x :: a, b, c₁, c₂, by rw [hp]; rfl, by rw [hxy, hq]; rfl, hne⟩
    · rw [diffCnt_cons, if_neg hxy] at h1
      have h0 : diffCnt p q = 0 := by omega
      have hpq : p = q := (diffCnt_zero_iff hlen).mp h0
      exact ⟨[], p, x, y, rfl, by rw [hpq]; rfl, hxy⟩

theorem mergePat_decomp (x b : Pat) (c₁ c₂ : Char) (hne : ¬ c₁ = c₂) :
    mergePat (x ++ c₁ :: b) (x ++ c₂ :: b) = x ++ '-' :: b := by
  rw [mergePat_append _ _ _ _ rfl, mergePat_self, mergePat_cons, if_neg hne, mergePat_self]

theorem diffCnt_flip (x b : Pat) (c₁ c₂ : Char) (hne : ¬ c₁ = c₂) :
    diffCnt (x ++ c₁ :: b) (x ++ c₂ :: b) = 1 := by
  rw [diffCnt_append _ _ _ _ rfl, diffCnt_self, diffCnt_cons, if_neg hne, diffCnt_self]

/-! ### Implicants and prime implicants -/

/-- An implicant of the minterm set `M` over `N` variables: a well-formed
pattern whose cube lies inside `M`. -/
def implicant (N : Nat) (M : Finset Nat) (p : Pat) : Prop :=
  p.length = N ∧ patChars p ∧ cube p ⊆ M

/-- A prime implicant: an implicant none of whose fixed positions can be
generalized to `-` while remaining an implicant. -/
def primeImp (N : Nat) (M : Finset Nat) (p : Pat) : Prop :=
  implicant N M p ∧
    ∀ x c b, p = x ++ c :: b → ¬ c = '-' → ¬ implicant N M (x ++ '-' :: b)

theorem cube_dash_union (x b : Pat) :
    cube (x ++ '-' :: b) = cube (x ++ '0' :: b) ∪ cube (x ++ '1' :: b) := by
  ext i
  simp only [Finset.mem_union, mem_cube, List.length_append, List.length_cons]
  rw [consistent_dash_split]
  simp only [Bool.or_eq_true]
  tauto

theorem patChars_sub (x b : Pat) (c c' : Char) (h : patChars (x ++ c :: b))
    (hc' : c' = '0' ∨ c' = '1' ∨ c' = '-') : patChars (x ++ c' :: b) := by
  intro d hd
  rcases List.mem_append.mp hd with hd | hd
  · exact h d (List.mem_append.mpr (Or.inl hd))
  · rcases List.mem_cons.mp hd with rfl | hd
    · exact hc'
    · exact h d (List.mem_append.mpr (Or.inr (List.mem_cons_of_mem _ hd)))

theorem implicant_restrict {N : Nat} {M : Finset Nat} {x b : Pat} {c : Char}
    (h : implicant N M (x ++ '-' :: b)) (hc : c = '0' ∨ c = '1') :
    implicant N M (x ++ c :: b) := by
  obtain ⟨hlen, hchars, hcube⟩ := h
  refine ⟨by simp only [List.length_append, List.length_cons] at hlen ⊢; exact hlen,
    patChars_sub x b '-' c hchars (by tauto), ?_⟩
  intro i hi
  apply hcube
  rw [cube_dash_union]
  rcases hc with rfl | rfl
  · exact Finset.mem_union.mpr (Or.inl hi)
  · exact Finset.mem_union.mpr (Or.inr hi)

theorem implicant_merge {N : Nat} {M : Finset Nat} {x b : Pat}
    (h0 : implicant N M (x ++ '0' :: b)) (h1 : implicant N M (x ++ '1' :: b)) :
    implicant N M (x ++ '-' :: b) := by
  obtain ⟨hlen, hchars, hcube0⟩ := h0
  refine ⟨by simp only [List.length_append, List.length_cons] at hlen ⊢; exact hlen,
    patChars_sub x b '0' '-' hchars (by tauto), ?_⟩
  rw [cube_dash_union]
  exact Finset.union_subset hcube0 h1.2.2

theorem dcount_mid (x b : Pat) (c : Char) :
    dcount (x ++ c :: b) = dcount x + ((if c = '-' then 1 else 0) + dcount b) := by
  rw [dcount_append, dcount_cons]

theorem count1_mid (x b : Pat) (c : Char) :
    count1 (x ++ c :: b) = count1 x + ((if c = '1' then 1 else 0) + count1 b) := by
  rw [count1_append, count1_cons]

theorem all_of_filter_length {f : Char → Bool} :
    ∀ {p : List Char}, (p.filter f).length = p.length → ∀ a ∈ p, f a = true
  | [], _, a, ha => by simp at ha
  | c :: q, h, a, ha => by
    rw [List.filter_cons] at h
    by_cases hc : f c = true
    · rw [if_pos hc] at h
      simp only [List.length_cons] at h
      rcases List.mem_cons.mp ha with rfl | ha
      · exact hc
      · exact all_of_filter_length (by omega) a ha
    · rw [if_neg hc] at h
      have hle := List.length_filter_le f q
      simp only [List.length_cons] at h
      omega

theorem dash_exists {p : Pat} (h : 0 < dcount p) : ∃ x b, p = x ++ '-' :: b := by
  rw [dcount] at h
  rcases List.exists_mem_of_length_pos h with ⟨e, he⟩
  rcases List.mem_filter.mp he with ⟨hep, hee⟩
  have he2 : e = '-' := of_decide_eq_true hee
  subst he2
  exact List.append_of_mem hep

theorem dcount_le_length (p : Pat) : dcount p ≤ p.length := List.length_filter_le _ _

theorem stratum_descend {N : Nat} {M : Finset Nat} {t : Nat}
    (h : ∃ p, implicant N M p ∧ dcount p = t + 1) :
    ∃ p, implicant N M p ∧ dcount p = t := by
  rcases h with ⟨p, hp, hd⟩
  have hdp : 0 < dcount p := by omega
  rcases dash_exists hdp with ⟨x, b, rfl⟩
  refine ⟨x ++ '0' :: b, implicant_restrict hp (Or.inl rfl), ?_⟩
  rw [dcount_mid] at hd
  rw [dcount_mid, if_neg (by decide)]
  rw [if_pos rfl] at hd
  omega

theorem all_dash_prime {N : Nat} {M : Finset Nat} {q : Pat}
    (hq : implicant N M q) (hd : dcount q = q.length) : primeImp N M q := by
  refine ⟨hq, ?_⟩
  intro x c b heq hcd _
  apply hcd
  have hall := all_of_filter_length (f := fun c => c = '-') hd
  have hc : c ∈ q := by rw [heq]; exact List.mem_append.mpr (Or.inr (List.mem_cons_self _ _))
  exact of_decide_eq_true (hall c hc)

theorem prime_extend {N : Nat} {M : Finset Nat} :
    ∀ (t : Nat) (q : Pat) (i : Nat), implicant N M q → consistent q i = true →
      N - dcount q ≤ t → ∃ p, primeImp N M p ∧ consistent p i = true := by
  intro t
  induction t with
  | zero =>
    intro q i hq hc hd
    have hlen : q.length = N := hq.1
    have hdq : dcount q = q.length := by
      have := dcount_le_length q
      omega
    exact ⟨q, all_dash_prime hq hdq, hc⟩
  | succ t ih =>
    intro q i hq hc hd
    by_cases hprime : primeImp N M q
    · exact ⟨q, hprime, hc⟩
    · rw [primeImp] at hprime
      push_neg at hprime
      obtain ⟨x, c, b, heq, hcd, himp⟩ := hprime hq
      have hcbin : c = '0' ∨ c = '1' := by
        have hcq : c ∈ q := by
          rw [heq]; exact List.mem_append.mpr (Or.inr (List.mem_cons_self _ _))
        rcases hq.2.1 c hcq with h | h | h
        · exact Or.inl h
        · exact Or.inr h
        · exact absurd h hcd
      have hcons : consistent (x ++ '-' :: b) i = true := by
        rw [consistent_dash_split]
        rcases hcbin with rfl | rfl
        · rw [heq] at hc; simp [hc]
        · rw [heq] at hc; simp [hc]
      have hdc : dcount (x ++ '-' :: b) = dcount q + 1 := by
        rcases hcbin with rfl | rfl
        · rw [heq, dcount_mid, dcount_mid, if_pos rfl, if_neg (by decide)]
          omega
        · rw [heq, dcount_mid, dcount_mid, if_pos rfl, if_neg (by decide)]
          omega
      have hlt : N - dcount (x ++ '-' :: b) ≤ t := by
        omega
      exact ih (x ++ '-' :: b) i himp hcons hlt

theorem binPat_patChars {p : Pat} (h : binPat p) : patChars p :=
  fun c hc => (h c hc).elim (fun h1 => Or.inl h1) (fun h1 => Or.inr (Or.inl h1))

/-- Every minterm of `M` lies in the cube of some prime implicant. -/
theorem prime_cover {N : Nat} {M : Finset Nat} {i : Nat} (hi : i ∈ M) (hlt : i < 2 ^ N) :
    ∃ p, primeImp N M p ∧ consistent p i = true := by
  have himp : implicant N M (patOfNat N i) := by
    refine ⟨patOfNat_length N i, binPat_patChars (patOfNat_binPat N i), ?_⟩
    rw [cube_patOfNat_self hlt]
    intro j hj
    rw [Finset.mem_singleton] at hj
    rw [hj]
    exact hi
  have hcons : consistent (patOfNat N i) i = true := by
    have hmem : i ∈ cube (patOfNat N i) := by
      rw [cube_patOfNat_self hlt]
      exact Finset.mem_singleton_self i
    exact (mem_cube.mp hmem).2
  exact prime_extend N (patOfNat N i) i himp hcons (by omega)

/-! ### Characterizing one round's comparison fold -/

theorem stMem_cons {q p : Pat} {v : Finset Nat} {st : STMap} :
    stMem ((q, v) :: st) p = true ↔ q = p ∨ stMem st p = true := by
  rw [stMem, stFind?]
  by_cases h : q = p
  · simp [h]
  · simp only [if_neg h]
    rw [← stMem]
    tauto

theorem stFind?_cons_ne {st : STMap} {tmp p : Pat} {v : Finset Nat} (h : ¬ tmp = p) :
    stFind? ((tmp, v) :: st) p = stFind? st p := by
  rw [stFind?, if_neg h]

/-- Case analysis on one comparison step. -/
theorem cmpStep_cases (a : CmpAcc) (jk : Pat × Pat) :
    (diffCnt jk.1 jk.2 ≠ 1 ∧ cmpStep a jk = a) ∨
    (diffCnt jk.1 jk.2 = 1 ∧ stMem a.st (mergePat jk.1 jk.2) = true ∧
      cmpStep a jk = ⟨a.st, a.tls, jk.1 :: jk.2 :: a.chk, true⟩) ∨
    (diffCnt jk.1 jk.2 = 1 ∧ stMem a.st (mergePat jk.1 jk.2) = false ∧
      cmpStep a jk =
        ⟨(mergePat jk.1 jk.2, stGet a.st jk.1 ∪ stGet a.st jk.2) :: a.st,
          a.tls ++ [mergePat jk.1 jk.2], jk.1 :: jk.2 :: a.chk, true⟩) := by
  rw [cmpStep]
  split
  · next h =>
    by_cases hm : stMem a.st (mergePat jk.1 jk.2) = true
    · right; left
      exact ⟨h, hm, by simp [hm]⟩
    · have hm' : stMem a.st (mergePat jk.1 jk.2) = false := by
        cases hx : stMem a.st (mergePat jk.1 jk.2)
        · rfl
        · exact absurd hx hm
      right; right
      refine ⟨h, hm', ?_⟩
      simp [hm']
  · next h => exact Or.inl ⟨h, rfl⟩

theorem fold_f_char (L : List (Pat × Pat)) (a : CmpAcc) :
    (L.foldl cmpStep a).f = true ↔
      a.f = true ∨ ∃ jk ∈ L, diffCnt jk.1 jk.2 = 1 := by
  induction L generalizing a with
  | nil => simp
  | cons jk L ih =>
    rw [List.foldl_cons, ih]
    rcases cmpStep_cases a jk with ⟨hs, he⟩ | ⟨hs, _, he⟩ | ⟨hs, _, he⟩ <;> rw [he] <;>
      simp only [List.mem_cons] <;>
      constructor
    · rintro (h | ⟨jk', h1, h2⟩)
      · exact Or.inl h
      · exact Or.inr ⟨jk', Or.inr h1, h2⟩
    · rintro (h | ⟨jk', rfl | h1, h2⟩)
      · exact Or.inl h
      · exact absurd h2 hs
      · exact Or.inr ⟨jk', h1, h2⟩
    · rintro _
      exact Or.inr ⟨jk, Or.inl rfl, hs⟩
    · rintro _
      exact Or.inl trivial
    · rintro _
      exact Or.inr ⟨jk, Or.inl rfl, hs⟩
    · rintro _
      exact Or.inl trivial

theorem fold_chk_char (L : List (Pat × Pat)) (a : CmpAcc) (p : Pat) :
    p ∈ (L.foldl cmpStep a).chk ↔
      p ∈ a.chk ∨ ∃ jk ∈ L, diffCnt jk.1 jk.2 = 1 ∧ (p = jk.1 ∨ p = jk.2) := by
  induction L generalizing a with
  | nil => simp
  | cons jk L ih =>
    rw [List.foldl_cons, ih]
    rcases cmpStep_cases a jk with ⟨hs, he⟩ | ⟨hs, _, he⟩ | ⟨hs, _, he⟩ <;> rw [he] <;>
      simp only [List.mem_cons] <;>
      constructor
    · rintro (h | ⟨jk', h1, h2⟩)
      · exact Or.inl h
      · exact Or.inr ⟨jk', Or.inr h1, h2⟩
    · rintro (h | ⟨jk', rfl | h1, h2⟩)
      · exact Or.inl h
      · exact absurd h2.1 hs
      · exact Or.inr ⟨jk', h1, h2⟩
    · rintro ((h | h | h) | ⟨jk', h1, h2⟩)
      · exact Or.inr ⟨jk, Or.inl rfl, hs, Or.inl h⟩
      · exact Or.inr ⟨jk, Or.inl rfl, hs, Or.inr h⟩
      · exact Or.inl h
      · exact Or.inr ⟨jk', Or.inr h1, h2⟩
    · rintro (h | ⟨jk', rfl | h1, h2⟩)
      · exact Or.inl (Or.inr (Or.inr h))
      · rcases h2.2 with rfl | rfl
        · exact Or.inl (Or.inl rfl)
        · exact Or.inl (Or.inr (Or.inl rfl))
      · exact Or.inr ⟨jk', h1, h2⟩
    · rintro ((h | h | h) | ⟨jk', h1, h2⟩)
      · exact Or.inr ⟨jk, Or.inl rfl, hs, Or.inl h⟩
      · exact Or.inr ⟨jk, Or.inl rfl, hs, Or.inr h⟩
      · exact Or.inl h
      · exact Or.inr ⟨jk', Or.inr h1, h2⟩
    · rintro (h | ⟨jk', rfl | h1, h2⟩)
      · exact Or.inl (Or.inr (Or.inr h))
      · rcases h2.2 with rfl | rfl
        · exact Or.inl (Or.inl rfl)
        · exact Or.inl (Or.inr (Or.inl rfl))
      · exact Or.inr ⟨jk', h1, h2⟩

theorem fold_st_char (L : List (Pat × Pat)) (a : CmpAcc) (p : Pat) :
    stMem ((L.foldl cmpStep a).st) p = true ↔
      stMem a.st p = true ∨ ∃ jk ∈ L, diffCnt jk.1 jk.2 = 1 ∧ mergePat jk.1 jk.2 = p := by
  induction L generalizing a with
  | nil => simp
  | cons jk L ih =>
    rw [List.foldl_cons, ih]
    rcases cmpStep_cases a jk with ⟨hs, he⟩ | ⟨hs, hm, he⟩ | ⟨hs, hm, he⟩ <;> rw [he] <;>
      simp only [List.mem_cons, stMem_cons] <;>
      constructor
    · rintro (h | ⟨jk', h1, h2⟩)
      · exact Or.inl h
      · exact Or.inr ⟨jk', Or.inr h1, h2⟩
    · rintro (h | ⟨jk', rfl | h1, h2⟩)
      · exact Or.inl h
      · exact absurd h2.1 hs
      · exact Or.inr ⟨jk', h1, h2⟩
    · rintro (h | ⟨jk', h1, h2⟩)
      · exact Or.inl h
      · exact Or.inr ⟨jk', Or.inr h1, h2⟩
    · rintro (h | ⟨jk', rfl | h1, h2⟩)
      · exact Or.inl h
      · rw [← h2.2]; exact Or.inl hm
      · exact Or.inr ⟨jk', h1, h2⟩
    · rintro ((h | h) | ⟨jk', h1, h2⟩)
      · exact Or.inr ⟨jk, Or.inl rfl, hs, h⟩
      · exact Or.inl h
      · exact Or.inr ⟨jk', Or.inr h1, h2⟩
    · rintro (h | ⟨jk', rfl | h1, h2⟩)
      · exact Or.inl (Or.inr h)
      · exact Or.inl (Or.inl h2.2)
      · exact Or.inr ⟨jk', h1, h2⟩

theorem fold_tls_char (L : List (Pat × Pat)) (a : CmpAcc) (p : Pat) :
    p ∈ (L.foldl cmpStep a).tls ↔
      p ∈ a.tls ∨ (stMem a.st p = false ∧
        ∃ jk ∈ L, diffCnt jk.1 jk.2 = 1 ∧ mergePat jk.1 jk.2 = p) := by
  induction L generalizing a with
  | nil => simp
  | cons jk L ih =>
    rw [List.foldl_cons, ih]
    rcases cmpStep_cases a jk with ⟨hs, he⟩ | ⟨hs, hm, he⟩ | ⟨hs, hm, he⟩ <;> rw [he] <;>
      simp only [List.mem_cons, List.mem_append, List.not_mem_nil, or_false] <;>
      constructor
    · rintro (h | ⟨hsm, jk', h1, h2⟩)
      · exact Or.inl h
      · exact Or.inr ⟨hsm, jk', Or.inr h1, h2⟩
    · rintro (h | ⟨hsm, jk', rfl | h1, h2⟩)
      · exact Or.inl h
      · exact absurd h2.1 hs
      · exact Or.inr ⟨hsm, jk', h1, h2⟩
    · rintro (h | ⟨hsm, jk', h1, h2⟩)
      · exact Or.inl h
      · exact Or.inr ⟨hsm, jk', Or.inr h1, h2⟩
    · rintro (h | ⟨hsm, jk', rfl | h1, h2⟩)
      · exact Or.inl h
      · rw [← h2.2, hm] at hsm
        exact absurd hsm (by simp)
      · exact Or.inr ⟨hsm, jk', h1, h2⟩
    · rintro ((h | h) | ⟨hsm, jk', h1, h2⟩)
      · exact Or.inl h
      · subst h
        exact Or.inr ⟨hm, jk, Or.inl rfl, hs, rfl⟩
      · have hsm2 : stMem a.st p = false := by
          cases hx : stMem a.st p
          · rfl
          · have ht : stMem ((mergePat jk.1 jk.2,
                stGet a.st jk.1 ∪ stGet a.st jk.2) :: a.st) p = true :=
              stMem_cons.mpr (Or.inr hx)
            rw [ht] at hsm
            simp at hsm
        exact Or.inr ⟨hsm2, jk', Or.inr h1, h2⟩
    · rintro (h | ⟨hsm, jk', rfl | h1, h2⟩)
      · exact Or.inl (Or.inl h)
      · exact Or.inl (Or.inr h2.2.symm)
      · by_cases hmp : mergePat jk.1 jk.2 = p
        · exact Or.inl (Or.inr hmp.symm)
        · refine Or.inr ⟨?_, jk', h1, h2⟩
          cases hx : stMem ((mergePat jk.1 jk.2, stGet a.st jk.1 ∪ stGet a.st jk.2) :: a.st) p
          · rfl
          · rcases stMem_cons.mp hx with h3 | h3
            · exact absurd h3 hmp
            · rw [h3] at hsm
              simp at hsm

theorem stGet_cons_self {q : Pat} {v : Finset Nat} {st : STMap} :
    stGet ((q, v) :: st) q = v := by
  rw [stGet, stFind?, if_pos rfl, Option.getD_some]

theorem stGet_of_find {st : STMap} {p : Pat} {v : Finset Nat}
    (h : stFind? st p = some v) : stGet st p = v := by
  rw [stGet, h, Option.getD_some]

theorem fold_stFind_pres (L : List (Pat × Pat)) (a : CmpAcc) (p : Pat)
    (h : stMem a.st p = true) :
    stFind? ((L.foldl cmpStep a).st) p = stFind? a.st p := by
  induction L generalizing a with
  | nil => rfl
  | cons jk L ih =>
    rw [List.foldl_cons]
    rcases cmpStep_cases a jk with ⟨_, he⟩ | ⟨_, _, he⟩ | ⟨_, hm, he⟩
    · rw [he]; exact ih a h
    · rw [he]; exact ih _ h
    · rw [he]
      have hne : ¬ mergePat jk.1 jk.2 = p := by
        intro hx
        rw [hx, h] at hm
        simp at hm
      have h2 : stMem ((mergePat jk.1 jk.2, stGet a.st jk.1 ∪ stGet a.st jk.2) :: a.st) p
          = true := stMem_cons.mpr (Or.inr h)
      rw [ih _ h2]
      exact stFind?_cons_ne hne

theorem fold_val (L : List (Pat × Pat)) (a : CmpAcc)
    (h0 : ∀ p, stMem a.st p = true → stGet a.st p = cube p)
    (hL : ∀ jk ∈ L, diffCnt jk.1 jk.2 = 1 →
      stMem a.st jk.1 = true ∧ stMem a.st jk.2 = true ∧
      cube (mergePat jk.1 jk.2) = cube jk.1 ∪ cube jk.2) :
    ∀ p, stMem ((L.foldl cmpStep a).st) p = true →
      stGet ((L.foldl cmpStep a).st) p = cube p := by
  induction L generalizing a with
  | nil => exact h0
  | cons jk L ih =>
    rw [List.foldl_cons]
    rcases cmpStep_cases a jk with ⟨hs, he⟩ | ⟨hs, hm, he⟩ | ⟨hs, hm, he⟩
    · rw [he]
      exact ih a h0 (fun jk' hjk' => hL jk' (List.mem_cons_of_mem _ hjk'))
    · rw [he]
      exact ih _ h0 (fun jk' hjk' => hL jk' (List.mem_cons_of_mem _ hjk'))
    · rw [he]
      rcases hL jk (List.mem_cons_self _ _) hs with ⟨hj, hk, hcube⟩
      apply ih
      · intro p hp
        rcases stMem_cons.mp hp with heq | hp2
        · rw [← heq, stGet_cons_self, h0 jk.1 hj, h0 jk.2 hk, ← hcube]
        · have hne : ¬ mergePat jk.1 jk.2 = p := by
            intro hx
            rw [hx, hp2] at hm
            simp at hm
          rw [stGet, stFind?_cons_ne hne, ← stGet]
          exact h0 p hp2
      · intro jk' hjk' hs'
        rcases hL jk' (List.mem_cons_of_mem _ hjk') hs' with ⟨hj', hk', hcube'⟩
        exact ⟨stMem_cons.mpr (Or.inr hj'), stMem_cons.mpr (Or.inr hk'), hcube'⟩

theorem fold_tls_good (L : List (Pat × Pat)) (a : CmpAcc)
    (h1 : a.tls.Nodup) (h2 : ∀ p ∈ a.tls, stMem a.st p = true) :
    (L.foldl cmpStep a).tls.Nodup ∧
      ∀ p ∈ (L.foldl cmpStep a).tls, stMem ((L.foldl cmpStep a).st) p = true := by
  induction L generalizing a with
  | nil => exact ⟨h1, h2⟩
  | cons jk L ih =>
    rw [List.foldl_cons]
    rcases cmpStep_cases a jk with ⟨_, he⟩ | ⟨_, _, he⟩ | ⟨_, hm, he⟩
    · rw [he]; exact ih a h1 h2
    · rw [he]; exact ih _ h1 h2
    · rw [he]
      apply ih
      · rw [List.nodup_append]
        refine ⟨h1, List.nodup_singleton _, fun p hp hq => ?_⟩
        rw [List.mem_singleton] at hq
        rw [hq] at hp
        rw [h2 _ hp] at hm
        simp at hm
      · intro p hp
        rcases List.mem_append.mp hp with hp | hp
        · exact stMem_cons.mpr (Or.inr (h2 p hp))
        · rw [List.mem_singleton] at hp
          subst hp
          exact stMem_cons.mpr (Or.inl rfl)

theorem stMem_iff_keys_aux : ∀ (st : STMap) (p : Pat),
    stMem st p = true ↔ p ∈ st.map Prod.fst
  | [], p => by simp [stMem, stFind?]
  | (q, v) :: es, p => by
    rw [List.map_cons, List.mem_cons, stMem_cons]
    rw [stMem_iff_keys_aux es p]
    simp [eq_comm]

theorem stMem_iff_keys {st : STMap} {p : Pat} :
    stMem st p = true ↔ p ∈ st.map Prod.fst := stMem_iff_keys_aux st p

theorem fold_keys_nodup (L : List (Pat × Pat)) (a : CmpAcc)
    (h : (a.st.map Prod.fst).Nodup) :
    ((L.foldl cmpStep a).st.map Prod.fst).Nodup := by
  induction L generalizing a with
  | nil => exact h
  | cons jk L ih =>
    rw [List.foldl_cons]
    rcases cmpStep_cases a jk with ⟨_, he⟩ | ⟨_, _, he⟩ | ⟨_, hm, he⟩
    · rw [he]; exact ih a h
    · rw [he]; exact ih _ h
    · rw [he]
      apply ih
      rw [List.map_cons, List.nodup_cons]
      refine ⟨fun hc => ?_, h⟩
      rw [← stMem_iff_keys] at hc
      rw [hc] at hm
      simp at hm

theorem grpOf_mem {ls : List Pat} {n : Nat} {p : Pat} :
    p ∈ grpOf ls n ↔ p ∈ ls ∧ count1 p = n := by
  rw [grpOf, List.mem_filter]
  simp

theorem foldl_max_le_init : ∀ (l : List Nat) (a : Nat), a ≤ l.foldl max a
  | [], _ => le_rfl
  | x :: l, a => le_trans (le_max_left a x) (foldl_max_le_init l (max a x))

theorem foldl_max_ge_mem : ∀ (l : List Nat) (a x : Nat), x ∈ l → x ≤ l.foldl max a
  | [], _, x, h => by simp at h
  | y :: l, a, x, h => by
    rcases List.mem_cons.mp h with rfl | h
    · exact le_trans (le_max_right a x) (foldl_max_le_init l (max a x))
    · exact foldl_max_ge_mem l (max a y) x h

theorem mxOf_ge {ls : List Pat} {p : Pat} (h : p ∈ ls) : count1 p ≤ mxOf ls :=
  foldl_max_ge_mem _ 0 _ (List.mem_map_of_mem count1 h)

theorem pairList_mem {ls : List Pat} {j k : Pat} :
    (j, k) ∈ pairList ls ↔ j ∈ ls ∧ k ∈ ls ∧ count1 j = count1 k + 1 := by
  rw [pairList]
  simp only [List.mem_flatMap, List.mem_range]
  constructor
  · rintro ⟨i0, hi0, hmem⟩
    split at hmem
    · rcases List.mem_flatMap.mp hmem with ⟨j', hj', hk⟩
      rcases List.mem_map.mp hk with ⟨k', hk', he⟩
      rw [Prod.mk.injEq] at he
      rcases he with ⟨rfl, rfl⟩
      rcases grpOf_mem.mp hj' with ⟨hj1, hj2⟩
      rcases grpOf_mem.mp hk' with ⟨hk1, hk2⟩
      exact ⟨hj1, hk1, by omega⟩
    · simp at hmem
  · rintro ⟨hj, hk, hcnt⟩
    refine ⟨count1 k, ?_, ?_⟩
    · have hle := mxOf_ge hj
      omega
    · have hjg : j ∈ grpOf ls (count1 k + 1) := grpOf_mem.mpr ⟨hj, hcnt⟩
      have hkg : k ∈ grpOf ls (count1 k) := grpOf_mem.mpr ⟨hk, rfl⟩
      rw [if_pos ⟨List.ne_nil_of_mem hjg, List.ne_nil_of_mem hkg⟩]
      exact List.mem_flatMap.mpr ⟨j, hjg, List.mem_map.mpr ⟨k, hkg, rfl⟩⟩

/-! ### The initial state of the merge phase -/

theorem binPat_dcount_zero {p : Pat} (h : binPat p) : dcount p = 0 := by
  rw [dcount, List.length_eq_zero, List.filter_eq_nil]
  intro c hc
  rcases h c hc with rfl | rfl <;> simp

theorem dcount_zero_binPat {p : Pat} (hc : patChars p) (h : dcount p = 0) : binPat p := by
  rw [dcount, List.length_eq_zero, List.filter_eq_nil] at h
  intro c hcp
  rcases hc c hcp with h1 | h1 | h1
  · exact Or.inl h1
  · exact Or.inr h1
  · exfalso
    apply h c hcp
    rw [h1]
    decide

theorem cube_binPat {p : Pat} (h : binPat p) : cube p = {natOfPat p} := by
  ext j
  rw [mem_cube, Finset.mem_singleton, consistent_binPat h]
  constructor
  · rintro ⟨hj, he⟩
    rw [Nat.mod_eq_of_lt hj] at he
    exact he
  · rintro rfl
    exact ⟨natOfPat_lt p, Nat.mod_eq_of_lt (natOfPat_lt p)⟩

theorem bit_mod_pow {i j n : Nat} (h : j < n) : i % 2 ^ n / 2 ^ j % 2 = i / 2 ^ j % 2 := by
  have h1 := Nat.testBit_mod_two_pow i n j
  simp [Nat.testBit_to_div_mod, h] at h1
  omega

theorem patOfNat_mod (N i : Nat) : patOfNat N i = patOfNat N (i % 2 ^ N) := by
  rw [patOfNat, patOfNat]
  apply List.map_congr_left
  intro t ht
  rw [List.mem_range] at ht
  have hlt : N - 1 - t < N := by omega
  rw [bitChar_eq, bitChar_eq, bit_mod_pow hlt]

theorem patOfNat_natOfPat : ∀ {p : Pat}, binPat p → patOfNat p.length (natOfPat p) = p := by
  intro p
  induction p with
  | nil => intro _; rfl
  | cons c q ih =>
    intro hb
    have hbq : binPat q := fun x hx => hb x (List.mem_cons_of_mem c hx)
    have hc := hb c (List.mem_cons_self c q)
    have hq := natOfPat_lt q
    have hv : natOfPat (c :: q) = natOfPat q + 2 ^ q.length * (if c = '1' then 1 else 0) := by
      rw [natOfPat_cons]; ring
    rw [List.length_cons, patOfNat_succ, hv]
    have hdiv : (natOfPat q + 2 ^ q.length * (if c = '1' then 1 else 0)) / 2 ^ q.length
        = (if c = '1' then 1 else 0) := by
      rw [Nat.add_mul_div_left _ _ (Nat.pos_pow_of_pos _ (by norm_num)),
        Nat.div_eq_of_lt hq, Nat.zero_add]
    have hmod : (natOfPat q + 2 ^ q.length * (if c = '1' then 1 else 0)) % 2 ^ q.length
        = natOfPat q := by
      rw [Nat.add_mul_mod_self_left, Nat.mod_eq_of_lt hq]
    refine congrArg₂ List.cons ?_ ?_
    · rw [bitChar_eq, hdiv]
      rcases hc with rfl | rfl <;> simp
    · rw [patOfNat_mod, hmod, ih hbq]

theorem stMem_append {st st' : STMap} {p : Pat} :
    stMem (st ++ st') p = true ↔ stMem st p = true ∨ stMem st' p = true := by
  induction st with
  | nil => simp [stMem, stFind?]
  | cons e es ih =>
    rcases e with ⟨q, v⟩
    rw [List.cons_append, stMem_cons, stMem_cons, ih]
    tauto

theorem stAdd_absent : ∀ {st : STMap} {p : Pat} {i : Nat}, stMem st p = false →
    stAdd st p i = st ++ [(p, ({i} : Finset Nat))]
  | [], _, _, _ => rfl
  | (q, v) :: es, p, i, h => by
    have h1 : ¬ (q = p ∨ stMem es p = true) := fun hc => by
      rw [stMem_cons.mpr hc] at h
      simp at h
    push_neg at h1
    rw [stAdd, if_neg h1.1, stAdd_absent (Bool.eq_false_iff.mpr h1.2), List.cons_append]

theorem initState_go (N : Nat) : ∀ (m : List Nat) (a1 : List Pat) (a2 : STMap),
    (∀ i ∈ m, stMem a2 (patOfNat N i) = false) →
    (∀ i ∈ m, ∀ i' ∈ m, patOfNat N i = patOfNat N i' → i = i') → m.Nodup →
    m.foldl (fun a i => (a.1 ++ [patOfNat N i], stAdd a.2 (patOfNat N i) i)) (a1, a2)
      = (a1 ++ m.map (patOfNat N),
        a2 ++ m.map (fun i => (patOfNat N i, ({i} : Finset Nat)))) := by
  intro m
  induction m with
  | nil => intro a1 a2 _ _ _; simp
  | cons i m ih =>
    intro a1 a2 habs hinj hnd
    rw [List.foldl_cons]
    have hni : stMem a2 (patOfNat N i) = false := habs i (List.mem_cons_self _ _)
    have hstep : stAdd a2 (patOfNat N i) i = a2 ++ [(patOfNat N i, ({i} : Finset Nat))] :=
      stAdd_absent hni
    rw [hstep]
    dsimp only
    have habs' : ∀ i' ∈ m,
        stMem (a2 ++ [(patOfNat N i, ({i} : Finset Nat))]) (patOfNat N i') = false := by
      intro i' hi'
      have h2 : stMem a2 (patOfNat N i') = false := habs i' (List.mem_cons_of_mem _ hi')
      have h3 : ¬ patOfNat N i = patOfNat N i' := by
        intro he
        have h6 := hinj i (List.mem_cons_self _ _) i' (List.mem_cons_of_mem _ hi') he
        rw [← h6] at hi'
        exact (List.nodup_cons.mp hnd).1 hi'
      cases hx : stMem (a2 ++ [(patOfNat N i, ({i} : Finset Nat))]) (patOfNat N i')
      · rfl
      · rcases stMem_append.mp hx with h4 | h4
        · rw [h4] at h2; simp at h2
        · rcases stMem_cons.mp h4 with h5 | h5
          · exact absurd h5 h3
          · rw [stMem] at h5
            simp [stFind?] at h5
    have hinj' : ∀ a ∈ m, ∀ a' ∈ m, patOfNat N a = patOfNat N a' → a = a' :=
      fun a ha a' ha' he =>
        hinj a (List.mem_cons_of_mem _ ha) a' (List.mem_cons_of_mem _ ha') he
    rw [ih (a1 ++ [patOfNat N i]) (a2 ++ [(patOfNat N i, ({i} : Finset Nat))])
      habs' hinj' (List.nodup_cons.mp hnd).2]
    simp [List.append_assoc]

theorem patOfNat_inj {N i i' : Nat} (hi : i < 2 ^ N) (hi' : i' < 2 ^ N)
    (h : patOfNat N i = patOfNat N i') : i = i' := by
  have h1 := natOfPat_patOfNat N i
  have h2 := natOfPat_patOfNat N i'
  rw [h] at h1
  have h3 : i % 2 ^ N = i' % 2 ^ N := h1.symm.trans h2
  rwa [Nat.mod_eq_of_lt hi, Nat.mod_eq_of_lt hi'] at h3

theorem initState_eq (N : Nat) (m : List Nat) (hnd : m.Nodup)
    (hsub : ∀ i ∈ m, i < 2 ^ N) :
    initState N m = (m.map (patOfNat N),
      m.map (fun i => (patOfNat N i, ({i} : Finset Nat)))) := by
  rw [initState]
  have h := initState_go N m [] [] (fun i _ => rfl)
    (fun i hi i' hi' he => patOfNat_inj (hsub i hi) (hsub i' hi') he) hnd
  simpa using h

/-- The state of the merge phase at the start of a round: the live list holds
exactly the implicants of the current dash stratum `r` together with the
primes of the lower strata, without duplicates; the coverage map holds every
implicant of dash count at most `r`, mapped to its cube, with distinct keys. -/
structure RoundInv (N : Nat) (M : Finset Nat) (r : Nat) (s : MState) : Prop where
  ls_nodup : s.ls.Nodup
  ls_iff : ∀ p, p ∈ s.ls ↔ implicant N M p ∧
    (dcount p = r ∨ (dcount p < r ∧ primeImp N M p))
  st_keys : ∀ p, stMem s.st p = true ↔ implicant N M p ∧ dcount p ≤ r
  st_val : ∀ p, stMem s.st p = true → stGet s.st p = cube p
  st_nodup : (s.st.map Prod.fst).Nodup

theorem implicant_patOfNat {N : Nat} {M : Finset Nat} {i : Nat} (hi : i ∈ M)
    (hlt : i < 2 ^ N) : implicant N M (patOfNat N i) := by
  refine ⟨patOfNat_length N i, binPat_patChars (patOfNat_binPat N i), ?_⟩
  rw [cube_patOfNat_self hlt]
  intro j hj
  rw [Finset.mem_singleton] at hj
  rw [hj]
  exact hi

theorem d0_char {N : Nat} {M : Finset Nat} (hM : ∀ i ∈ M, i < 2 ^ N) (p : Pat) :
    (implicant N M p ∧ dcount p = 0) ↔ ∃ i ∈ M, p = patOfNat N i := by
  constructor
  · rintro ⟨himp, hd⟩
    have hbin : binPat p := dcount_zero_binPat himp.2.1 hd
    have hcube := cube_binPat hbin
    have hmem : natOfPat p ∈ M := himp.2.2 (by rw [hcube]; exact Finset.mem_singleton_self _)
    refine ⟨natOfPat p, hmem, ?_⟩
    have hp := patOfNat_natOfPat hbin
    rw [himp.1] at hp
    exact hp.symm
  · rintro ⟨i, hi, rfl⟩
    exact ⟨implicant_patOfNat hi (hM i hi), binPat_dcount_zero (patOfNat_binPat N i)⟩

theorem stFind?_init (N : Nat) : ∀ (m : List Nat) (i : Nat), i ∈ m →
    (∀ a ∈ m, ∀ b ∈ m, patOfNat N a = patOfNat N b → a = b) →
    stFind? (m.map (fun i => (patOfNat N i, ({i} : Finset Nat)))) (patOfNat N i)
      = some {i}
  | [], i, hi, _ => by simp at hi
  | i' :: m, i, hi, hinj => by
    rw [List.map_cons, stFind?]
    by_cases he : patOfNat N i' = patOfNat N i
    · have hii : i' = i := hinj i' (List.mem_cons_self _ _) i hi he
      subst hii
      rw [if_pos rfl]
    · rw [if_neg he]
      have hi2 : i ∈ m := by
        rcases List.mem_cons.mp hi with rfl | h
        · exact absurd rfl he
        · exact h
      exact stFind?_init N m i hi2
        (fun a ha b hb hh => hinj a (List.mem_cons_of_mem _ ha) b (List.mem_cons_of_mem _ hb) hh)

theorem initInv (N : Nat) (m : List Nat) (hnd : m.Nodup) (hsub : ∀ i ∈ m, i < 2 ^ N) :
    RoundInv N m.toFinset 0 ⟨(initState N m).1, (initState N m).2⟩ := by
  have he := initState_eq N m hnd hsub
  rw [he]
  dsimp only
  have hM : ∀ i ∈ m.toFinset, i < 2 ^ N := fun i hi => hsub i (List.mem_toFinset.mp hi)
  have hinj : ∀ a ∈ m, ∀ b ∈ m, patOfNat N a = patOfNat N b → a = b :=
    fun a ha b hb hh => patOfNat_inj (hsub a ha) (hsub b hb) hh
  have hkeys : (m.map (fun i => (patOfNat N i, ({i} : Finset Nat)))).map Prod.fst
      = m.map (patOfNat N) := by
    rw [List.map_map]
    rfl
  have hmem_iff : ∀ p, p ∈ m.map (patOfNat N) ↔ implicant N m.toFinset p ∧ dcount p = 0 := by
    intro p
    rw [d0_char hM p, List.mem_map]
    constructor
    · rintro ⟨i, hi, rfl⟩
      exact ⟨i, List.mem_toFinset.mpr hi, rfl⟩
    · rintro ⟨i, hi, rfl⟩
      exact ⟨i, List.mem_toFinset.mp hi, rfl⟩
  refine ⟨?_, ?_, ?_, ?_, ?_⟩
  · exact List.Nodup.map_on hinj hnd
  · intro p
    rw [hmem_iff p]
    simp only [Nat.not_lt_zero, false_and, or_false]
  · intro p
    rw [stMem_iff_keys, hkeys, hmem_iff p]
    constructor
    · rintro ⟨h1, h2⟩
      exact ⟨h1, by omega⟩
    · rintro ⟨h1, h2⟩
      refine ⟨h1, by omega⟩
  · intro p hp
    rw [stMem_iff_keys, hkeys] at hp
    rcases List.mem_map.mp hp with ⟨i, hi, rfl⟩
    rw [stGet, stFind?_init N m i hi hinj, Option.getD_some, cube_patOfNat_self (hsub i hi)]
  · rw [hkeys]
    exact List.Nodup.map_on hinj hnd

/-! ### Semantic analysis of one round -/

/-- Every successful comparison in a round is between the two restrictions of
a next-stratum implicant: dashes in identical positions and exactly one
differing fixed position, which the merge turns into a dash. -/
theorem succ_pair_char {N : Nat} {M : Finset Nat} {r : Nat} {s : MState}
    (inv : RoundInv N M r s) {j k : Pat}
    (hjk : (j, k) ∈ pairList s.ls) (hs : diffCnt j k = 1) :
    ∃ x b : Pat, j = x ++ '1' :: b ∧ k = x ++ '0' :: b ∧
      implicant N M (x ++ '-' :: b) ∧ dcount (x ++ '-' :: b) = r + 1 ∧
      mergePat j k = x ++ '-' :: b ∧ dcount j = r ∧ dcount k = r := by
  rcases pairList_mem.mp hjk with ⟨hj, hk, hcnt⟩
  have hjmem := (inv.ls_iff j).mp hj
  have hkmem := (inv.ls_iff k).mp hk
  have hjimp := hjmem.1
  have hkimp := hkmem.1
  have hlen : j.length = k.length := by rw [hjimp.1, hkimp.1]
  rcases diffCnt_one_decomp hlen hs with ⟨x, b, c₁, c₂, he1, he2, hne⟩
  subst he1
  subst he2
  have hc₁ : c₁ = '0' ∨ c₁ = '1' ∨ c₁ = '-' :=
    hjimp.2.1 c₁ (List.mem_append.mpr (Or.inr (List.mem_cons_self _ _)))
  have hc₂ : c₂ = '0' ∨ c₂ = '1' ∨ c₂ = '-' :=
    hkimp.2.1 c₂ (List.mem_append.mpr (Or.inr (List.mem_cons_self _ _)))
  rw [count1_mid, count1_mid] at hcnt
  have heq : (if c₁ = '1' then 1 else 0) = (if c₂ = '1' then 1 else 0) + 1 := by omega
  have hc1e : c₁ = '1' := by
    by_contra hcc
    rw [if_neg hcc] at heq
    split at heq <;> omega
  subst hc1e
  have hc2ne : ¬ c₂ = '1' := by
    intro hcc
    rw [if_pos rfl, if_pos hcc] at heq
    omega
  have hdj : dcount (x ++ '1' :: b) = r := by
    rcases hjmem.2 with h | ⟨_, hpr⟩
    · exact h
    · exfalso
      rcases hc₂ with rfl | rfl | rfl
      · exact hpr.2 x '1' b rfl (by decide) (implicant_merge hkimp hjimp)
      · exact hc2ne rfl
      · exact hpr.2 x '1' b rfl (by decide) hkimp
  rcases hc₂ with rfl | rfl | rfl
  · -- the proper case
    have himp : implicant N M (x ++ '-' :: b) := implicant_merge hkimp hjimp
    have hdm : dcount (x ++ '-' :: b) = r + 1 := by
      rw [dcount_mid, if_pos rfl]
      rw [dcount_mid, if_neg (by decide)] at hdj
      omega
    exact ⟨x, b, rfl, rfl, himp, hdm,
      mergePat_decomp x b '1' '0' (by decide), hdj, by
        rw [dcount_mid, if_neg (by decide)] at hdj ⊢
        omega⟩
  · exact absurd rfl hc2ne
  · -- the spurious case is impossible
    exfalso
    have hdk : dcount (x ++ '-' :: b) = r + 1 := by
      rw [dcount_mid, if_pos rfl]
      rw [dcount_mid, if_neg (by decide)] at hdj
      omega
    rcases hkmem.2 with h | ⟨h, _⟩
    · omega
    · omega

/-- Every implicant of the next stratum arises as the merge of a successful
comparison of the round. -/
theorem stratum_pair {N : Nat} {M : Finset Nat} {r : Nat} {s : MState}
    (inv : RoundInv N M r s) {Q : Pat}
    (hQ : implicant N M Q) (hd : dcount Q = r + 1) :
    ∃ jk ∈ pairList s.ls, diffCnt jk.1 jk.2 = 1 ∧ mergePat jk.1 jk.2 = Q := by
  have h0 : 0 < dcount Q := by omega
  rcases dash_exists h0 with ⟨x, b, rfl⟩
  have hj : implicant N M (x ++ '1' :: b) := implicant_restrict hQ (Or.inr rfl)
  have hk : implicant N M (x ++ '0' :: b) := implicant_restrict hQ (Or.inl rfl)
  have hdj : dcount (x ++ '1' :: b) = r := by
    rw [dcount_mid, if_pos rfl] at hd
    rw [dcount_mid, if_neg (by decide)]
    omega
  have hdk : dcount (x ++ '0' :: b) = r := by
    rw [dcount_mid, if_pos rfl] at hd
    rw [dcount_mid, if_neg (by decide)]
    omega
  have hjl : x ++ '1' :: b ∈ s.ls := (inv.ls_iff _).mpr ⟨hj, Or.inl hdj⟩
  have hkl : x ++ '0' :: b ∈ s.ls := (inv.ls_iff _).mpr ⟨hk, Or.inl hdk⟩
  have hcnt : count1 (x ++ '1' :: b) = count1 (x ++ '0' :: b) + 1 := by
    rw [count1_mid, count1_mid, if_pos rfl, if_neg (by decide)]
    omega
  exact ⟨(x ++ '1' :: b, x ++ '0' :: b), pairList_mem.mpr ⟨hjl, hkl, hcnt⟩,
    diffCnt_flip x b '1' '0' (by decide), mergePat_decomp x b '1' '0' (by decide)⟩

/-- The accumulator after all comparisons of a round. -/
def roundAcc (s : MState) : CmpAcc :=
  (pairList s.ls).foldl cmpStep ⟨s.st, [], [], false⟩

theorem runRound_eq (s : MState) :
    runRound s = (⟨(roundAcc s).tls ++ s.ls.filter (fun p => ¬ p ∈ (roundAcc s).chk),
      (roundAcc s).st⟩, (roundAcc s).f) := rfl

theorem round_tls_char {N : Nat} {M : Finset Nat} {r : Nat} {s : MState}
    (inv : RoundInv N M r s) (p : Pat) :
    p ∈ (roundAcc s).tls ↔ implicant N M p ∧ dcount p = r + 1 := by
  rw [roundAcc, fold_tls_char]
  simp only [List.not_mem_nil, false_or]
  constructor
  · rintro ⟨hm, jk, hjk, hs, hmp⟩
    rcases succ_pair_char inv hjk hs with ⟨x, b, he1, he2, himp, hdm, hme, _, _⟩
    rw [← hmp, hme]
    exact ⟨himp, hdm⟩
  · rintro ⟨himp, hd⟩
    refine ⟨?_, stratum_pair inv himp hd⟩
    cases hx : stMem s.st p
    · rfl
    · rcases (inv.st_keys p).mp hx with ⟨_, hle⟩
      omega

theorem round_chk_char {N : Nat} {M : Finset Nat} {r : Nat} {s : MState}
    (inv : RoundInv N M r s) (p : Pat) :
    p ∈ (roundAcc s).chk ↔ p ∈ s.ls ∧ dcount p = r ∧ ¬ primeImp N M p := by
  rw [roundAcc, fold_chk_char]
  simp only [List.not_mem_nil, false_or]
  constructor
  · rintro ⟨jk, hjk, hs, hp⟩
    rcases succ_pair_char inv hjk hs with ⟨x, b, he1, he2, himp, _, _, hdj, hdk⟩
    rcases pairList_mem.mp hjk with ⟨hjls, hkls, _⟩
    rcases hp with rfl | rfl
    · refine ⟨hjls, hdj, fun hpr => ?_⟩
      rw [he1] at hpr
      exact hpr.2 x '1' b rfl (by decide) himp
    · refine ⟨hkls, hdk, fun hpr => ?_⟩
      rw [he2] at hpr
      exact hpr.2 x '0' b rfl (by decide) himp
  · rintro ⟨hls, hd, hnp⟩
    have himp := ((inv.ls_iff p).mp hls).1
    rw [primeImp] at hnp
    push_neg at hnp
    obtain ⟨x, c, b, heq, hcd, hdash⟩ := hnp himp
    have hcbin : c = '0' ∨ c = '1' := by
      have hcq : c ∈ p := by
        rw [heq]
        exact List.mem_append.mpr (Or.inr (List.mem_cons_self _ _))
      rcases himp.2.1 c hcq with h | h | h
      · exact Or.inl h
      · exact Or.inr h
      · exact absurd h hcd
    have hj : implicant N M (x ++ '1' :: b) := implicant_restrict hdash (Or.inr rfl)
    have hk : implicant N M (x ++ '0' :: b) := implicant_restrict hdash (Or.inl rfl)
    have hdj : dcount (x ++ '1' :: b) = r := by
      rcases hcbin with rfl | rfl
      · rw [heq, dcount_mid, if_neg (by decide)] at hd
        rw [dcount_mid, if_neg (by decide)]
        omega
      · rw [← heq]; exact hd
    have hdk : dcount (x ++ '0' :: b) = r := by
      rcases hcbin with rfl | rfl
      · rw [← heq]; exact hd
      · rw [heq, dcount_mid, if_neg (by decide)] at hd
        rw [dcount_mid, if_neg (by decide)]
        omega
    have hjls : x ++ '1' :: b ∈ s.ls := (inv.ls_iff _).mpr ⟨hj, Or.inl hdj⟩
    have hkls : x ++ '0' :: b ∈ s.ls := (inv.ls_iff _).mpr ⟨hk, Or.inl hdk⟩
    have hcnt : count1 (x ++ '1' :: b) = count1 (x ++ '0' :: b) + 1 := by
      rw [count1_mid, count1_mid, if_pos rfl, if_neg (by decide)]
      omega
    refine ⟨(x ++ '1' :: b, x ++ '0' :: b), pairList_mem.mpr ⟨hjls, hkls, hcnt⟩,
      diffCnt_flip x b '1' '0' (by decide), ?_⟩
    rcases hcbin with rfl | rfl
    · exact Or.inr heq
    · exact Or.inl heq

theorem round_f_char {N : Nat} {M : Finset Nat} {r : Nat} {s : MState}
    (inv : RoundInv N M r s) :
    (roundAcc s).f = true ↔ ∃ Q, implicant N M Q ∧ dcount Q = r + 1 := by
  rw [roundAcc, fold_f_char]
  simp only [Bool.false_eq_true, false_or]
  constructor
  · rintro ⟨jk, hjk, hs⟩
    rcases succ_pair_char inv hjk hs with ⟨x, b, _, _, himp, hdm, _, _, _⟩
    exact ⟨x ++ '-' :: b, himp, hdm⟩
  · rintro ⟨Q, himp, hd⟩
    rcases stratum_pair inv himp hd with ⟨jk, hjk, hs, _⟩
    exact ⟨jk, hjk, hs⟩

theorem round_st_keys {N : Nat} {M : Finset Nat} {r : Nat} {s : MState}
    (inv : RoundInv N M r s) (p : Pat) :
    stMem (roundAcc s).st p = true ↔ implicant N M p ∧ dcount p ≤ r + 1 := by
  rw [roundAcc, fold_st_char]
  constructor
  · rintro (h | ⟨jk, hjk, hs, hmp⟩)
    · rcases (inv.st_keys p).mp h with ⟨himp, hle⟩
      exact ⟨himp, by omega⟩
    · rcases succ_pair_char inv hjk hs with ⟨x, b, _, _, himp, hdm, hme, _, _⟩
      rw [← hmp, hme]
      exact ⟨himp, by omega⟩
  · rintro ⟨himp, hle⟩
    by_cases hr : dcount p ≤ r
    · exact Or.inl ((inv.st_keys p).mpr ⟨himp, hr⟩)
    · have hd : dcount p = r + 1 := by omega
      exact Or.inr (stratum_pair inv himp hd)

theorem round_st_val {N : Nat} {M : Finset Nat} {r : Nat} {s : MState}
    (inv : RoundInv N M r s) :
    ∀ p, stMem (roundAcc s).st p = true → stGet (roundAcc s).st p = cube p := by
  rw [roundAcc]
  apply fold_val
  · exact inv.st_val
  · intro jk hjk hs
    rcases succ_pair_char inv hjk hs with ⟨x, b, he1, he2, himp, _, hme, hdj, hdk⟩
    refine ⟨?_, ?_, ?_⟩
    · apply (inv.st_keys _).mpr
      rw [he1]
      exact ⟨implicant_restrict himp (Or.inr rfl), by rw [← he1]; omega⟩
    · apply (inv.st_keys _).mpr
      rw [he2]
      exact ⟨implicant_restrict himp (Or.inl rfl), by rw [← he2]; omega⟩
    · rw [hme, cube_dash_union, he1, he2]
      rw [Finset.union_comm]

theorem round_st_nodup {s : MState} (h : (s.st.map Prod.fst).Nodup) :
    ((roundAcc s).st.map Prod.fst).Nodup :=
  fold_keys_nodup _ _ h

theorem round_tls_good (s : MState) :
    (roundAcc s).tls.Nodup ∧
      ∀ p ∈ (roundAcc s).tls, stMem (roundAcc s).st p = true :=
  fold_tls_good _ _ List.nodup_nil (by intro p hp; simp at hp)

/-- One round preserves the invariant, advancing the stratum. -/
theorem roundStep {N : Nat} {M : Finset Nat} {r : Nat} {s : MState}
    (inv : RoundInv N M r s) : RoundInv N M (r + 1) (runRound s).1 := by
  rw [runRound_eq]
  refine ⟨?_, ?_, ?_, ?_, ?_⟩
  · rcases round_tls_good s with ⟨hnd1, _⟩
    rw [List.nodup_append]
    refine ⟨hnd1, List.Nodup.filter _ inv.ls_nodup, ?_⟩
    intro p hp hq
    rw [round_tls_char inv p] at hp
    rcases List.mem_filter.mp hq with ⟨hql, _⟩
    rcases ((inv.ls_iff p).mp hql).2 with h | ⟨h, _⟩ <;> omega
  · intro p
    rw [List.mem_append, List.mem_filter]
    rw [round_tls_char inv p]
    constructor
    · rintro (⟨himp, hd⟩ | ⟨hls, hchk⟩)
      · exact ⟨himp, Or.inl hd⟩
      · have hnchk : ¬ p ∈ (roundAcc s).chk := of_decide_eq_true hchk
        rw [round_chk_char inv p] at hnchk
        rcases (inv.ls_iff p).mp hls with ⟨himp, hcase⟩
        rcases hcase with hd | ⟨hlt, hpr⟩
        · have hpr : primeImp N M p := by
            by_contra hnp
            exact hnchk ⟨hls, hd, hnp⟩
          exact ⟨himp, Or.inr ⟨by omega, hpr⟩⟩
        · exact ⟨himp, Or.inr ⟨by omega, hpr⟩⟩
    · rintro ⟨himp, hd | ⟨hlt, hpr⟩⟩
      · exact Or.inl ⟨himp, hd⟩
      · have hle : dcount p ≤ r := by omega
        have hls : p ∈ s.ls := by
          apply (inv.ls_iff p).mpr
          refine ⟨himp, ?_⟩
        
          rcases Nat.lt_or_ge (dcount p) r with h | h
          · exact Or.inr ⟨h, hpr⟩
          · exact Or.inl (by omega)
        refine Or.inr ⟨hls, ?_⟩
        apply decide_eq_true
        intro hchk
        rw [round_chk_char inv p] at hchk
        exact hchk.2.2 hpr
  · exact round_st_keys inv
  · exact round_st_val inv
  · exact round_st_nodup inv.st_nodup

theorem fold_no_success : ∀ (L : List (Pat × Pat)) (a : CmpAcc),
    (∀ jk ∈ L, diffCnt jk.1 jk.2 ≠ 1) → L.foldl cmpStep a = a
  | [], _, _ => rfl
  | jk :: L, a, h => by
    rw [List.foldl_cons]
    have hjk := h jk (List.mem_cons_self _ _)
    rw [cmpStep, if_neg hjk]
    exact fold_no_success L a (fun jk' hjk' => h jk' (List.mem_cons_of_mem _ hjk'))

/-- When the next stratum is empty the round performs no merges and the state
is returned unchanged with the flag down. -/
theorem roundStep_false {N : Nat} {M : Finset Nat} {r : Nat} {s : MState}
    (inv : RoundInv N M r s)
    (h : ¬ ∃ Q, implicant N M Q ∧ dcount Q = r + 1) :
    runRound s = (s, false) := by
  have hns : ∀ jk ∈ pairList s.ls, diffCnt jk.1 jk.2 ≠ 1 := by
    intro jk hjk hs
    rcases succ_pair_char inv hjk hs with ⟨x, b, _, _, himp, hdm, _, _, _⟩
    exact h ⟨x ++ '-' :: b, himp, hdm⟩
  have hacc : roundAcc s = ⟨s.st, [], [], false⟩ := fold_no_success _ _ hns
  rw [runRound_eq, hacc]
  dsimp only
  rw [List.nil_append]
  have hf : s.ls.filter (fun p => ¬ p ∈ ([] : List Pat)) = s.ls :=
    List.filter_eq_self.mpr (fun a _ => by simp)
  rw [hf]

theorem stratum_down {N : Nat} {M : Finset Nat} : ∀ (d t : Nat), t ≤ d →
    (∃ p, implicant N M p ∧ dcount p = d) →
    ∃ p, implicant N M p ∧ dcount p = t := by
  intro d
  induction d with
  | zero =>
    intro t ht h
    rw [Nat.le_zero.mp ht]
    exact h
  | succ d ih =>
    intro t ht h
    rcases Nat.lt_or_ge t (d + 1) with hlt | hge
    · exact ih t (by omega) (stratum_descend h)
    · have he : t = d + 1 := by omega
      rw [he]
      exact h

/-- When no more merges are possible, the live list is exactly the set of
prime implicants. -/
theorem final_ls_primes {N : Nat} {M : Finset Nat} {r2 : Nat} {s : MState}
    (inv : RoundInv N M r2 s)
    (hno : ¬ ∃ Q, implicant N M Q ∧ dcount Q = r2 + 1) :
    ∀ p, p ∈ s.ls ↔ primeImp N M p := by
  intro p
  rw [inv.ls_iff p]
  constructor
  · rintro ⟨himp, hc⟩
    rcases hc with hd | ⟨_, hpr⟩
    · refine ⟨himp, ?_⟩
      intro x c b heq hcd hdash
      apply hno
      refine ⟨x ++ '-' :: b, hdash, ?_⟩
      rw [dcount_mid, if_pos rfl]
      rw [heq, dcount_mid, if_neg hcd] at hd
      omega
    · exact hpr
  · intro hpr
    have himp := hpr.1
    refine ⟨himp, ?_⟩
    have hle : dcount p ≤ r2 := by
      by_contra hgt
      push_neg at hgt
      exact hno (stratum_down (dcount p) (r2 + 1) (by omega) ⟨p, himp, rfl⟩)
    rcases Nat.lt_or_ge (dcount p) r2 with h | h
    · exact Or.inr ⟨h, hpr⟩
    · exact Or.inl (by omega)

/-- The merge loop with its fuel bound reaches a state on which a full round
performs no merges, and the invariant holds there. -/
theorem mergeLoop_spec {N : Nat} {M : Finset Nat} :
    ∀ (fuel r : Nat) (s : MState), RoundInv N M r s → N + 1 ≤ fuel + r →
      ∃ r2, r ≤ r2 ∧ RoundInv N M r2 (mergeLoop fuel s) ∧
        runRound (mergeLoop fuel s) = (mergeLoop fuel s, false) ∧
        ¬ ∃ Q, implicant N M Q ∧ dcount Q = r2 + 1 := by
  intro fuel
  induction fuel with
  | zero =>
    intro r s inv hle
    have hno : ¬ ∃ Q, implicant N M Q ∧ dcount Q = r + 1 := by
      rintro ⟨Q, himp, hd⟩
      have hl := dcount_le_length Q
      rw [himp.1] at hl
      omega
    exact ⟨r, le_rfl, inv, roundStep_false inv hno, hno⟩
  | succ fuel ih =>
    intro r s inv hle
    by_cases hst : ∃ Q, implicant N M Q ∧ dcount Q = r + 1
    · have hf : (runRound s).2 = true := by
        rw [runRound_eq]
        exact (round_f_char inv).mpr hst
      rw [mergeLoop]
      simp only [hf, if_true]
      rcases ih (r + 1) (runRound s).1 (roundStep inv) (by omega) with ⟨r2, hr2, h1, h2, h3⟩
      exact ⟨r2, by omega, h1, h2, h3⟩
    · have hrr := roundStep_false inv hst
      rw [mergeLoop, hrr]
      simp only [if_false]
      exact ⟨r, le_rfl, inv, hrr, hst⟩

/-- The state after the merge phase of `QMA`: the invariant holds at some
stratum, a further round changes nothing, and the live patterns are exactly
the prime implicants of the minterm set. -/
theorem mergeResult_spec (N : Nat) (m : List Nat) (hnd : m.Nodup)
    (hsub : ∀ i ∈ m, i < 2 ^ N) :
    ∃ r2, RoundInv N m.toFinset r2 (mergeResult N m) ∧
      runRound (mergeResult N m) = (mergeResult N m, false) ∧
      (∀ p, p ∈ (mergeResult N m).ls ↔ primeImp N m.toFinset p) := by
  have hinit := initInv N m hnd hsub
  have he : mergeResult N m
      = mergeLoop (N + 1) ⟨(initState N m).1, (initState N m).2⟩ := rfl
  rcases mergeLoop_spec (N + 1) 0 ⟨(initState N m).1, (initState N m).2⟩ hinit (by omega)
    with ⟨r2, _, h1, h2, h3⟩
  rw [he]
  exact ⟨r2, h1, h2, final_ls_primes h1 h3⟩

theorem mergeLoop_stable {s : MState} (h : runRound s = (s, false)) :
    ∀ extra, mergeLoop extra s = s
  | 0 => rfl
  | extra + 1 => by
    rw [mergeLoop, h]
    simp

/-! ### C7: termination of the merge loop -/

/-- C7: on every minterm list the pipeline can produce, the
repeat-until-no-merges loop reaches, within its fuel, a state on which a
full pass performs no merges (and further rounds leave it unchanged); that
state's pattern list is handed to the cover selector together with the
accumulated coverage map, and every live pattern carries a coverage set
inside the original minterm set. -/
theorem C7_merge_termination (N : Nat) (m : List Nat) (hnd : m.Nodup)
    (hsub : ∀ i ∈ m, i < 2 ^ N) :
    runRound (mergeResult N m) = (mergeResult N m, false)
    ∧ (∀ extra, mergeLoop extra (mergeResult N m) = mergeResult N m)
    ∧ QMA N m = (gpl (mergeResult N m).ls (mergeResult N m).st, (mergeResult N m).st)
    ∧ ∀ p ∈ (mergeResult N m).ls, stMem (mergeResult N m).st p = true ∧
        stGet (mergeResult N m).st p ⊆ m.toFinset := by
  rcases mergeResult_spec N m hnd hsub with ⟨r2, h1, h2, h3⟩
  refine ⟨h2, mergeLoop_stable h2, rfl, ?_⟩
  intro p hp
  have hpr := (h3 p).mp hp
  have hkey : stMem (mergeResult N m).st p = true :=
    (h1.st_keys p).mpr ⟨hpr.1, by
      rcases (h1.ls_iff p).mp hp with ⟨_, hd | ⟨hd, _⟩⟩ <;> omega⟩
  refine ⟨hkey, ?_⟩
  rw [h1.st_val p hkey]
  exact hpr.1.2.2

theorem C7_witness :
    ([1] : List Nat).Nodup ∧ (∀ i ∈ ([1] : List Nat), i < 2 ^ 1) ∧
    (runRound (mergeResult 1 [1]) = (mergeResult 1 [1], false)
    ∧ (∀ extra, mergeLoop extra (mergeResult 1 [1]) = mergeResult 1 [1])
    ∧ QMA 1 [1] = (gpl (mergeResult 1 [1]).ls (mergeResult 1 [1]).st, (mergeResult 1 [1]).st)
    ∧ ∀ p ∈ (mergeResult 1 [1]).ls, stMem (mergeResult 1 [1]).st p = true ∧
        stGet (mergeResult 1 [1]).st p ⊆ ([1] : List Nat).toFinset) :=
  ⟨by decide, by decide, C7_merge_termination 1 [1] (by decide) (by decide)⟩

/-! ### C6: the merge adjacency rule -/

/-- C6: in any round of the merge phase (any state satisfying the round
invariant, which holds on every reachable round), a new pattern is created
only from two live patterns that have dashes in identical positions and
differ in exactly one remaining fixed position, the differing position
becoming `-`; every live pattern involved in zero merges persists unchanged
into the next round; and a round that performs no merges leaves the live
list exactly as it was. -/
theorem C6_merge_adjacency {N : Nat} {M : Finset Nat} {r : Nat} {s : MState}
    (inv : RoundInv N M r s) :
    (∀ p, p ∈ (roundAcc s).tls →
      ∃ (x b j k : Pat), j ∈ s.ls ∧ k ∈ s.ls ∧
        j = x ++ '1' :: b ∧ k = x ++ '0' :: b ∧ diffCnt j k = 1 ∧
        p = mergePat j k ∧ p = x ++ '-' :: b)
    ∧ (∀ p ∈ s.ls, p ∉ (roundAcc s).chk → p ∈ (runRound s).1.ls)
    ∧ ((runRound s).2 = false → (runRound s).1.ls = s.ls) := by
  refine ⟨?_, ?_, ?_⟩
  · intro p hp
    rw [roundAcc, fold_tls_char] at hp
    simp only [List.not_mem_nil, false_or] at hp
    rcases hp with ⟨_, jk, hjk, hs, hmp⟩
    rcases succ_pair_char inv hjk hs with ⟨x, b, he1, he2, _, _, hme, _, _⟩
    rcases pairList_mem.mp hjk with ⟨hjls, hkls, _⟩
    exact ⟨x, b, jk.1, jk.2, hjls, hkls, he1, he2, hs, hmp.symm, by rw [← hmp, hme]⟩
  · intro p hls hchk
    rw [runRound_eq]
    dsimp only
    rw [List.mem_append, List.mem_filter]
    exact Or.inr ⟨hls, decide_eq_true hchk⟩
  · intro hf
    have hno : ¬ ∃ Q, implicant N M Q ∧ dcount Q = r + 1 := by
      intro hst
      have h2 : (runRound s).2 = true := by
        rw [runRound_eq]
        exact (round_f_char inv).mpr hst
      rw [hf] at h2
      simp at h2
    rw [roundStep_false inv hno]

theorem C6_witness :
    (runRound ⟨(initState 2 [1, 2]).1, (initState 2 [1, 2]).2⟩).2 = false ∧
    ((∀ p, p ∈ (roundAcc ⟨(initState 2 [1, 2]).1, (initState 2 [1, 2]).2⟩).tls →
      ∃ (x b j k : Pat), j ∈ (⟨(initState 2 [1, 2]).1, (initState 2 [1, 2]).2⟩ : MState).ls ∧
        k ∈ (⟨(initState 2 [1, 2]).1, (initState 2 [1, 2]).2⟩ : MState).ls ∧
        j = x ++ '1' :: b ∧ k = x ++ '0' :: b ∧ diffCnt j k = 1 ∧
        p = mergePat j k ∧ p = x ++ '-' :: b)
    ∧ (∀ p ∈ (⟨(initState 2 [1, 2]).1, (initState 2 [1, 2]).2⟩ : MState).ls,
        p ∉ (roundAcc ⟨(initState 2 [1, 2]).1, (initState 2 [1, 2]).2⟩).chk →
        p ∈ (runRound ⟨(initState 2 [1, 2]).1, (initState 2 [1, 2]).2⟩).1.ls)
    ∧ ((runRound ⟨(initState 2 [1, 2]).1, (initState 2 [1, 2]).2⟩).2 = false →
        (runRound ⟨(initState 2 [1, 2]).1, (initState 2 [1, 2]).2⟩).1.ls
          = (⟨(initState 2 [1, 2]).1, (initState 2 [1, 2]).2⟩ : MState).ls)) :=
  ⟨by decide, C6_merge_adjacency (initInv 2 [1, 2] (by decide) (by decide))⟩

/-! ### The greedy cover selector -/

/-- Union of the coverage sets of a list of patterns. -/
def covUnion (st : STMap) (ps : List Pat) : Finset Nat :=
  ps.foldr (fun p u => stGet st p ∪ u) ∅

theorem mem_covUnion {st : STMap} {ps : List Pat} {i : Nat} :
    i ∈ covUnion st ps ↔ ∃ p ∈ ps, i ∈ stGet st p := by
  induction ps with
  | nil => simp [covUnion]
  | cons q ps ih =>
    rw [covUnion, List.foldr_cons]
    rw [Finset.mem_union]
    rw [← covUnion] at *
    simp only [List.mem_cons, ih]
    constructor
    · rintro (h | ⟨p, hp, hip⟩)
      · exact ⟨q, Or.inl rfl, h⟩
      · exact ⟨p, Or.inr hp, hip⟩
    · rintro ⟨p, rfl | hp, hip⟩
      · exact Or.inl hip
      · exact Or.inr ⟨p, hp, hip⟩

theorem covUnion_sub {st : STMap} {ps qs : List Pat} (h : ∀ p ∈ ps, p ∈ qs) :
    covUnion st ps ⊆ covUnion st qs := by
  intro i hi
  rcases mem_covUnion.mp hi with ⟨p, hp, hip⟩
  exact mem_covUnion.mpr ⟨p, h p hp, hip⟩

/-- Lookup success in `cnt`. -/
def cntMem (c : CntMap) (i : Nat) : Bool := (cntFind? c i).isSome

theorem cntMem_cons {j i : Nat} {ps : List Pat} {c : CntMap} :
    cntMem ((j, ps) :: c) i = true ↔ j = i ∨ cntMem c i = true := by
  rw [cntMem, cntFind?]
  by_cases h : j = i
  · simp [h]
  · simp only [if_neg h]
    rw [← cntMem]
    tauto

theorem cntAdd_mem {c : CntMap} {i j : Nat} {p : Pat} :
    cntMem (cntAdd c i p) j = true ↔ i = j ∨ cntMem c j = true := by
  induction c with
  | nil => simp [cntAdd, cntMem_cons, cntMem, cntFind?]
  | cons e c ih =>
    rcases e with ⟨k, ps⟩
    rw [cntAdd]
    by_cases h : k = i
    · rw [if_pos h]
      rw [cntMem_cons, cntMem_cons, h]
      tauto
    · rw [if_neg h]
      rw [cntMem_cons, cntMem_cons, ih]
      tauto

theorem cntAdd_entries {c : CntMap} {i : Nat} {p : Pat} {e : Nat × List Pat}
    (he : e ∈ cntAdd c i p) :
    (∃ e' ∈ c, e.1 = e'.1 ∧ e.2 = e'.2 ++ [p] ∧ e.1 = i) ∨ e ∈ c ∨ (e = (i, [p])) := by
  induction c with
  | nil =>
    rw [cntAdd] at he
    rcases List.mem_singleton.mp he with rfl
    exact Or.inr (Or.inr rfl)
  | cons e' c ih =>
    rcases e' with ⟨k, ps⟩
    rw [cntAdd] at he
    by_cases h : k = i
    · rw [if_pos h] at he
      rcases List.mem_cons.mp he with rfl | he2
      · exact Or.inl ⟨(k, ps), List.mem_cons_self _ _, rfl, rfl, h⟩
      · exact Or.inr (Or.inl (List.mem_cons_of_mem _ he2))
    · rw [if_neg h] at he
      rcases List.mem_cons.mp he with rfl | he2
      · exact Or.inr (Or.inl (List.mem_cons_self _ _))
      · rcases ih he2 with ⟨e2, he3, h4⟩ | h4 | h4
        · exact Or.inl ⟨e2, List.mem_cons_of_mem _ he3, h4⟩
        · exact Or.inr (Or.inl (List.mem_cons_of_mem _ h4))
        · exact Or.inr (Or.inr h4)

/-- The entry well-formedness carried through building `cnt`: every entry of
`cnt` is a nonempty list of patterns of `ls`, each covering the key. -/
def EntOk (ls : List Pat) (st0 : STMap) (c : CntMap) : Prop :=
  ∀ e ∈ c, e.2 ≠ [] ∧ ∀ p ∈ e.2, p ∈ ls ∧ e.1 ∈ stGet st0 p

theorem cntAdd_entOk {ls : List Pat} {st0 : STMap} {c : CntMap} {i : Nat} {p : Pat}
    (h : EntOk ls st0 c) (hp : p ∈ ls) (hip : i ∈ stGet st0 p) :
    EntOk ls st0 (cntAdd c i p) := by
  intro e he
  rcases cntAdd_entries he with ⟨e', he', h1, h2, h3⟩ | he' | he'
  · rcases h e' he' with ⟨hne, hall⟩
    refine ⟨by simp [h2], ?_⟩
    intro q hq
    rw [h2] at hq
    rcases List.mem_append.mp hq with hq | hq
    · rcases hall q hq with ⟨hql, hqc⟩
      exact ⟨hql, by rw [h1]; exact hqc⟩
    · rcases List.mem_singleton.mp hq with rfl
      exact ⟨hp, by rw [h3]; exact hip⟩
  · exact h e he'
  · rw [he']
    refine ⟨by simp, ?_⟩
    intro q hq
    rcases List.mem_singleton.mp hq with rfl
    exact ⟨hp, hip⟩

theorem cnt_inner_fold_mem (st0 : STMap) (p : Pat) :
    ∀ (l : List Nat) (c : CntMap) (j : Nat),
      cntMem (l.foldl (fun c i => cntAdd c i p) c) j = true ↔ j ∈ l ∨ cntMem c j = true
  | [], c, j => by simp
  | i :: l, c, j => by
    rw [List.foldl_cons, cnt_inner_fold_mem st0 p l _ j, cntAdd_mem]
    simp only [List.mem_cons]
    tauto

theorem cnt_inner_fold_entOk {ls : List Pat} (st0 : STMap) {p : Pat} (hp : p ∈ ls) :
    ∀ (l : List Nat) (c : CntMap), (∀ i ∈ l, i ∈ stGet st0 p) → EntOk ls st0 c →
      EntOk ls st0 (l.foldl (fun c i => cntAdd c i p) c)
  | [], c, _, h => h
  | i :: l, c, hl, h => by
    rw [List.foldl_cons]
    exact cnt_inner_fold_entOk st0 hp l _
      (fun i' hi' => hl i' (List.mem_cons_of_mem _ hi'))
      (cntAdd_entOk h hp (hl i (List.mem_cons_self _ _)))

theorem cntBuild_mem (ls : List Pat) (st0 : STMap) :
    ∀ j, cntMem (cntBuild ls st0) j = true ↔ ∃ p ∈ ls, j ∈ stGet st0 p := by
  rw [cntBuild]
  suffices h : ∀ (l : List Pat) (c : CntMap) (j : Nat),
      (∀ p ∈ l, p ∈ ls) →
      (cntMem (l.foldl (fun c p => ((stGet st0 p).sort (· ≤ ·)).foldl
        (fun c i => cntAdd c i p) c) c) j = true ↔
        (∃ p ∈ l, j ∈ stGet st0 p) ∨ cntMem c j = true) by
    intro j
    have hsub : ∀ p ∈ ls, p ∈ ls := fun p hp => hp
    have h2 := h ls [] j hsub
    rw [h2]
    simp [cntMem, cntFind?]
  intro l
  induction l with
  | nil => intro c j _; simp
  | cons p l ih =>
    intro c j hsub
    rw [List.foldl_cons, ih _ j (fun q hq => hsub q (List.mem_cons_of_mem _ hq)),
      cnt_inner_fold_mem st0 p]
    simp only [List.mem_cons, Finset.mem_sort]
    constructor
    · rintro (⟨q, hq, hjq⟩ | h | h)
      · exact Or.inl ⟨q, Or.inr hq, hjq⟩
      · exact Or.inl ⟨p, Or.inl rfl, h⟩
      · exact Or.inr h
    · rintro (⟨q, rfl | hq, hjq⟩ | h)
      · exact Or.inr (Or.inl hjq)
      · exact Or.inl ⟨q, hq, hjq⟩
      · exact Or.inr (Or.inr h)

theorem cntBuild_entOk (ls : List Pat) (st0 : STMap) :
    EntOk ls st0 (cntBuild ls st0) := by
  rw [cntBuild]
  suffices h : ∀ (l : List Pat) (c : CntMap), (∀ p ∈ l, p ∈ ls) → EntOk ls st0 c →
      EntOk ls st0 (l.foldl (fun c p => ((stGet st0 p).sort (· ≤ ·)).foldl
        (fun c i => cntAdd c i p) c) c) by
    have hsub : ∀ p ∈ ls, p ∈ ls := fun p hp => hp
    exact h ls [] hsub (by intro e he; simp at he)
  intro l
  induction l with
  | nil => intro c _ h; exact h
  | cons p l ih =>
    intro c hsub h
    rw [List.foldl_cons]
    refine ih _ (fun q hq => hsub q (List.mem_cons_of_mem _ hq)) ?_
    refine cnt_inner_fold_entOk st0 (hsub p (List.mem_cons_self _ _)) _ c ?_ h
    intro i hi
    rw [Finset.mem_sort] at hi
    exact hi

theorem cntMem_of_mem {c : CntMap} {e : Nat × List Pat} (h : e ∈ c) : cntMem c e.1 = true := by
  induction c with
  | nil => simp at h
  | cons e' c ih =>
    rcases e' with ⟨k, ps⟩
    rw [cntMem_cons]
    rcases List.mem_cons.mp h with rfl | h2
    · exact Or.inl rfl
    · exact Or.inr (ih h2)

theorem cntFind?_mem : ∀ {c : CntMap} {i : Nat} {ps : List Pat},
    cntFind? c i = some ps → (i, ps) ∈ c
  | [], i, ps, h => by simp [cntFind?] at h
  | (k, v) :: c, i, ps, h => by
    rw [cntFind?] at h
    by_cases hk : k = i
    · rw [if_pos hk] at h
      injection h with h2
      have h3 : v = ps := h2
      subst h3
      rw [← hk]
      exact List.mem_cons_self _ _
    · rw [if_neg hk] at h
      exact List.mem_cons_of_mem _ (cntFind?_mem h)

theorem pickMin_fold_cases (c : CntMap) (a : Option (Nat × Nat)) :
    (c.foldl (fun a e =>
      match a with
      | none => some (e.2.length, e.1)
      | some m => if e.2.length < m.1 then some (e.2.length, e.1) else some m) a = a)
    ∨ ∃ e ∈ c, c.foldl (fun a e =>
      match a with
      | none => some (e.2.length, e.1)
      | some m => if e.2.length < m.1 then some (e.2.length, e.1) else some m) a
        = some (e.2.length, e.1) := by
  induction c generalizing a with
  | nil => exact Or.inl rfl
  | cons e c ih =>
    rw [List.foldl_cons]
    rcases a with _ | m
    · rcases ih (some (e.2.length, e.1)) with he | ⟨e', he', hf⟩
      · exact Or.inr ⟨e, List.mem_cons_self _ _, he⟩
      · exact Or.inr ⟨e', List.mem_cons_of_mem _ he', hf⟩
    · simp only
      split
      · rcases ih (some (e.2.length, e.1)) with he | ⟨e', he', hf⟩
        · exact Or.inr ⟨e, List.mem_cons_self _ _, he⟩
        · exact Or.inr ⟨e', List.mem_cons_of_mem _ he', hf⟩
      · rcases ih (some m) with he | ⟨e', he', hf⟩
        · exact Or.inl he
        · exact Or.inr ⟨e', List.mem_cons_of_mem _ he', hf⟩

theorem pickMin_mem {c : CntMap} (h : c ≠ []) : cntMem c (pickMin c) = true := by
  rcases c with _ | ⟨e, c⟩
  · exact absurd rfl h
  · rw [pickMin, List.foldl_cons]
    rcases pickMin_fold_cases c (some (e.2.length, e.1)) with hf | ⟨e', he', hf⟩
    · rw [hf]
      exact cntMem_of_mem (List.mem_cons_self _ _)
    · rw [hf]
      exact cntMem_of_mem (List.mem_cons_of_mem _ he')

theorem pickMax_fold_mono (st : STMap) :
    ∀ (lst : List Pat) (a : Nat × Pat),
      a.1 ≤ (lst.foldl (fun a p =>
        if (stGet st p).card > a.1 then ((stGet st p).card, p) else a) a).1
  | [], _ => le_rfl
  | p :: lst, a => by
    rw [List.foldl_cons]
    refine le_trans ?_ (pickMax_fold_mono st lst _)
    split
    · next h => exact le_of_lt h
    · exact le_rfl

theorem pickMax_fold_ge (st : STMap) :
    ∀ (lst : List Pat) (a : Nat × Pat) (p : Pat), p ∈ lst →
      (stGet st p).card ≤ (lst.foldl (fun a p =>
        if (stGet st p).card > a.1 then ((stGet st p).card, p) else a) a).1
  | [], _, _, h => by simp at h
  | q :: lst, a, p, h => by
    rw [List.foldl_cons]
    rcases List.mem_cons.mp h with rfl | h2
    · refine le_trans ?_ (pickMax_fold_mono st lst _)
      split
      · exact le_rfl
      · next hng => omega
    · exact pickMax_fold_ge st lst _ p h2

theorem pickMax_fold_cases (st : STMap) :
    ∀ (lst : List Pat) (a : Nat × Pat),
      (lst.foldl (fun a p =>
        if (stGet st p).card > a.1 then ((stGet st p).card, p) else a) a = a)
      ∨ ∃ p ∈ lst, lst.foldl (fun a p =>
          if (stGet st p).card > a.1 then ((stGet st p).card, p) else a) a
            = ((stGet st p).card, p)
  | [], _ => Or.inl rfl
  | q :: lst, a => by
    rw [List.foldl_cons]
    split
    · rcases pickMax_fold_cases st lst ((stGet st q).card, q) with hf | ⟨p, hp, hf⟩
      · exact Or.inr ⟨q, List.mem_cons_self _ _, hf⟩
      · exact Or.inr ⟨p, List.mem_cons_of_mem _ hp, hf⟩
    · rcases pickMax_fold_cases st lst a with hf | ⟨p, hp, hf⟩
      · exact Or.inl hf
      · exact Or.inr ⟨p, List.mem_cons_of_mem _ hp, hf⟩

theorem pickMax_spec {st : STMap} {lst : List Pat} {q : Pat} (hq : q ∈ lst)
    (hpos : 0 < (stGet st q).card) :
    pickMax st lst ∈ lst ∧ 0 < (stGet st (pickMax st lst)).card := by
  have hge := pickMax_fold_ge st lst (0, ([] : Pat)) q hq
  rcases pickMax_fold_cases st lst (0, ([] : Pat)) with hf | ⟨p, hp, hf⟩
  · have h0 : (stGet st q).card ≤ 0 := by rw [hf] at hge; exact hge
    omega
  · rw [pickMax, hf]
    exact ⟨hp, by rw [hf] at hge; exact lt_of_lt_of_le hpos hge⟩

theorem stFind?_stErase : ∀ (st : STMap) (ms : Pat) (cov : Finset Nat) (p : Pat),
    stFind? (stErase st ms cov) p
      = (stFind? st p).map (fun v => if p = ms then (∅ : Finset Nat) else v \ cov)
  | [], _, _, _ => rfl
  | (q, v) :: es, ms, cov, p => by
    rw [stErase, List.map_cons, ← stErase]
    by_cases hq : q = ms
    · rw [if_pos hq, stFind?, stFind?]
      by_cases hp : q = p
      · rw [if_pos hp, if_pos hp, Option.map_some', if_pos (by rw [← hp, hq])]
      · rw [if_neg hp, if_neg hp]
        exact stFind?_stErase es ms cov p
    · rw [if_neg hq, stFind?, stFind?]
      by_cases hp : q = p
      · rw [if_pos hp, if_pos hp, Option.map_some', if_neg (by rw [← hp]; exact hq)]
      · rw [if_neg hp, if_neg hp]
        exact stFind?_stErase es ms cov p

theorem stGet_stErase (st : STMap) (ms : Pat) (cov : Finset Nat) (p : Pat) :
    stGet (stErase st ms cov) p
      = if p = ms then (∅ : Finset Nat) else stGet st p \ cov := by
  rw [stGet, stFind?_stErase]
  rcases hf : stFind? st p with _ | v
  · simp only [Option.map_none', Option.getD_none]
    split
    · rfl
    · rw [stGet, hf, Option.getD_none, Finset.empty_sdiff]
  · simp only [Option.map_some', Option.getD_some]
    split
    · rfl
    · rw [stGet, hf, Option.getD_some]

theorem cntRemove_mem {c : CntMap} {cov : Finset Nat} {i : Nat} :
    cntMem (cntRemove c cov) i = true ↔ cntMem c i = true ∧ i ∉ cov := by
  induction c with
  | nil => simp [cntRemove, cntMem, cntFind?]
  | cons e c ih =>
    rcases e with ⟨k, ps⟩
    rw [cntRemove, List.filter_cons]
    by_cases hk : (k : Nat) ∈ cov
    · rw [if_neg (by simp [hk])]
      rw [← cntRemove, ih, cntMem_cons]
      constructor
      · rintro ⟨h1, h2⟩
        exact ⟨Or.inr h1, h2⟩
      · rintro ⟨rfl | h1, h2⟩
        · exact absurd hk h2
        · exact ⟨h1, h2⟩
    · rw [if_pos (by simp [hk])]
      rw [cntMem_cons, ← cntRemove, ih, cntMem_cons]
      constructor
      · rintro (rfl | ⟨h1, h2⟩)
        · exact ⟨Or.inl rfl, hk⟩
        · exact ⟨Or.inr h1, h2⟩
      · rintro ⟨rfl | h1, h2⟩
        · exact Or.inl rfl
        · exact Or.inr ⟨h1, h2⟩

theorem cntRemove_sub {c : CntMap} {cov : Finset Nat} :
    ∀ e ∈ cntRemove c cov, e ∈ c :=
  fun _ he => (List.mem_filter.mp he).1

theorem cntRemove_len_lt (c : CntMap) (cov : Finset Nat)
    (h : ∃ e ∈ c, e.1 ∈ cov) : (cntRemove c cov).length < c.length := by
  induction c with
  | nil =>
    rcases h with ⟨e, he, _⟩
    simp at he
  | cons e c ih =>
    rw [cntRemove, List.filter_cons]
    rcases h with ⟨e', he', hcov⟩
    have hle : (cntRemove c cov).length ≤ c.length := List.length_filter_le _ _
    rcases List.mem_cons.mp he' with rfl | he2
    · rw [if_neg (by simp [hcov])]
      rw [← cntRemove]
      simp only [List.length_cons]
      omega
    · by_cases hk : e.1 ∈ cov
      · rw [if_neg (by simp [hk])]
        rw [← cntRemove]
        simp only [List.length_cons]
        omega
      · rw [if_pos (by simp [hk])]
        have hlt := ih ⟨e', he2, hcov⟩
        rw [← cntRemove]
        simp only [List.length_cons]
        omega

theorem covUnion_append (st : STMap) (a b : List Pat) :
    covUnion st (a ++ b) = covUnion st a ∪ covUnion st b := by
  ext i
  simp only [Finset.mem_union, mem_covUnion, List.mem_append]
  constructor
  · rintro ⟨p, hp | hp, hip⟩
    · exact Or.inl ⟨p, hp, hip⟩
    · exact Or.inr ⟨p, hp, hip⟩
  · rintro (⟨p, hp, hip⟩ | ⟨p, hp, hip⟩)
    · exact ⟨p, Or.inl hp, hip⟩
    · exact ⟨p, Or.inr hp, hip⟩

theorem covUnion_singleton (st : STMap) (p : Pat) : covUnion st [p] = stGet st p := by
  simp [covUnion]

theorem stGet_sub_covUnion {st0 : STMap} {rtn : List Pat} {p : Pat} (hp : p ∈ rtn) :
    stGet st0 p ⊆ covUnion st0 rtn :=
  fun _ hj => mem_covUnion.mpr ⟨p, hp, hj⟩

/-- The loop invariant of `gpl`'s `Simplify` phase, over the fixed prime
list `ls` and initial coverage map `st0`: the keys of `cnt` are exactly the
still-uncovered coverable minterms, its entries are well-formed, the current
coverage map holds each unselected pattern's initial coverage minus
everything already covered (selected patterns are cleared), and every
selection came from `ls`. -/
structure GplInv (ls : List Pat) (st0 : STMap) (cnt : CntMap) (st : STMap)
    (rtn : List Pat) : Prop where
  hmem : ∀ j, cntMem cnt j = true ↔ j ∈ covUnion st0 ls ∧ j ∉ covUnion st0 rtn
  hent : EntOk ls st0 cnt
  hst : ∀ p, stGet st p = if p ∈ rtn then ∅ else stGet st0 p \ covUnion st0 rtn
  hrtn : ∀ p ∈ rtn, p ∈ ls
  hrnd : rtn.Nodup

theorem gplInv_init (ls : List Pat) (st0 : STMap) :
    GplInv ls st0 (cntBuild ls st0) st0 [] := by
  refine ⟨?_, cntBuild_entOk ls st0, ?_, ?_, List.nodup_nil⟩
  · intro j
    rw [cntBuild_mem ls st0 j, mem_covUnion]
    simp [covUnion]
  · intro p
    rw [if_neg (List.not_mem_nil p)]
    simp [covUnion]
  · intro p hp
    exact absurd hp (List.not_mem_nil p)

theorem gplStep (ls : List Pat) (st0 : STMap) (cnt : CntMap) (st : STMap)
    (rtn : List Pat) (hinv : GplInv ls st0 cnt st rtn) (hne : cnt ≠ []) :
    GplInv ls st0
      (cntRemove cnt (stGet st (pickMax st ((cntFind? cnt (pickMin cnt)).getD []))))
      (stErase st (pickMax st ((cntFind? cnt (pickMin cnt)).getD []))
        (stGet st (pickMax st ((cntFind? cnt (pickMin cnt)).getD []))))
      (rtn ++ [pickMax st ((cntFind? cnt (pickMin cnt)).getD [])]) ∧
    (cntRemove cnt (stGet st (pickMax st ((cntFind? cnt (pickMin cnt)).getD [])))).length
      < cnt.length := by
  have hmns : cntMem cnt (pickMin cnt) = true := pickMin_mem hne
  rw [cntMem] at hmns
  rcases Option.isSome_iff_exists.mp hmns with ⟨lst, hlst⟩
  have hgetD : (cntFind? cnt (pickMin cnt)).getD [] = lst := by rw [hlst]; rfl
  rw [hgetD]
  have hentry : (pickMin cnt, lst) ∈ cnt := cntFind?_mem hlst
  rcases hinv.hent _ hentry with ⟨hlne, hall⟩
  have hUC : pickMin cnt ∈ covUnion st0 ls ∧ pickMin cnt ∉ covUnion st0 rtn :=
    (hinv.hmem (pickMin cnt)).mp (by rw [cntMem, hlst]; rfl)
  have hnotr : ∀ p ∈ lst, p ∉ rtn := by
    intro p hp hpr
    exact hUC.2 (stGet_sub_covUnion hpr (hall p hp).2)
  rcases List.exists_mem_of_ne_nil lst hlne with ⟨q, hq⟩
  have hqpos : 0 < (stGet st q).card := by
    rw [hinv.hst q, if_neg (hnotr q hq)]
    exact Finset.card_pos.mpr ⟨pickMin cnt, Finset.mem_sdiff.mpr ⟨(hall q hq).2, hUC.2⟩⟩
  rcases pickMax_spec hq hqpos with ⟨hmsl, hmspos⟩
  have hmsls : pickMax st lst ∈ ls := (hall _ hmsl).1
  have hmsnr : pickMax st lst ∉ rtn := hnotr _ hmsl
  have hmscov : pickMin cnt ∈ stGet st0 (pickMax st lst) := (hall _ hmsl).2
  have hcoveq : stGet st (pickMax st lst) = stGet st0 (pickMax st lst) \ covUnion st0 rtn := by
    rw [hinv.hst, if_neg hmsnr]
  have hca : covUnion st0 (rtn ++ [pickMax st lst])
      = covUnion st0 rtn ∪ stGet st0 (pickMax st lst) := by
    rw [covUnion_append, covUnion_singleton]
  refine ⟨⟨?_, ?_, ?_, ?_, ?_⟩, ?_⟩
  · intro j
    rw [cntRemove_mem, hinv.hmem j, hca, hcoveq]
    simp only [Finset.mem_sdiff, Finset.mem_union]
    constructor
    · rintro ⟨⟨h1, h2⟩, h3⟩
      refine ⟨h1, ?_⟩
      rintro (hc | hc)
      · exact h2 hc
      · exact h3 ⟨hc, h2⟩
    · rintro ⟨h1, h2⟩
      exact ⟨⟨h1, fun hc => h2 (Or.inl hc)⟩, fun hc => h2 (Or.inr hc.1)⟩
  · intro e he
    exact hinv.hent e (cntRemove_sub e he)
  · intro p
    rw [stGet_stErase]
    by_cases hpm : p = pickMax st lst
    · rw [if_pos hpm, if_pos (List.mem_append_right rtn (List.mem_singleton.mpr hpm))]
    · rw [if_neg hpm, hinv.hst p]
      by_cases hpr : p ∈ rtn
      · rw [if_pos hpr, if_pos (List.mem_append_left _ hpr), Finset.empty_sdiff]
      · rw [if_neg hpr, if_neg (by
          intro hc
          rcases List.mem_append.mp hc with hc | hc
          · exact hpr hc
          · exact hpm (List.mem_singleton.mp hc)), hcoveq, hca]
        ext j
        simp only [Finset.mem_sdiff, Finset.mem_union]
        constructor
        · rintro ⟨⟨h1, h2⟩, h3⟩
          refine ⟨h1, ?_⟩
          rintro (hc | hc)
          · exact h2 hc
          · exact h3 ⟨hc, h2⟩
        · rintro ⟨h1, h2⟩
          exact ⟨⟨h1, fun hc => h2 (Or.inl hc)⟩, fun hc => h2 (Or.inr hc.1)⟩
  · intro p hp
    rcases List.mem_append.mp hp with hp | hp
    · exact hinv.hrtn p hp
    · rw [List.mem_singleton.mp hp]
      exact hmsls
  · rw [show rtn ++ [pickMax st lst] = rtn.concat (pickMax st lst) from
      (List.concat_eq_append _ _).symm]
    exact List.Nodup.concat hmsnr hinv.hrnd
  · refine cntRemove_len_lt cnt _ ⟨(pickMin cnt, lst), hentry, ?_⟩
    rw [hcoveq]
    exact Finset.mem_sdiff.mpr ⟨hmscov, hUC.2⟩

theorem gplLoop_succ (fuel : Nat) (cnt : CntMap) (st : STMap) (rtn : List Pat)
    (h : cnt ≠ []) :
    gplLoop (fuel + 1) cnt st rtn
      = gplLoop fuel
          (cntRemove cnt (stGet st (pickMax st ((cntFind? cnt (pickMin cnt)).getD []))))
          (stErase st (pickMax st ((cntFind? cnt (pickMin cnt)).getD []))
            (stGet st (pickMax st ((cntFind? cnt (pickMin cnt)).getD []))))
          (rtn ++ [pickMax st ((cntFind? cnt (pickMin cnt)).getD [])]) := by
  rw [gplLoop, if_neg h]

theorem gplInv_final {ls : List Pat} {st0 st : STMap} {rtn : List Pat}
    (hinv : GplInv ls st0 [] st rtn) :
    covUnion st0 rtn = covUnion st0 ls := by
  apply Finset.Subset.antisymm
  · exact covUnion_sub hinv.hrtn
  · intro j hj
    by_contra hc
    have h := (hinv.hmem j).mpr ⟨hj, hc⟩
    simp [cntMem, cntFind?] at h

theorem gplLoop_spec (ls : List Pat) (st0 : STMap) :
    ∀ (fuel : Nat) (cnt : CntMap) (st : STMap) (rtn : List Pat),
      cnt.length ≤ fuel → GplInv ls st0 cnt st rtn →
      (∀ p ∈ gplLoop fuel cnt st rtn, p ∈ ls) ∧
      covUnion st0 (gplLoop fuel cnt st rtn) = covUnion st0 ls ∧
      (gplLoop fuel cnt st rtn).Nodup := by
  intro fuel
  induction fuel with
  | zero =>
    intro cnt st rtn hlen hinv
    have hc : cnt = [] := List.length_eq_zero.mp (Nat.le_zero.mp hlen)
    subst hc
    rw [gplLoop]
    exact ⟨hinv.hrtn, gplInv_final hinv, hinv.hrnd⟩
  | succ fuel ih =>
    intro cnt st rtn hlen hinv
    by_cases hne : cnt = []
    · subst hne
      rw [gplLoop, if_pos rfl]
      exact ⟨hinv.hrtn, gplInv_final hinv, hinv.hrnd⟩
    · rw [gplLoop_succ fuel cnt st rtn hne]
      rcases gplStep ls st0 cnt st rtn hinv hne with ⟨hinv', hlt⟩
      exact ih _ _ _ (by omega) hinv'

/-- The greedy selector returns patterns of its input list whose initial
coverage sets union to exactly the total coverable set. -/
theorem gpl_cover (ls : List Pat) (st0 : STMap) :
    (∀ p ∈ gpl ls st0, p ∈ ls) ∧
    covUnion st0 (gpl ls st0) = covUnion st0 ls ∧
    (gpl ls st0).Nodup := by
  rw [gpl]
  exact gplLoop_spec ls st0 _ _ _ _ le_rfl (gplInv_init ls st0)

theorem minterms_nodup (t : OpNode) (vars : List Char) : (minterms t vars).Nodup :=
  (minterms_sorted t vars).nodup

theorem minterms_lt (t : OpNode) (vars : List Char) :
    ∀ i ∈ minterms t vars, i < 2 ^ vars.length := by
  intro i hi
  rw [minterms, List.mem_filter] at hi
  exact List.mem_range.mp hi.1

/-- `mkAssign` only produces bits. -/
theorem mkAssign_le_one : ∀ (vs : List Char) (i cnt : Nat) (c : Char),
    mkAssign vs i cnt c ≤ 1
  | [], _, _, _ => Nat.zero_le 1
  | v :: vs, i, cnt, c => by
    rw [mkAssign]
    split
    · exact Nat.and_le_right
    · exact mkAssign_le_one vs i (cnt - 1) c

/-- Under a bit-valued assignment, `OpNode::get()` only produces bits. -/
theorem eval_le_one (mvar : Char → Nat) (hm : ∀ c, mvar c ≤ 1) :
    ∀ t : OpNode, eval mvar t ≤ 1
  | .varN c => hm c
  | .constN n => by
    rw [eval]
    split
    · next h => omega
    · exact Nat.zero_le 1
  | .notN l => by
    rw [eval]
    have h := eval_le_one mvar hm l
    interval_cases h2 : eval mvar l <;> decide
  | .andN l r => by
    rw [eval]
    exact le_trans Nat.and_le_right (eval_le_one mvar hm r)
  | .orN l r => by
    rw [eval]
    have h1 := eval_le_one mvar hm l
    have h2 := eval_le_one mvar hm r
    interval_cases h3 : eval mvar l <;> interval_cases h4 : eval mvar r <;> decide
  | .xorN l r => by
    rw [eval]
    have h1 := eval_le_one mvar hm l
    have h2 := eval_le_one mvar hm r
    interval_cases h3 : eval mvar l <;> interval_cases h4 : eval mvar r <;> decide

theorem rowEval_le_one (t : OpNode) (vars : List Char) (i : Nat) :
    rowEval t vars i ≤ 1 :=
  eval_le_one _ (fun c => mkAssign_le_one vars i (vars.length - 1) c) t

/-- The cover phase on the merge result: every selected pattern is a prime
implicant of the minterm set, and the initial coverage sets of the selection
union to exactly the minterm set. -/
theorem QMA_cover (N : Nat) (m : List Nat) (hnd : m.Nodup)
    (hsub : ∀ i ∈ m, i < 2 ^ N) :
    (∀ p ∈ (QMA N m).1, primeImp N m.toFinset p) ∧
    covUnion (mergeResult N m).st (QMA N m).1 = m.toFinset := by
  rcases mergeResult_spec N m hnd hsub with ⟨r2, h1, _, h3⟩
  have hkey : ∀ p ∈ (mergeResult N m).ls, stMem (mergeResult N m).st p = true := by
    intro p hp
    refine (h1.st_keys p).mpr ⟨((h3 p).mp hp).1, ?_⟩
    rcases (h1.ls_iff p).mp hp with ⟨_, hd | ⟨hd, _⟩⟩ <;> omega
  have hU : covUnion (mergeResult N m).st (mergeResult N m).ls = m.toFinset := by
    apply Finset.Subset.antisymm
    · intro i hi
      rcases mem_covUnion.mp hi with ⟨p, hp, hip⟩
      rw [h1.st_val p (hkey p hp)] at hip
      exact ((h3 p).mp hp).1.2.2 hip
    · intro i hi
      have hilt : i < 2 ^ N := hsub i (List.mem_toFinset.mp hi)
      rcases prime_cover hi hilt with ⟨p, hpr, hcons⟩
      have hp : p ∈ (mergeResult N m).ls := (h3 p).mpr hpr
      refine mem_covUnion.mpr ⟨p, hp, ?_⟩
      rw [h1.st_val p (hkey p hp)]
      exact mem_cube.mpr ⟨by rw [hpr.1.1]; exact hilt, hcons⟩
  rcases gpl_cover (mergeResult N m).ls (mergeResult N m).st with ⟨hselmem, hselcov, _⟩
  have hq : (QMA N m).1 = gpl (mergeResult N m).ls (mergeResult N m).st := rfl
  refine ⟨?_, ?_⟩
  · intro p hp
    rw [hq] at hp
    exact (h3 p).mp (hselmem p hp)
  · rw [hq, hselcov, hU]

/-- Reaching the sum-of-products branch of `analyze`. -/
theorem analyze_sop (input rpn : List Char) (root : OpNode)
    (hv : validate input = true)
    (hr : cvtRPN (cvtAL input) = some rpn)
    (hb : buildGo rpn [] = Except.ok [root])
    (hne : varSet input ≠ [])
    (hm : minterms root (varSet input) ≠ [])
    (hnf : (minterms root (varSet input)).length ≠ 2 ^ (varSet input).length) :
    analyze input = Except.ok ⟨varSet input, minterms root (varSet input),
      .sop (QMA (varSet input).length (minterms root (varSet input))).1
        (intercalatePlus (isortL
          ((QMA (varSet input).length (minterms root (varSet input))).1.map
            (renderTerm (varSet input)))))⟩ := by
  have hlen0 : ((varSet input).length = 0) = (varSet input = []) := by
    simp [List.length_eq_zero]
  simp [analyze, hv, hr, hb, hlen0, hne, hm, hnf]

/-! ### C2: total cover of the selected implicants -/

/-- C2: on a valid expression whose minterm set is non-empty and non-full,
`analyze` reaches the sum-of-products verdict; every pattern selected by the
cover selector is a prime implicant of the minterm set, and the union of the
selected patterns' coverage sets (as accumulated by the merge phase) is
exactly the original minterm set — no omissions and nothing outside it. -/
theorem C2_total_cover (input rpn : List Char) (root : OpNode)
    (hv : validate input = true)
    (hr : cvtRPN (cvtAL input) = some rpn)
    (hb : buildGo rpn [] = Except.ok [root])
    (hne : varSet input ≠ [])
    (hm : minterms root (varSet input) ≠ [])
    (hnf : (minterms root (varSet input)).length ≠ 2 ^ (varSet input).length) :
    analyze input = Except.ok ⟨varSet input, minterms root (varSet input),
      .sop (QMA (varSet input).length (minterms root (varSet input))).1
        (intercalatePlus (isortL
          ((QMA (varSet input).length (minterms root (varSet input))).1.map
            (renderTerm (varSet input)))))⟩
    ∧ (∀ p ∈ (QMA (varSet input).length (minterms root (varSet input))).1,
        primeImp (varSet input).length (minterms root (varSet input)).toFinset p)
    ∧ covUnion (mergeResult (varSet input).length (minterms root (varSet input))).st
        (QMA (varSet input).length (minterms root (varSet input))).1
      = (minterms root (varSet input)).toFinset := by
  rcases QMA_cover (varSet input).length (minterms root (varSet input))
    (minterms_nodup root (varSet input)) (minterms_lt root (varSet input)) with ⟨h1, h2⟩
  exact ⟨analyze_sop input rpn root hv hr hb hne hm hnf, h1, h2⟩

theorem C2_witness :
    validate ['A'] = true ∧ cvtRPN (cvtAL ['A']) = some ['A'] ∧
    buildGo ['A'] [] = Except.ok [OpNode.varN 'A'] ∧
    varSet ['A'] ≠ [] ∧ minterms (OpNode.varN 'A') (varSet ['A']) ≠ [] ∧
    (minterms (OpNode.varN 'A') (varSet ['A'])).length ≠ 2 ^ (varSet ['A']).length ∧
    (analyze ['A'] = Except.ok ⟨varSet ['A'], minterms (OpNode.varN 'A') (varSet ['A']),
      .sop (QMA (varSet ['A']).length (minterms (OpNode.varN 'A') (varSet ['A']))).1
        (intercalatePlus (isortL
          ((QMA (varSet ['A']).length (minterms (OpNode.varN 'A') (varSet ['A']))).1.map
            (renderTerm (varSet ['A'])))))⟩
    ∧ (∀ p ∈ (QMA (varSet ['A']).length (minterms (OpNode.varN 'A') (varSet ['A']))).1,
        primeImp (varSet ['A']).length
          (minterms (OpNode.varN 'A') (varSet ['A'])).toFinset p)
    ∧ covUnion
        (mergeResult (varSet ['A']).length (minterms (OpNode.varN 'A') (varSet ['A']))).st
        (QMA (varSet ['A']).length (minterms (OpNode.varN 'A') (varSet ['A']))).1
      = (minterms (OpNode.varN 'A') (varSet ['A'])).toFinset) :=
  ⟨by decide, rfl, rfl, by decide, by decide, by decide,
    C2_total_cover ['A'] ['A'] (OpNode.varN 'A') (by decide) rfl rfl
      (by decide) (by decide) (by decide)⟩

/-! ### C3: soundness of the selected implicants -/

/-- C3: on a valid expression whose minterm set is non-empty and non-full,
`analyze` reaches the sum-of-products verdict, and every assignment row `i`
consistent with any selected pattern (fixed positions take their bit, `-`
positions are free) makes the original tree evaluate to `1`; equivalently,
no selected pattern's cube contains a row where the tree evaluates to `0`. -/
theorem C3_implicant_soundness (input rpn : List Char) (root : OpNode)
    (hv : validate input = true)
    (hr : cvtRPN (cvtAL input) = some rpn)
    (hb : buildGo rpn [] = Except.ok [root])
    (hne : varSet input ≠ [])
    (hm : minterms root (varSet input) ≠ [])
    (hnf : (minterms root (varSet input)).length ≠ 2 ^ (varSet input).length) :
    analyze input = Except.ok ⟨varSet input, minterms root (varSet input),
      .sop (QMA (varSet input).length (minterms root (varSet input))).1
        (intercalatePlus (isortL
          ((QMA (varSet input).length (minterms root (varSet input))).1.map
            (renderTerm (varSet input)))))⟩
    ∧ (∀ p ∈ (QMA (varSet input).length (minterms root (varSet input))).1,
        ∀ i, i < 2 ^ (varSet input).length → consistent p i = true →
          rowEval root (varSet input) i = 1)
    ∧ (∀ p ∈ (QMA (varSet input).length (minterms root (varSet input))).1,
        ∀ i ∈ cube p, rowEval root (varSet input) i ≠ 0) := by
  rcases QMA_cover (varSet input).length (minterms root (varSet input))
    (minterms_nodup root (varSet input)) (minterms_lt root (varSet input)) with ⟨h1, _⟩
  have hsound : ∀ p ∈ (QMA (varSet input).length (minterms root (varSet input))).1,
      ∀ i, i < 2 ^ (varSet input).length → consistent p i = true →
        rowEval root (varSet input) i = 1 := by
    intro p hp i hi hcons
    have hpr := h1 p hp
    have hcube : i ∈ cube p := mem_cube.mpr ⟨by rw [hpr.1.1]; exact hi, hcons⟩
    have hiM := hpr.1.2.2 hcube
    have hne0 := (mem_minterms.mp (List.mem_toFinset.mp hiM)).2
    have hle := rowEval_le_one root (varSet input) i
    omega
  refine ⟨analyze_sop input rpn root hv hr hb hne hm hnf, hsound, ?_⟩
  intro p hp i hicube
  rcases mem_cube.mp hicube with ⟨hilt, hicons⟩
  have hlen : p.length = (varSet input).length := (h1 p hp).1.1
  rw [hlen] at hilt
  rw [hsound p hp i hilt hicons]
  omega

theorem C3_witness :
    validate ['A', '+', 'B'] = true ∧
    cvtRPN (cvtAL ['A', '+', 'B']) = some ['A', 'B', '+'] ∧
    buildGo ['A', 'B', '+'] []
      = Except.ok [OpNode.orN (OpNode.varN 'B') (OpNode.varN 'A')] ∧
    varSet ['A', '+', 'B'] ≠ [] ∧
    minterms (OpNode.orN (OpNode.varN 'B') (OpNode.varN 'A')) (varSet ['A', '+', 'B']) ≠ [] ∧
    (minterms (OpNode.orN (OpNode.varN 'B') (OpNode.varN 'A'))
        (varSet ['A', '+', 'B'])).length ≠ 2 ^ (varSet ['A', '+', 'B']).length ∧
    (analyze ['A', '+', 'B'] = Except.ok ⟨varSet ['A', '+', 'B'],
      minterms (OpNode.orN (OpNode.varN 'B') (OpNode.varN 'A')) (varSet ['A', '+', 'B']),
      .sop (QMA (varSet ['A', '+', 'B']).length
          (minterms (OpNode.orN (OpNode.varN 'B') (OpNode.varN 'A'))
            (varSet ['A', '+', 'B']))).1
        (intercalatePlus (isortL
          ((QMA (varSet ['A', '+', 'B']).length
              (minterms (OpNode.orN (OpNode.varN 'B') (OpNode.varN 'A'))
                (varSet ['A', '+', 'B']))).1.map
            (renderTerm (varSet ['A', '+', 'B'])))))⟩
    ∧ (∀ p ∈ (QMA (varSet ['A', '+', 'B']).length
          (minterms (OpNode.orN (OpNode.varN 'B') (OpNode.varN 'A'))
            (varSet ['A', '+', 'B']))).1,
        ∀ i, i < 2 ^ (varSet ['A', '+', 'B']).length → consistent p i = true →
          rowEval (OpNode.orN (OpNode.varN 'B') (OpNode.varN 'A'))
            (varSet ['A', '+', 'B']) i = 1)
    ∧ (∀ p ∈ (QMA (varSet ['A', '+', 'B']).length
          (minterms (OpNode.orN (OpNode.varN 'B') (OpNode.varN 'A'))
            (varSet ['A', '+', 'B']))).1,
        ∀ i ∈ cube p,
          rowEval (OpNode.orN (OpNode.varN 'B') (OpNode.varN 'A'))
            (varSet ['A', '+', 'B']) i ≠ 0)) :=
  ⟨by decide, rfl, rfl, by decide, by decide, by decide,
    C3_implicant_soundness ['A', '+', 'B'] ['A', 'B', '+']
      (OpNode.orN (OpNode.varN 'B') (OpNode.varN 'A')) (by decide) rfl rfl
      (by decide) (by decide) (by decide)⟩

/-! ### C5: parenthesis balance and conversion errors -/

/-- Modelled from the spec's wording (C5): the standard balance scan, `n`
open parentheses pending. -/
def dyckScanSpec : List Char → Nat → Bool
  | [], n => n == 0
  | c :: cs, n =>
    if c = '(' then dyckScanSpec cs (n + 1)
    else if c = ')' then (if n = 0 then false else dyckScanSpec cs (n - 1))
    else dyckScanSpec cs n

/-- Spec-side notion of balanced parentheses for C5. -/
def parBalancedSpec (e : List Char) : Bool := dyckScanSpec e 0

/-- Open parentheson count of an operator stack. -/
def countOpen (l : List Char) : Nat := (l.filter (fun c => c = '(')).length

theorem countOpen_nil : countOpen [] = 0 := rfl

theorem countOpen_cons_open (l : List Char) : countOpen ('(' :: l) = countOpen l + 1 := by
  simp [countOpen]

theorem countOpen_cons_other {c : Char} (h : ¬ c = '(') (l : List Char) :
    countOpen (c :: l) = countOpen l := by
  simp [countOpen, h]

theorem countOpen_append (a b : List Char) :
    countOpen (a ++ b) = countOpen a + countOpen b := by
  simp [countOpen, List.filter_append]

theorem countOpen_eq_zero {l : List Char} (h : '(' ∉ l) : countOpen l = 0 := by
  rw [countOpen, List.length_eq_zero, List.filter_eq_nil]
  intro a ha
  simp only [decide_eq_true_eq]
  intro hc
  exact h (hc ▸ ha)

theorem rpnGo_op {c : Char} (hop : (isUpperC c || isDigitC c) = true) (cs tmp stk : List Char) :
    rpnGo (c :: cs) tmp stk = rpnGo cs (tmp ++ [c]) stk := by
  rw [rpnGo.eq_def]
  simp only [if_pos hop]

theorem rpnGo_push_empty {c : Char} (hop : ¬ (isUpperC c || isDigitC c) = true)
    (cs tmp : List Char) :
    rpnGo (c :: cs) tmp [] = rpnGo cs tmp [c] := by
  rw [rpnGo.eq_def]
  simp only [if_neg hop]

theorem rpnGo_open (cs tmp : List Char) (t0 : Char) (rest : List Char) :
    rpnGo ('(' :: cs) tmp (t0 :: rest) = rpnGo cs tmp ('(' :: t0 :: rest) := rfl

theorem rpnGo_close (cs tmp : List Char) (t0 : Char) (rest : List Char) :
    rpnGo (')' :: cs) tmp (t0 :: rest)
      = match ((t0 :: rest).span (fun x => x ≠ '(')).2 with
        | [] => none
        | _ :: rest2 => rpnGo cs (tmp ++ ((t0 :: rest).span (fun x => x ≠ '(')).1) rest2 := rfl

theorem rpnGo_push_lt {c : Char} (hop : ¬ (isUpperC c || isDigitC c) = true)
    (hpo : ¬ c = '(') (hpc : ¬ c = ')') {t0 : Char} (hlt : prf t0 < prf c)
    (cs tmp : List Char) (rest : List Char) :
    rpnGo (c :: cs) tmp (t0 :: rest) = rpnGo cs tmp (c :: t0 :: rest) := by
  rw [rpnGo.eq_def]
  simp only [if_neg hop, if_neg hpo, if_neg hpc, if_pos hlt]

theorem rpnGo_pops {c : Char} (hop : ¬ (isUpperC c || isDigitC c) = true)
    (hpo : ¬ c = '(') (hpc : ¬ c = ')') {t0 : Char} (hlt : ¬ prf t0 < prf c)
    (cs tmp : List Char) (rest : List Char) :
    rpnGo (c :: cs) tmp (t0 :: rest)
      = rpnGo cs (tmp ++ ((t0 :: rest).span (fun x => prf x > prf c)).1)
          (c :: ((t0 :: rest).span (fun x => prf x > prf c)).2) := by
  rw [rpnGo.eq_def]
  simp only [if_neg hop, if_neg hpo, if_neg hpc, if_neg hlt]

/-- Everything in the output string, and every non-`(` character of the
operator stack, survives into a successful conversion's result. -/
theorem rpnGo_mem : ∀ (cs tmp stk t : List Char), rpnGo cs tmp stk = some t →
    ∀ x, x ∈ tmp ∨ (x ≠ '(' ∧ x ∈ stk) → x ∈ t
  | [], tmp, stk, t, h, x, hx => by
    rw [rpnGo] at h
    injection h with h2
    rw [← h2]
    rcases hx with hx | ⟨_, hx⟩
    · exact List.mem_append_left _ hx
    · exact List.mem_append_right _ hx
  | c :: cs, tmp, stk, t, h, x, hx => by
    by_cases hop : (isUpperC c || isDigitC c) = true
    · rw [rpnGo_op hop] at h
      refine rpnGo_mem cs _ _ t h x ?_
      rcases hx with hx | hx
      · exact Or.inl (List.mem_append_left _ hx)
      · exact Or.inr hx
    · rcases stk with _ | ⟨t0, rest⟩
      · rw [rpnGo_push_empty hop] at h
        refine rpnGo_mem cs _ _ t h x ?_
        rcases hx with hx | ⟨_, hx⟩
        · exact Or.inl hx
        · exact absurd hx (List.not_mem_nil x)
      · by_cases hpo : c = '('
        · subst hpo
          rw [rpnGo_open] at h
          refine rpnGo_mem cs _ _ t h x ?_
          rcases hx with hx | ⟨hxne, hx⟩
          · exact Or.inl hx
          · exact Or.inr ⟨hxne, List.mem_cons_of_mem _ hx⟩
        · by_cases hpc : c = ')'
          · subst hpc
            rw [rpnGo_close] at h
            rw [List.span_eq_take_drop (fun x => x ≠ '(') (t0 :: rest)] at h
            rcases hd : (t0 :: rest).dropWhile (fun x => x ≠ '(') with _ | ⟨h1, rest2⟩
            · rw [hd] at h
              exact Option.noConfusion h
            · rw [hd] at h
              refine rpnGo_mem cs _ _ t h x ?_
              rcases hx with hx | ⟨hxne, hx⟩
              · exact Or.inl (List.mem_append_left _ hx)
              · have hsplit : (t0 :: rest).takeWhile (fun x => x ≠ '(')
                    ++ (t0 :: rest).dropWhile (fun x => x ≠ '(') = t0 :: rest :=
                  List.takeWhile_append_dropWhile _ _
                rw [← hsplit] at hx
                rcases List.mem_append.mp hx with hx | hx
                · exact Or.inl (List.mem_append_right _ hx)
                · rw [hd] at hx
                  rcases List.mem_cons.mp hx with rfl | hx
                  · have hh1 := dropWhile_head_false _ _ hd
                    simp only [decide_eq_true_eq] at hh1
                    exact absurd (by
                      rcases Bool.eq_false_iff.mp hh1 with h3
                      exact not_not.mp (fun hc => h3 (by simp [hc]))) hxne
                  · exact Or.inr ⟨hxne, hx⟩
          · by_cases hlt : prf t0 < prf c
            · rw [rpnGo_push_lt hop hpo hpc hlt] at h
              refine rpnGo_mem cs _ _ t h x ?_
              rcases hx with hx | ⟨hxne, hx⟩
              · exact Or.inl hx
              · exact Or.inr ⟨hxne, List.mem_cons_of_mem _ hx⟩
            · rw [rpnGo_pops hop hpo hpc hlt] at h
              rw [List.span_eq_take_drop (fun x => prf x > prf c) (t0 :: rest)] at h
              refine rpnGo_mem cs _ _ t h x ?_
              rcases hx with hx | ⟨hxne, hx⟩
              · exact Or.inl (List.mem_append_left _ hx)
              · have hsplit : (t0 :: rest).takeWhile (fun x => prf x > prf c)
                    ++ (t0 :: rest).dropWhile (fun x => prf x > prf c) = t0 :: rest :=
                  List.takeWhile_append_dropWhile _ _
                rw [← hsplit] at hx
                rcases List.mem_append.mp hx with hx | hx
                · exact Or.inl (List.mem_append_right _ hx)
                · exact Or.inr ⟨hxne, List.mem_cons_of_mem _ hx⟩

/-- A successful conversion whose result string is parenthesis-free can only
arise from a balanced remainder: the scan of the remaining input, starting
from the open parentheses currently on the stack, succeeds. -/
theorem rpnGo_dyck : ∀ (cs tmp stk t : List Char), rpnGo cs tmp stk = some t →
    '(' ∉ t → ')' ∉ t → ')' ∉ stk →
    dyckScanSpec cs (countOpen stk) = true
  | [], tmp, stk, t, h, h1, h2, h3 => by
    rw [rpnGo] at h
    injection h with h4
    have hop : '(' ∉ stk := fun hm => h1 (h4 ▸ List.mem_append_right _ hm)
    rw [dyckScanSpec, countOpen_eq_zero hop]
    rfl
  | c :: cs, tmp, stk, t, h, h1, h2, h3 => by
    by_cases hop : (isUpperC c || isDigitC c) = true
    · rw [rpnGo_op hop] at h
      have hcp : ¬ c = '(' := by
        intro hh
        subst hh
        exact absurd hop (by decide)
      have hcc : ¬ c = ')' := by
        intro hh
        subst hh
        exact absurd hop (by decide)
      rw [dyckScanSpec, if_neg hcp, if_neg hcc]
      exact rpnGo_dyck cs _ stk t h h1 h2 h3
    · rcases stk with _ | ⟨t0, rest⟩
      · rw [rpnGo_push_empty hop] at h
        by_cases hcp : c = '('
        · subst hcp
          rw [dyckScanSpec, if_pos rfl]
          have hres := rpnGo_dyck cs tmp ['('] t h h1 h2
            (by
              intro hm
              exact absurd (List.mem_singleton.mp hm) (by decide))
          rw [countOpen_cons_open, countOpen_nil] at hres
          rw [countOpen_nil]
          exact hres
        · by_cases hcc : c = ')'
          · exfalso
            subst hcc
            exact h2 (rpnGo_mem cs tmp [')'] t h ')'
              (Or.inr ⟨by decide, List.mem_singleton_self _⟩))
          · rw [dyckScanSpec, if_neg hcp, if_neg hcc]
            have hres := rpnGo_dyck cs tmp [c] t h h1 h2
              (by
                intro hm
                rcases List.mem_singleton.mp hm with rfl
                exact hcc rfl)
            rw [countOpen_cons_other hcp, countOpen_nil] at hres
            rw [countOpen_nil]
            exact hres
      · by_cases hpo : c = '('
        · subst hpo
          rw [rpnGo_open] at h
          rw [dyckScanSpec, if_pos rfl]
          have hres := rpnGo_dyck cs tmp ('(' :: t0 :: rest) t h h1 h2
            (by
              intro hm
              rcases List.mem_cons.mp hm with hm | hm
              · exact absurd hm.symm (by decide)
              · exact h3 hm)
          rw [countOpen_cons_open] at hres
          exact hres
        · by_cases hpc : c = ')'
          · subst hpc
            rw [rpnGo_close] at h
            rw [List.span_eq_take_drop (fun x => x ≠ '(') (t0 :: rest)] at h
            rcases hd : (t0 :: rest).dropWhile (fun x => x ≠ '(') with _ | ⟨h0, rest2⟩
            · rw [hd] at h
              exact Option.noConfusion h
            · rw [hd] at h
              have hh0 : h0 = '(' := by
                have hf := dropWhile_head_false _ _ hd
                rcases Bool.eq_false_iff.mp hf with h4
                exact not_not.mp (fun hc => h4 (by simp [hc]))
              subst hh0
              have hsplit : (t0 :: rest).takeWhile (fun x => x ≠ '(')
                  ++ (t0 :: rest).dropWhile (fun x => x ≠ '(') = t0 :: rest :=
                List.takeWhile_append_dropWhile _ _
              have htw : '(' ∉ (t0 :: rest).takeWhile (fun x => x ≠ '(') := by
                intro hm
                have := List.mem_takeWhile_imp hm
                simp at this
              have hco : countOpen (t0 :: rest) = countOpen rest2 + 1 := by
                rw [← hsplit, hd, countOpen_append, countOpen_eq_zero htw,
                  countOpen_cons_open]
                omega
              rw [dyckScanSpec, if_neg (by decide), if_pos rfl, hco,
                if_neg (by omega)]
              have hres := rpnGo_dyck cs _ rest2 t h h1 h2
                (by
                  intro hm
                  refine h3 ?_
                  rw [← hsplit, hd]
                  exact List.mem_append_right _ (List.mem_cons_of_mem _ hm))
              simpa using hres
          · by_cases hlt : prf t0 < prf c
            · rw [rpnGo_push_lt hop hpo hpc hlt] at h
              rw [dyckScanSpec, if_neg hpo, if_neg hpc]
              have hres := rpnGo_dyck cs tmp (c :: t0 :: rest) t h h1 h2
                (by
                  intro hm
                  rcases List.mem_cons.mp hm with hm | hm
                  · exact hpc hm.symm
                  · exact h3 hm)
              rw [countOpen_cons_other hpo] at hres
              exact hres
            · rw [rpnGo_pops hop hpo hpc hlt] at h
              rw [List.span_eq_take_drop (fun x => prf x > prf c) (t0 :: rest)] at h
              have hsplit : (t0 :: rest).takeWhile (fun x => prf x > prf c)
                  ++ (t0 :: rest).dropWhile (fun x => prf x > prf c) = t0 :: rest :=
                List.takeWhile_append_dropWhile _ _
              have htw : '(' ∉ (t0 :: rest).takeWhile (fun x => prf x > prf c) := by
                intro hm
                exact h1 (rpnGo_mem cs _ _ t h '('
                  (Or.inl (List.mem_append_right _ hm)))
              have hco : countOpen (t0 :: rest)
                  = countOpen ((t0 :: rest).dropWhile (fun x => prf x > prf c)) := by
                rw [← hsplit, countOpen_append, countOpen_eq_zero htw]
                rw [hsplit]
                omega
              rw [dyckScanSpec, if_neg hpo, if_neg hpc, hco]
              have hres := rpnGo_dyck cs _ _ t h h1 h2
                (by
                  intro hm
                  rcases List.mem_cons.mp hm with hm | hm
                  · exact hpc hm.symm
                  · refine h3 ?_
                    rw [← hsplit]
                    exact List.mem_append_right _ hm)
              rw [countOpen_cons_other hpo] at hres
              exact hres

theorem dyck_cons_congr {c : Char} {l1 l2 : List Char}
    (h : ∀ n, dyckScanSpec l1 n = dyckScanSpec l2 n) :
    ∀ n, dyckScanSpec (c :: l1) n = dyckScanSpec (c :: l2) n := by
  intro n
  rw [dyckScanSpec, dyckScanSpec]
  by_cases h1 : c = '('
  · rw [if_pos h1, if_pos h1, h]
  · rw [if_neg h1, if_neg h1]
    by_cases h2 : c = ')'
    · rw [if_pos h2, if_pos h2]
      by_cases h3 : n = 0
      · rw [if_pos h3, if_pos h3]
      · rw [if_neg h3, if_neg h3, h]
    · rw [if_neg h2, if_neg h2, h]

/-- Implicit-AND insertion changes no parenthesis structure. -/
theorem dyck_cvtALgo : ∀ (cs : List Char) (prev : Char) (n : Nat),
    dyckScanSpec (cvtALgo prev cs) n = dyckScanSpec cs n
  | [], _, _ => rfl
  | c :: cs, prev, n => by
    rw [cvtALgo]
    by_cases hcond : ((isUpperC c || isDigitC c || c = '(') && prev ≠ '('
        && prev ≠ '+' && prev ≠ '^') = true
    · rw [if_pos hcond]
      simp only [List.cons_append, List.nil_append]
      rw [show dyckScanSpec ('*' :: c :: cvtALgo c cs) n
          = dyckScanSpec (c :: cvtALgo c cs) n by
        rw [dyckScanSpec, if_neg (by decide), if_neg (by decide)]]
      exact dyck_cons_congr (fun n => dyck_cvtALgo cs c n) n
    · rw [if_neg hcond]
      simp only [List.cons_append, List.nil_append]
      exact dyck_cons_congr (fun n => dyck_cvtALgo cs c n) n

theorem parBalanced_cvtAL (e : List Char) :
    parBalancedSpec (cvtAL e) = parBalancedSpec e := by
  rcases e with _ | ⟨c, cs⟩
  · rfl
  · rw [cvtAL, parBalancedSpec, parBalancedSpec]
    exact dyck_cons_congr (fun n => dyck_cvtALgo cs c n) 0

/-- The NOT-compression pass only drops apostrophes. -/
theorem compress_mem {x : Char} (hx : x ≠ quote) :
    ∀ (l : List Char) (j : Nat), x ∈ l → x ∈ compress l j
  | [], _, h => absurd h (List.not_mem_nil x)
  | c :: cs, j, h => by
    by_cases hc : c = quote
    · subst hc
      rw [compress_quote_cons]
      rcases List.mem_cons.mp h with rfl | h2
      · exact absurd rfl hx
      · exact compress_mem hx cs (j + 1) h2
    · rw [compress_other_cons hc]
      rcases List.mem_cons.mp h with rfl | h2
      · exact List.mem_append_right _ (List.mem_cons_self _ _)
      · exact List.mem_append_right _ (List.mem_cons_of_mem _ (compress_mem hx cs 0 h2))

/-- Unfolding of one step of the tree builder. -/
theorem buildGo_cons_eq (c0 : Char) (cs : List Char) (stk : List OpNode) :
    buildGo (c0 :: cs) stk =
      if isUpperC c0 then buildGo cs (.varN c0 :: stk)
      else if isDigitC c0 then buildGo cs (.constN (c0.toNat - '0'.toNat) :: stk)
      else if c0 = quote then
        match stk with
        | [] => .error .invalidNot
        | a :: rest => buildGo cs (.notN a :: rest)
      else if c0 = '*' then
        match stk with
        | a :: b :: rest => buildGo cs (.andN a b :: rest)
        | _ => .error .invalidAnd
      else if c0 = '^' then
        match stk with
        | a :: b :: rest => buildGo cs (.xorN a b :: rest)
        | _ => .error .invalidXor
      else if c0 = '+' then
        match stk with
        | a :: b :: rest => buildGo cs (.orN a b :: rest)
        | _ => .error .invalidOr
      else .error .invalidLogic := rfl

/-- A postfix stream the tree builder fully consumes without error contains
only variables, digits, apostrophes and the three binary operators. -/
theorem buildGo_tokens : ∀ (cs : List Char) (stk res : List OpNode),
    buildGo cs stk = Except.ok res → ∀ c ∈ cs,
      isUpperC c = true ∨ isDigitC c = true ∨ c = quote ∨ c = '*' ∨ c = '^' ∨ c = '+'
  | [], _, _, _ => fun c hc => absurd hc (List.not_mem_nil c)
  | c0 :: cs, stk, res, h => by
    intro c hc
    rw [buildGo_cons_eq] at h
    by_cases h1 : isUpperC c0 = true
    · rw [if_pos h1] at h
      rcases List.mem_cons.mp hc with rfl | hc2
      · exact Or.inl h1
      · exact buildGo_tokens cs _ res h c hc2
    · rw [if_neg h1] at h
      by_cases h2 : isDigitC c0 = true
      · rw [if_pos h2] at h
        rcases List.mem_cons.mp hc with rfl | hc2
        · exact Or.inr (Or.inl h2)
        · exact buildGo_tokens cs _ res h c hc2
      · rw [if_neg h2] at h
        by_cases h3 : c0 = quote
        · rw [if_pos h3] at h
          rcases stk with _ | ⟨a, rest⟩
          · exact Except.noConfusion h
          · rcases List.mem_cons.mp hc with rfl | hc2
            · exact Or.inr (Or.inr (Or.inl h3))
            · exact buildGo_tokens cs _ res h c hc2
        · rw [if_neg h3] at h
          by_cases h4 : c0 = '*'
          · rw [if_pos h4] at h
            rcases stk with _ | ⟨a, _ | ⟨b, rest⟩⟩
            · exact Except.noConfusion h
            · exact Except.noConfusion h
            · rcases List.mem_cons.mp hc with rfl | hc2
              · exact Or.inr (Or.inr (Or.inr (Or.inl h4)))
              · exact buildGo_tokens cs _ res h c hc2
          · rw [if_neg h4] at h
            by_cases h5 : c0 = '^'
            · rw [if_pos h5] at h
              rcases stk with _ | ⟨a, _ | ⟨b, rest⟩⟩
              · exact Except.noConfusion h
              · exact Except.noConfusion h
              · rcases List.mem_cons.mp hc with rfl | hc2
                · exact Or.inr (Or.inr (Or.inr (Or.inr (Or.inl h5))))
                · exact buildGo_tokens cs _ res h c hc2
            · rw [if_neg h5] at h
              by_cases h6 : c0 = '+'
              · rw [if_pos h6] at h
                rcases stk with _ | ⟨a, _ | ⟨b, rest⟩⟩
                · exact Except.noConfusion h
                · exact Except.noConfusion h
                · rcases List.mem_cons.mp hc with rfl | hc2
                  · exact Or.inr (Or.inr (Or.inr (Or.inr (Or.inr h6))))
                  · exact buildGo_tokens cs _ res h c hc2
              · rw [if_neg h6] at h
                exact Except.noConfusion h

/-- A successful run of the pipeline passed validation, converted to postfix
successfully and built a tree from the whole postfix stream. -/
theorem analyze_ok_parts {input : List Char} {out : Output}
    (h : analyze input = Except.ok out) :
    validate input = true ∧ ∃ rpn stk, cvtRPN (cvtAL input) = some rpn ∧
      buildGo rpn [] = Except.ok stk := by
  rw [analyze] at h
  by_cases hv : validate input = true
  · rw [if_pos hv] at h
    refine ⟨hv, ?_⟩
    split at h
    · exact Except.noConfusion h
    · next rpn heq =>
      split at h
      · exact Except.noConfusion h
      · next stk heqb =>
        exact ⟨rpn, stk, heq, heqb⟩
  · rw [if_neg hv] at h
    exact Except.noConfusion h

/-- A successful conversion-and-build leaves no parenthesis anywhere in the
shunting-yard output. -/
theorem build_ok_noParen {input rpn : List Char} (hr : cvtRPN (cvtAL input) = some rpn)
    {stk : List OpNode} (hb : buildGo rpn [] = Except.ok stk) :
    ∃ t, rpnGo (cvtAL input) [] [] = some t ∧ '(' ∉ t ∧ ')' ∉ t := by
  rw [cvtRPN] at hr
  rcases ht : rpnGo (cvtAL input) [] [] with _ | t
  · rw [ht] at hr
    exact Option.noConfusion hr
  · rw [ht] at hr
    rw [Option.map_some'] at hr
    injection hr with hrpn
    refine ⟨t, rfl, ?_, ?_⟩
    · intro hc
      have hmem : '(' ∈ rpn := by
        rw [← hrpn]
        exact compress_mem (by decide) t 0 hc
      exact absurd (buildGo_tokens rpn [] stk hb '(' hmem) (by decide)
    · intro hc
      have hmem : ')' ∈ rpn := by
        rw [← hrpn]
        exact compress_mem (by decide) t 0 hc
      exact absurd (buildGo_tokens rpn [] stk hb ')' hmem) (by decide)

/-- C5 counterexample: the input `(AB` (an unmatched `(`) does not fail with
the InvalidExpression error: the unmatched parenthesis flows into the postfix
stream and the tree builder rejects it with the Invalid-logic message; the
lone input `)` (a `)` with no `(` available) takes the same path, because a
`)` meeting an empty operator stack is pushed rather than rejected. -/
theorem C5_counterexample :
    analyze ['(', 'A', 'B'] = Except.error Err.invalidLogic ∧
    analyze [')'] = Except.error Err.invalidLogic ∧
    Err.invalidLogic ≠ Err.invalidExpression :=
  ⟨rfl, rfl, by decide⟩

/-- C5 (amended): an input with unbalanced parentheses never reaches a
successful analysis — the pipeline fails with some error; the
InvalidExpression error itself is raised exactly on the conversion path
where a `)` pops a nonempty, `(`-free operator stack dry, and an aborted
conversion always surfaces as InvalidExpression. -/
theorem C5_unbalanced_paren_errors :
    (∀ input : List Char, validate input = true → parBalancedSpec input = false →
      ∃ e, analyze input = Except.error e)
    ∧ (∀ (cs tmp stk : List Char), stk ≠ [] → '(' ∉ stk →
        rpnGo (')' :: cs) tmp stk = none)
    ∧ (∀ input : List Char, validate input = true →
        rpnGo (cvtAL input) [] [] = none →
        analyze input = Except.error Err.invalidExpression) := by
  refine ⟨?_, ?_, ?_⟩
  · intro input hv hbal
    rcases h : analyze input with e | out
    · exact ⟨e, rfl⟩
    · exfalso
      rcases analyze_ok_parts h with ⟨_, rpn, stk, hr, hb⟩
      rcases build_ok_noParen hr hb with ⟨t, ht, h1, h2⟩
      have hres := rpnGo_dyck (cvtAL input) [] [] t ht h1 h2 (List.not_mem_nil ')')
      rw [countOpen_nil] at hres
      have hbal2 : parBalancedSpec (cvtAL input) = true := hres
      rw [parBalanced_cvtAL] at hbal2
      rw [hbal] at hbal2
      exact Bool.noConfusion hbal2
  · intro cs tmp stk hne hnp
    rcases stk with _ | ⟨t0, rest⟩
    · exact absurd rfl hne
    · rw [rpnGo_close, List.span_eq_take_drop (fun x => x ≠ '(') (t0 :: rest)]
      have hd : (t0 :: rest).dropWhile (fun x => x ≠ '(') = [] := by
        rw [List.dropWhile_eq_nil_iff]
        intro x hx
        by_cases hxe : x = '('
        · exact absurd (hxe ▸ hx) hnp
        · simp [hxe]
      rw [hd]
  · intro input hv hnone
    rw [analyze, if_pos hv, cvtRPN, hnone]
    rfl

theorem C5_witness :
    (validate [')', '('] = true ∧ parBalancedSpec [')', '('] = false ∧
      ∃ e, analyze [')', '('] = Except.error e)
    ∧ ((['+'] : List Char) ≠ [] ∧ '(' ∉ (['+'] : List Char) ∧
      rpnGo [')'] [] ['+'] = none)
    ∧ (validate ['A', '+', ')'] = true ∧
      rpnGo (cvtAL ['A', '+', ')']) [] [] = none ∧
      analyze ['A', '+', ')'] = Except.error Err.invalidExpression) :=
  ⟨⟨by decide, by decide,
      C5_unbalanced_paren_errors.1 [')', '('] (by decide) (by decide)⟩,
    ⟨by decide, by decide,
      C5_unbalanced_paren_errors.2.1 [] [] ['+'] (by decide) (by decide)⟩,
    ⟨by decide, rfl,
      C5_unbalanced_paren_errors.2.2 ['A', '+', ')'] (by decide) rfl⟩⟩

/-! ### C1: structure of the rendered sum-of-products expression -/

/-- A rendered literal: variable character and negation flag. -/
def litStr2 (l : Char × Bool) : List Char := if l.2 then [l.1, quote] else [l.1]

/-- The tree the builder produces for one literal. -/
def litTree (l : Char × Bool) : OpNode := if l.2 then .notN (.varN l.1) else .varN l.1

/-- The literals of one product term: fixed positions of the pattern paired
with their negation flag, dashes skipped. -/
def litsOf (vars : List Char) (p : Pat) : List (Char × Bool) :=
  (vars.zip p).filterMap (fun x =>
    if x.2 = '0' then some (x.1, true) else if x.2 = '1' then some (x.1, false) else none)

/-- The characters of a term, literal by literal. -/
def flatLits (t : List (Char × Bool)) : List Char := t.flatMap litStr2

theorem renderTerm_eq_aux : ∀ l : List (Char × Char),
    (l.flatMap (fun x => if x.2 = '0' then [x.1, quote] else if x.2 = '1' then [x.1] else []))
      = ((l.filterMap (fun x =>
          if x.2 = '0' then some (x.1, true) else if x.2 = '1' then some (x.1, false)
          else none)).flatMap litStr2)
  | [] => rfl
  | x :: l => by
    rw [List.flatMap_cons, List.filterMap_cons]
    by_cases h0 : x.2 = '0'
    · rw [if_pos h0, if_pos h0, List.flatMap_cons, renderTerm_eq_aux l]
      rfl
    · rw [if_neg h0, if_neg h0]
      by_cases h1 : x.2 = '1'
      · rw [if_pos h1, if_pos h1, List.flatMap_cons, renderTerm_eq_aux l]
        rfl
      · rw [if_neg h1, if_neg h1, renderTerm_eq_aux l]
        rfl

theorem renderTerm_eq (vars : List Char) (p : Pat) :
    renderTerm vars p = flatLits (litsOf vars p) :=
  renderTerm_eq_aux (vars.zip p)

/-- Insertion sort of terms in literal form, mirroring `isortL` on their
rendered strings. -/
def isortT1 (x : List (Char × Bool)) : List (List (Char × Bool)) → List (List (Char × Bool))
  | [] => [x]
  | y :: ys => if lexLe (flatLits x) (flatLits y) then x :: y :: ys else y :: isortT1 x ys

def isortT : List (List (Char × Bool)) → List (List (Char × Bool))
  | [] => []
  | x :: xs => isortT1 x (isortT xs)

theorem isortT1_map (x : List (Char × Bool)) : ∀ l : List (List (Char × Bool)),
    (isortT1 x l).map flatLits = isort1 (flatLits x) (l.map flatLits)
  | [] => rfl
  | y :: ys => by
    rw [isortT1, List.map_cons, isort1]
    by_cases h : lexLe (flatLits x) (flatLits y) = true
    · rw [if_pos h, if_pos h]
      rfl
    · rw [if_neg h, if_neg h, List.map_cons, isortT1_map x ys]

theorem isortT_map : ∀ l : List (List (Char × Bool)),
    (isortT l).map flatLits = isortL (l.map flatLits)
  | [] => rfl
  | x :: xs => by
    rw [isortT, List.map_cons, isortL, isortT1_map x (isortT xs), isortT_map xs]

theorem mem_isortT1 (x t : List (Char × Bool)) : ∀ l : List (List (Char × Bool)),
    t ∈ isortT1 x l ↔ t = x ∨ t ∈ l
  | [] => by simp [isortT1]
  | y :: ys => by
    rw [isortT1]
    by_cases h : lexLe (flatLits x) (flatLits y) = true
    · rw [if_pos h]
      simp only [List.mem_cons]
    · rw [if_neg h]
      simp only [List.mem_cons, mem_isortT1 x t ys]
      tauto

theorem mem_isortT (t : List (Char × Bool)) : ∀ l : List (List (Char × Bool)),
    t ∈ isortT l ↔ t ∈ l
  | [] => Iff.rfl
  | x :: xs => by
    rw [isortT, mem_isortT1, mem_isortT t xs, List.mem_cons]

theorem intercalatePlus_cons : ∀ (s : List Char) (ss : List (List Char)),
    intercalatePlus (s :: ss) = s ++ ss.flatMap (fun x => '+' :: x)
  | s, [] => by simp [intercalatePlus]
  | s, s2 :: ss => by
    have he : intercalatePlus (s :: s2 :: ss) = s ++ '+' :: intercalatePlus (s2 :: ss) := rfl
    rw [he, intercalatePlus_cons s2 ss, List.flatMap_cons]
    simp

theorem litsOf_upper {vars : List Char} {p : Pat} (h : ∀ v ∈ vars, isUpperC v = true) :
    ∀ l ∈ litsOf vars p, isUpperC l.1 = true := by
  intro l hl
  rcases List.mem_filterMap.mp hl with ⟨x, hx, hfx⟩
  have hx1 : x.1 ∈ vars := by
    rcases x with ⟨a, b⟩
    exact (List.mem_zip hx).1
  by_cases h0 : x.2 = '0'
  · rw [if_pos h0] at hfx
    injection hfx with h2
    rw [← h2]
    exact h x.1 hx1
  · rw [if_neg h0] at hfx
    by_cases h1 : x.2 = '1'
    · rw [if_pos h1] at hfx
      injection hfx with h2
      rw [← h2]
      exact h x.1 hx1
    · rw [if_neg h1] at hfx
      exact Option.noConfusion hfx

theorem consistent_all_dash : ∀ {p : Pat}, (∀ c ∈ p, c = '-') → ∀ i, consistent p i = true
  | [], _, _ => rfl
  | c :: p, h, i => by
    rw [consistent]
    have hc : c = '-' := h c (List.mem_cons_self _ _)
    rw [hc]
    simp only [Bool.and_eq_true, Bool.or_eq_true]
    exact ⟨Or.inl (by decide), consistent_all_dash (fun d hd => h d (List.mem_cons_of_mem _ hd)) i⟩

theorem litsOf_ne_nil : ∀ (vars : List Char) (p : Pat), vars.length = p.length →
    patChars p → (∃ c ∈ p, ¬ c = '-') → litsOf vars p ≠ []
  | [], p, hlen, _, hex => by
    rcases hex with ⟨c, hc, _⟩
    rcases p with _ | _
    · simp at hc
    · simp at hlen
  | v :: vs, p, hlen, hpc, hex => by
    rcases p with _ | ⟨c, q⟩
    · simp at hlen
    · rw [litsOf, List.zip_cons_cons, List.filterMap_cons]
      by_cases h0 : c = '0'
      · rw [if_pos h0]
        simp
      · rw [if_neg h0]
        by_cases h1 : c = '1'
        · rw [if_pos h1]
          simp
        · rw [if_neg h1]
          have hcd : c = '-' := by
            rcases hpc c (List.mem_cons_self _ _) with h | h | h
            · exact absurd h h0
            · exact absurd h h1
            · exact h
          have hex2 : ∃ d ∈ q, ¬ d = '-' := by
            rcases hex with ⟨d, hd, hdne⟩
            rcases List.mem_cons.mp hd with rfl | hd2
            · exact absurd hcd hdne
            · exact ⟨d, hd2, hdne⟩
          have := litsOf_ne_nil vs q (by simpa using hlen)
            (fun d hd => hpc d (List.mem_cons_of_mem _ hd)) hex2
          rw [litsOf] at this
          exact this

/-- `*`-prefixed literals: the shape `cvtAL` produces after the first literal
of a term. -/
def starJoin (t : List (Char × Bool)) : List Char := t.flatMap (fun l => '*' :: litStr2 l)

/-- One term after implicit-AND insertion. -/
def termAL : List (Char × Bool) → List Char
  | [] => []
  | l :: ls => litStr2 l ++ starJoin ls

/-- `+`-prefixed terms after implicit-AND insertion. -/
def plusCatAL (ts : List (List (Char × Bool))) : List Char :=
  ts.flatMap (fun t => '+' :: termAL t)

/-- The whole sum-of-products after implicit-AND insertion. -/
def alSOP : List (List (Char × Bool)) → List Char
  | [] => []
  | t :: ts => termAL t ++ plusCatAL ts

/-- The character a literal leaves behind as `prev` for `cvtAL`. -/
def litLast (l : Char × Bool) : Char := if l.2 then quote else l.1

/-- The last character a term leaves behind as `prev` for `cvtAL`. -/
def lastCharT : List (Char × Bool) → Char → Char
  | [], prev => prev
  | l :: ls, _ => lastCharT ls (litLast l)

theorem litLast_class {l : Char × Bool} (h : isUpperC l.1 = true) :
    isUpperC (litLast l) = true ∨ litLast l = quote := by
  rcases l with ⟨v, b⟩
  rcases b with _ | _
  · exact Or.inl h
  · exact Or.inr rfl

theorem lastCharT_class : ∀ (t : List (Char × Bool)) (prev : Char),
    (∀ l ∈ t, isUpperC l.1 = true) → (isUpperC prev = true ∨ prev = quote) →
    isUpperC (lastCharT t prev) = true ∨ lastCharT t prev = quote
  | [], prev, _, hprev => hprev
  | l :: t, prev, hup, _ =>
    lastCharT_class t (litLast l) (fun x hx => hup x (List.mem_cons_of_mem _ hx))
      (litLast_class (hup l (List.mem_cons_self _ _)))

theorem cvtALgo_cons_var {v prev : Char} (hv : isUpperC v = true)
    (hprev : isUpperC prev = true ∨ prev = quote) (cs : List Char) :
    cvtALgo prev (v :: cs) = '*' :: v :: cvtALgo v cs := by
  have h1 : ¬ prev = '(' := by
    rcases hprev with h | h
    · intro he
      rw [he] at h
      exact absurd h (by decide)
    · rw [h]
      decide
  have h2 : ¬ prev = '+' := by
    rcases hprev with h | h
    · intro he
      rw [he] at h
      exact absurd h (by decide)
    · rw [h]
      decide
  have h3 : ¬ prev = '^' := by
    rcases hprev with h | h
    · intro he
      rw [he] at h
      exact absurd h (by decide)
    · rw [h]
      decide
  rw [cvtALgo, if_pos (by simp [hv, h1, h2, h3])]
  rfl

theorem cvtALgo_cons_quote (prev : Char) (cs : List Char) :
    cvtALgo prev (quote :: cs) = quote :: cvtALgo quote cs := rfl

theorem cvtALgo_cons_plus (prev : Char) (cs : List Char) :
    cvtALgo prev ('+' :: cs) = '+' :: cvtALgo '+' cs := rfl

theorem cvtALgo_cons_after_plus (v : Char) (cs : List Char) :
    cvtALgo '+' (v :: cs) = v :: cvtALgo v cs := by
  rw [cvtALgo, if_neg (by simp)]
  rfl

theorem cvtALgo_starJoin : ∀ (t : List (Char × Bool)), (∀ l ∈ t, isUpperC l.1 = true) →
    ∀ (prev : Char), (isUpperC prev = true ∨ prev = quote) → ∀ rest : List Char,
    cvtALgo prev (flatLits t ++ rest) = starJoin t ++ cvtALgo (lastCharT t prev) rest
  | [], _, prev, _, rest => by
    simp [flatLits, starJoin, lastCharT]
  | l :: t, hup, prev, hprev, rest => by
    rcases l with ⟨v, b⟩
    have hv : isUpperC v = true := hup (v, b) (List.mem_cons_self _ _)
    have hsub : ∀ x ∈ t, isUpperC x.1 = true := fun x hx => hup x (List.mem_cons_of_mem _ hx)
    rw [flatLits, List.flatMap_cons, ← flatLits]
    rcases b with _ | _
    · have hls : litStr2 (v, false) = [v] := rfl
      rw [hls]
      simp only [List.cons_append, List.nil_append, List.append_assoc]
      rw [cvtALgo_cons_var hv hprev,
        cvtALgo_starJoin t hsub v (Or.inl hv) rest]
      simp [starJoin, lastCharT, litLast, litStr2]
    · have hls : litStr2 (v, true) = [v, quote] := rfl
      rw [hls]
      simp only [List.cons_append, List.nil_append, List.append_assoc]
      rw [cvtALgo_cons_var hv hprev, cvtALgo_cons_quote,
        cvtALgo_starJoin t hsub quote (Or.inr rfl) rest]
      simp [starJoin, lastCharT, litLast, litStr2]

theorem cvtALgo_plusCat : ∀ (ts : List (List (Char × Bool))),
    (∀ t ∈ ts, t ≠ [] ∧ ∀ l ∈ t, isUpperC l.1 = true) →
    ∀ prev : Char, cvtALgo prev (ts.flatMap (fun t => '+' :: flatLits t)) = plusCatAL ts
  | [], _, prev => rfl
  | t :: ts, hgood, prev => by
    rcases hgood t (List.mem_cons_self _ _) with ⟨hne, hup⟩
    have hsub : ∀ t' ∈ ts, t' ≠ [] ∧ ∀ l ∈ t', isUpperC l.1 = true :=
      fun t' ht' => hgood t' (List.mem_cons_of_mem _ ht')
    rcases t with _ | ⟨⟨v, b⟩, t'⟩
    · exact absurd rfl hne
    · have hv : isUpperC v = true := hup (v, b) (List.mem_cons_self _ _)
      have hsub' : ∀ x ∈ t', isUpperC x.1 = true := fun x hx => hup x (List.mem_cons_of_mem _ hx)
      rw [List.flatMap_cons]
      simp only [List.cons_append, List.append_assoc]
      rw [cvtALgo_cons_plus]
      rw [flatLits, List.flatMap_cons, ← flatLits]
      rcases b with _ | _
      · have hls : litStr2 (v, false) = [v] := rfl
        rw [hls]
        simp only [List.cons_append, List.nil_append, List.append_assoc]
        rw [cvtALgo_cons_after_plus, cvtALgo_starJoin t' hsub' v (Or.inl hv),
          cvtALgo_plusCat ts hsub]
        simp [plusCatAL, termAL, List.flatMap_cons, litStr2]
      · have hls : litStr2 (v, true) = [v, quote] := rfl
        rw [hls]
        simp only [List.cons_append, List.nil_append, List.append_assoc]
        rw [cvtALgo_cons_after_plus, cvtALgo_cons_quote,
          cvtALgo_starJoin t' hsub' quote (Or.inr rfl), cvtALgo_plusCat ts hsub]
        simp [plusCatAL, termAL, List.flatMap_cons, litStr2]

theorem flatMap_map_plus (ts : List (List (Char × Bool))) :
    (ts.map flatLits).flatMap (fun x => '+' :: x) = ts.flatMap (fun t => '+' :: flatLits t) := by
  induction ts with
  | nil => rfl
  | cons t ts ih => simp [List.flatMap_cons, ih]

/-- The implicit-AND pass on a rendered sum-of-products inserts a `*` between
adjacent literals of each term and nothing else. -/
theorem cvtAL_sop : ∀ (TS : List (List (Char × Bool))), TS ≠ [] →
    (∀ t ∈ TS, t ≠ [] ∧ ∀ l ∈ t, isUpperC l.1 = true) →
    cvtAL (intercalatePlus (TS.map flatLits)) = alSOP TS := by
  intro TS hne hgood
  rcases TS with _ | ⟨t, ts⟩
  · exact absurd rfl hne
  · rcases hgood t (List.mem_cons_self _ _) with ⟨htne, hup⟩
    have hsub : ∀ t' ∈ ts, t' ≠ [] ∧ ∀ l ∈ t', isUpperC l.1 = true :=
      fun t' ht' => hgood t' (List.mem_cons_of_mem _ ht')
    rcases t with _ | ⟨⟨v, b⟩, t'⟩
    · exact absurd rfl htne
    · have hv : isUpperC v = true := hup (v, b) (List.mem_cons_self _ _)
      have hsub' : ∀ x ∈ t', isUpperC x.1 = true := fun x hx => hup x (List.mem_cons_of_mem _ hx)
      rw [List.map_cons, intercalatePlus_cons, flatMap_map_plus]
      rw [flatLits, List.flatMap_cons, ← flatLits]
      rcases b with _ | _
      · have hls : litStr2 (v, false) = [v] := rfl
        rw [hls]
        simp only [List.cons_append, List.nil_append, List.append_assoc]
        rw [cvtAL, cvtALgo_starJoin t' hsub' v (Or.inl hv), cvtALgo_plusCat ts hsub]
        simp [alSOP, termAL, litStr2]
      · have hls : litStr2 (v, true) = [v, quote] := rfl
        rw [hls]
        simp only [List.cons_append, List.nil_append, List.append_assoc]
        rw [cvtAL, cvtALgo_cons_quote, cvtALgo_starJoin t' hsub' quote (Or.inr rfl),
          cvtALgo_plusCat ts hsub]
        simp [alSOP, termAL, litStr2]

/-- An optional trailing apostrophe. -/
def quoteOpt (q : Bool) : List Char := if q then [quote] else []

/-- A run of `*` on the operator stack. -/
def listStar : Nat → List Char
  | 0 => []
  | j + 1 => '*' :: listStar j

/-- A run of `+` on the operator stack. -/
def listPlus : Nat → List Char
  | 0 => []
  | m + 1 => '+' :: listPlus m

theorem litStr2_eq (l : Char × Bool) : litStr2 l = l.1 :: quoteOpt l.2 := by
  rcases l with ⟨v, b⟩
  rcases b with _ | _ <;> rfl

theorem tw45 : ∀ (j m : Nat),
    (listStar j ++ listPlus m).takeWhile (fun x => prf x > prf '*') = [] ∧
    (listStar j ++ listPlus m).dropWhile (fun x => prf x > prf '*') = listStar j ++ listPlus m
  | 0, 0 => ⟨rfl, rfl⟩
  | 0, m + 1 => ⟨rfl, rfl⟩
  | j + 1, m => ⟨rfl, rfl⟩

theorem twPlus : ∀ (j m : Nat),
    (listStar j ++ listPlus m).takeWhile (fun x => prf x > prf '+') = listStar j ∧
    (listStar j ++ listPlus m).dropWhile (fun x => prf x > prf '+') = listPlus m
  | 0, 0 => ⟨rfl, rfl⟩
  | 0, m + 1 => ⟨rfl, rfl⟩
  | j + 1, m => by
    have ih := twPlus j m
    constructor
    · show ('*' :: (listStar j ++ listPlus m)).takeWhile (fun x => prf x > prf '+')
        = '*' :: listStar j
      rw [List.takeWhile_cons, if_pos (by decide), ih.1]
    · show ('*' :: (listStar j ++ listPlus m)).dropWhile (fun x => prf x > prf '+')
        = listPlus m
      rw [List.dropWhile_cons, if_pos (by decide), ih.2]

theorem rpnGo_var {v : Char} (hv : isUpperC v = true) (cs tmp stk : List Char) :
    rpnGo (v :: cs) tmp stk = rpnGo cs (tmp ++ [v]) stk :=
  rpnGo_op (by simp [hv]) cs tmp stk

theorem rpnGo_star (cs tmp : List Char) (q : Bool) (j m : Nat) :
    rpnGo ('*' :: cs) tmp (quoteOpt q ++ (listStar j ++ listPlus m))
      = rpnGo cs (tmp ++ quoteOpt q) ('*' :: (listStar j ++ listPlus m)) := by
  rcases q with _ | _
  · rw [show quoteOpt false = ([] : List Char) from rfl, List.nil_append, List.append_nil]
    rcases j with _ | j'
    · rcases m with _ | m'
      · rfl
      · rfl
    · rw [show rpnGo ('*' :: cs) tmp (listStar (j' + 1) ++ listPlus m)
          = rpnGo cs (tmp ++ []) ('*' :: (listStar (j' + 1) ++ listPlus m)) from rfl,
        List.append_nil]
  · rw [show quoteOpt true = ([quote] : List Char) from rfl]
    rw [show ([quote] : List Char) ++ (listStar j ++ listPlus m)
        = quote :: (listStar j ++ listPlus m) from rfl]
    have h0 : rpnGo ('*' :: cs) tmp (quote :: (listStar j ++ listPlus m))
        = rpnGo cs
            (tmp ++ ((quote :: (listStar j ++ listPlus m)).span (fun x => prf x > prf '*')).1)
            ('*' :: ((quote :: (listStar j ++ listPlus m)).span (fun x => prf x > prf '*')).2) :=
      rpnGo_pops (by decide) (by decide) (by decide) (by decide) cs tmp _
    rw [h0, List.span_eq_take_drop, List.takeWhile_cons, List.dropWhile_cons,
      if_pos (by decide), if_pos (by decide), (tw45 j m).1, (tw45 j m).2]

theorem rpnGo_quoteStep (cs tmp : List Char) (j m : Nat) :
    rpnGo (quote :: cs) tmp (listStar j ++ listPlus m)
      = rpnGo cs tmp (quote :: (listStar j ++ listPlus m)) := by
  rcases j with _ | j'
  · rcases m with _ | m'
    · rfl
    · rfl
  · rfl

theorem rpnGo_plusStep (cs tmp : List Char) (q : Bool) (j m : Nat) :
    rpnGo ('+' :: cs) tmp (quoteOpt q ++ (listStar j ++ listPlus m))
      = rpnGo cs (tmp ++ quoteOpt q ++ listStar j) ('+' :: listPlus m) := by
  rcases q with _ | _
  · rw [show quoteOpt false = ([] : List Char) from rfl, List.nil_append, List.append_nil]
    rcases j with _ | j'
    · rcases m with _ | m'
      · rw [show listStar 0 = ([] : List Char) from rfl, List.append_nil]
        rfl
      · rw [show listStar 0 = ([] : List Char) from rfl, List.append_nil]
        rw [show rpnGo ('+' :: cs) tmp ([] ++ listPlus (m' + 1))
            = rpnGo cs (tmp ++ []) ('+' :: ([] ++ listPlus (m' + 1))) from rfl,
          List.append_nil]
        rfl
    · have h0 : rpnGo ('+' :: cs) tmp (listStar (j' + 1) ++ listPlus m)
          = rpnGo cs
              (tmp ++ ((listStar (j' + 1) ++ listPlus m).span (fun x => prf x > prf '+')).1)
              ('+' :: ((listStar (j' + 1) ++ listPlus m).span (fun x => prf x > prf '+')).2) :=
        rpnGo_pops (by decide) (by decide) (by decide) (by decide) cs tmp _
      rw [h0, List.span_eq_take_drop, (twPlus (j' + 1) m).1, (twPlus (j' + 1) m).2]
  · rw [show quoteOpt true = ([quote] : List Char) from rfl]
    rw [show ([quote] : List Char) ++ (listStar j ++ listPlus m)
        = quote :: (listStar j ++ listPlus m) from rfl]
    have h0 : rpnGo ('+' :: cs) tmp (quote :: (listStar j ++ listPlus m))
        = rpnGo cs
            (tmp ++ ((quote :: (listStar j ++ listPlus m)).span (fun x => prf x > prf '+')).1)
            ('+' :: ((quote :: (listStar j ++ listPlus m)).span (fun x => prf x > prf '+')).2) :=
      rpnGo_pops (by decide) (by decide) (by decide) (by decide) cs tmp _
    rw [h0, List.span_eq_take_drop, List.takeWhile_cons, List.dropWhile_cons,
      if_pos (by decide), if_pos (by decide), (twPlus j m).1, (twPlus j m).2]
    rw [show ((quote :: listStar j : List Char), listPlus m).1 = quote :: listStar j from rfl,
      List.append_assoc]
    rfl

/-- The output the conversion accumulates while crossing a chain of
`*`-prefixed literals: each literal contributes the pending apostrophe of its
predecessor and its own variable. -/
def chainOut : Bool → List (Char × Bool) → List Char
  | _, [] => []
  | q, l :: ls => quoteOpt q ++ l.1 :: chainOut l.2 ls

/-- The negation flag still pending after a chain of literals. -/
def lastNeg : List (Char × Bool) → Bool → Bool
  | [], q => q
  | l :: ls, _ => lastNeg ls l.2

theorem chainOut_flat : ∀ (ls : List (Char × Bool)) (q : Bool),
    chainOut q ls ++ quoteOpt (lastNeg ls q) = quoteOpt q ++ flatLits ls
  | [], q => by simp [chainOut, lastNeg, flatLits]
  | l :: ls, q => by
    rw [chainOut, lastNeg]
    rw [flatLits, List.flatMap_cons, ← flatLits, litStr2_eq]
    simp only [List.cons_append, List.append_assoc]
    rw [chainOut_flat ls l.2]

theorem rpnGo_unit {l : Char × Bool} (hv : isUpperC l.1 = true)
    (cs tmp : List Char) (q : Bool) (j m : Nat) :
    rpnGo ('*' :: litStr2 l ++ cs) tmp (quoteOpt q ++ (listStar j ++ listPlus m))
      = rpnGo cs (tmp ++ quoteOpt q ++ [l.1])
          (quoteOpt l.2 ++ (listStar (j + 1) ++ listPlus m)) := by
  rw [show ('*' :: litStr2 l ++ cs : List Char) = '*' :: (litStr2 l ++ cs) from rfl,
    rpnGo_star]
  rcases l with ⟨v, b⟩
  rcases b with _ | _
  · rw [show litStr2 (v, false) = [v] from rfl]
    simp only [List.cons_append, List.nil_append]
    rw [rpnGo_var hv]
    rfl
  · rw [show litStr2 (v, true) = [v, quote] from rfl]
    simp only [List.cons_append, List.nil_append]
    rw [rpnGo_var hv]
    rw [show ('*' :: (listStar j ++ listPlus m) : List Char)
        = listStar (j + 1) ++ listPlus m from rfl]
    rw [rpnGo_quoteStep]
    rfl

theorem rpnGo_chain : ∀ (ls : List (Char × Bool)), (∀ x ∈ ls, isUpperC x.1 = true) →
    ∀ (cs tmp : List Char) (q : Bool) (j m : Nat),
    rpnGo (starJoin ls ++ cs) tmp (quoteOpt q ++ (listStar j ++ listPlus m))
      = rpnGo cs (tmp ++ chainOut q ls)
          (quoteOpt (lastNeg ls q) ++ (listStar (j + ls.length) ++ listPlus m))
  | [], _, cs, tmp, q, j, m => by
    simp [starJoin, chainOut, lastNeg]
  | l :: ls, hup, cs, tmp, q, j, m => by
    rw [starJoin, List.flatMap_cons, ← starJoin, List.append_assoc]
    rw [rpnGo_unit (hup l (List.mem_cons_self _ _))]
    rw [rpnGo_chain ls (fun x hx => hup x (List.mem_cons_of_mem _ hx)) cs _ l.2 (j + 1) m]
    rw [chainOut, lastNeg]
    rw [show j + 1 + ls.length = j + (l :: ls).length from by
      simp only [List.length_cons]
      omega]
    simp [List.append_assoc]

/-- The conversion output of one term, apostrophe of the last literal still
pending on the stack. -/
def termOut : List (Char × Bool) → List Char
  | [] => []
  | l :: ls => l.1 :: chainOut l.2 ls

/-- The pending apostrophe of a term's last literal. -/
def termQ : List (Char × Bool) → Bool
  | [] => false
  | l :: ls => lastNeg ls l.2

theorem termOut_flat (t : List (Char × Bool)) :
    termOut t ++ quoteOpt (termQ t) = flatLits t := by
  rcases t with _ | ⟨l, ls⟩
  · rfl
  · rw [termOut, termQ]
    simp only [List.cons_append]
    rw [chainOut_flat ls l.2]
    simp [flatLits, List.flatMap_cons, litStr2_eq]

theorem rpnGo_term (t : List (Char × Bool)) (htne : t ≠ [])
    (hup : ∀ x ∈ t, isUpperC x.1 = true) (cs tmp : List Char) (m : Nat) :
    rpnGo (termAL t ++ cs) tmp (listPlus m)
      = rpnGo cs (tmp ++ termOut t)
          (quoteOpt (termQ t) ++ (listStar (t.length - 1) ++ listPlus m)) := by
  rcases t with _ | ⟨l, ls⟩
  · exact absurd rfl htne
  · rw [termAL, litStr2_eq]
    simp only [List.cons_append, List.append_assoc]
    rw [rpnGo_var (hup l (List.mem_cons_self _ _))]
    have hlen : (l :: ls : List (Char × Bool)).length - 1 = 0 + ls.length := by
      simp [List.length_cons]
    rcases hb : l.2 with _ | _
    · rw [show (quoteOpt false ++ (starJoin ls ++ cs) : List Char) = starJoin ls ++ cs from rfl]
      rw [show (listPlus m : List Char) = quoteOpt false ++ (listStar 0 ++ listPlus m) from rfl]
      rw [rpnGo_chain ls (fun x hx => hup x (List.mem_cons_of_mem _ hx)) cs _ false 0 m]
      rw [termOut, termQ, hb, hlen]
      simp only [List.append_assoc]
      rfl
    · rw [show (quoteOpt true ++ (starJoin ls ++ cs) : List Char)
          = quote :: (starJoin ls ++ cs) from rfl]
      rw [show (listPlus m : List Char) = listStar 0 ++ listPlus m from rfl]
      rw [rpnGo_quoteStep]
      rw [show (quote :: (listStar 0 ++ listPlus m) : List Char)
          = quoteOpt true ++ (listStar 0 ++ listPlus m) from rfl]
      rw [rpnGo_chain ls (fun x hx => hup x (List.mem_cons_of_mem _ hx)) cs _ true 0 m]
      rw [termOut, termQ, hb, hlen]
      simp only [List.append_assoc]
      rfl

/-- The postfix string of one term: its literals followed by the joining
`*` run. -/
def termRPN (t : List (Char × Bool)) : List Char := flatLits t ++ listStar (t.length - 1)

theorem rpnGo_plusCat : ∀ (ts : List (List (Char × Bool))),
    (∀ t ∈ ts, t ≠ [] ∧ ∀ x ∈ t, isUpperC x.1 = true) →
    ∀ (tmp : List Char) (q : Bool) (k m : Nat),
    rpnGo (plusCatAL ts) tmp (quoteOpt q ++ (listStar k ++ listPlus m))
      = some (tmp ++ quoteOpt q ++ listStar k ++ ts.flatMap termRPN
          ++ listPlus (ts.length + m))
  | [], _, tmp, q, k, m => by
    rw [show plusCatAL [] = ([] : List Char) from rfl, rpnGo]
    simp [List.append_assoc, List.length_nil]
  | t :: ts, hgood, tmp, q, k, m => by
    rcases hgood t (List.mem_cons_self _ _) with ⟨htne, hup⟩
    rw [plusCatAL, List.flatMap_cons, ← plusCatAL]
    simp only [List.cons_append, List.append_assoc]
    rw [rpnGo_plusStep]
    rw [show ('+' :: listPlus m : List Char) = listPlus (m + 1) from rfl]
    rw [rpnGo_term t htne hup]
    rw [rpnGo_plusCat ts (fun t' ht' => hgood t' (List.mem_cons_of_mem _ ht')) _
      (termQ t) (t.length - 1) (m + 1)]
    rw [show (t :: ts : List (List (Char × Bool))).length + m = ts.length + (m + 1) from by
      simp only [List.length_cons]
      omega]
    rw [List.flatMap_cons]
    rw [show termRPN t = termOut t ++ quoteOpt (termQ t) ++ listStar (t.length - 1) from by
      rw [termRPN, termOut_flat]]
    simp [List.append_assoc]

/-- The shunting-yard conversion of a rendered sum-of-products: the terms'
postfix strings in order, followed by the run of joining `+`. -/
theorem rpnGo_sop (TS : List (List (Char × Bool))) (hne : TS ≠ [])
    (hgood : ∀ t ∈ TS, t ≠ [] ∧ ∀ x ∈ t, isUpperC x.1 = true) :
    rpnGo (alSOP TS) [] [] = some (TS.flatMap termRPN ++ listPlus (TS.length - 1)) := by
  rcases TS with _ | ⟨t, ts⟩
  · exact absurd rfl hne
  · rcases hgood t (List.mem_cons_self _ _) with ⟨htne, hup⟩
    rw [alSOP]
    rw [show ([] : List Char) = listPlus 0 from rfl]
    rw [rpnGo_term t htne hup]
    rw [rpnGo_plusCat ts (fun t' ht' => hgood t' (List.mem_cons_of_mem _ ht')) _
      (termQ t) (t.length - 1) 0]
    rw [show (t :: ts : List (List (Char × Bool))).length - 1 = ts.length + 0 from by
      simp only [List.length_cons]
      omega]
    rw [List.flatMap_cons]
    rw [show termRPN t = termOut t ++ quoteOpt (termQ t) ++ listStar (t.length - 1) from by
      rw [termRPN, termOut_flat]]
    simp [List.append_assoc]
    rfl

/-- No two adjacent apostrophes. -/
def sepQ (a b : Char) : Prop := ¬(a = quote ∧ b = quote)

theorem compress_id : ∀ (l : List Char),
    List.Chain' sepQ l → l.head? ≠ some quote → compress l 0 = l
  | [], _, _ => rfl
  | [c], _, hh => by
    have hc : ¬ c = quote := fun he => hh (by rw [he]; rfl)
    rw [compress_other_cons hc]
    rfl
  | c :: d :: cs, hch, hh => by
    have hc : ¬ c = quote := fun he => hh (by rw [he]; rfl)
    rw [compress_other_cons hc]
    by_cases hd : d = quote
    · subst hd
      rw [compress_quote_cons]
      rcases cs with _ | ⟨e, cs'⟩
      · rfl
      · have he : ¬ e = quote := by
          have h2 := (List.chain'_cons.mp (List.chain'_cons.mp hch).2).1
          intro hee
          exact h2 ⟨rfl, hee⟩
        have hrec := compress_id (e :: cs') (List.Chain'.tail (List.Chain'.tail hch))
          (by simp [he])
        have hcs : compress cs' 0 = cs' := by
          rw [compress_other_cons he] at hrec
          simpa using hrec
        rw [compress_other_cons he, hcs]
        rfl
    · have hrec := compress_id (d :: cs) (List.Chain'.tail hch) (by simp [hd])
      rw [hrec]
      rfl

theorem chainQ_of_all {l : List Char} (h : ∀ a ∈ l, ¬ a = quote) :
    List.Chain' sepQ l := by
  induction l with
  | nil => exact List.chain'_nil
  | cons a l ih =>
    rcases l with _ | ⟨b, l'⟩
    · exact List.chain'_singleton a
    · rw [List.chain'_cons]
      exact ⟨fun hc => h a (List.mem_cons_self _ _) hc.1,
        ih (fun x hx => h x (List.mem_cons_of_mem _ hx))⟩

theorem chainQ_append {a b : List Char}
    (ha : List.Chain' sepQ a) (hb : List.Chain' sepQ b)
    (hh : ∀ y ∈ b.head?, ¬ y = quote) : List.Chain' sepQ (a ++ b) :=
  List.Chain'.append ha hb (fun _ _ y hy hc => hh y hy hc.2)

theorem upper_ne_quote {v : Char} (hv : isUpperC v = true) : ¬ v = quote := by
  intro he
  rw [he] at hv
  exact absurd hv (by decide)

theorem mem_listStar : ∀ (j : Nat) (a : Char), a ∈ listStar j → a = '*'
  | j + 1, a, h => by
    rcases List.mem_cons.mp h with rfl | h2
    · rfl
    · exact mem_listStar j a h2

theorem mem_listPlus : ∀ (m : Nat) (a : Char), a ∈ listPlus m → a = '+'
  | m + 1, a, h => by
    rcases List.mem_cons.mp h with rfl | h2
    · rfl
    · exact mem_listPlus m a h2

theorem chainQ_flatLits : ∀ (t : List (Char × Bool)), (∀ x ∈ t, isUpperC x.1 = true) →
    List.Chain' sepQ (flatLits t) ∧ ∀ y ∈ (flatLits t).head?, ¬ y = quote
  | [], _ => ⟨List.chain'_nil, by simp [flatLits]⟩
  | l :: ls, hup => by
    have hv : isUpperC l.1 = true := hup l (List.mem_cons_self _ _)
    have ih := chainQ_flatLits ls (fun x hx => hup x (List.mem_cons_of_mem _ hx))
    have hflat : flatLits (l :: ls) = l.1 :: (quoteOpt l.2 ++ flatLits ls) := by
      rw [flatLits, List.flatMap_cons, ← flatLits, litStr2_eq]
      simp
    rw [hflat]
    constructor
    · rcases l with ⟨v, b⟩
      rcases b with _ | _
      · rw [show quoteOpt (v, false).2 = ([] : List Char) from rfl, List.nil_append]
        rcases hfl : flatLits ls with _ | ⟨y, ys⟩
        · exact List.chain'_singleton _
        · rw [List.chain'_cons]
          refine ⟨?_, by rw [← hfl]; exact ih.1⟩
          intro hcon
          have hy : ¬ y = quote := by
            have := ih.2
            rw [hfl] at this
            exact this y rfl
          exact hy hcon.2
      · rw [show quoteOpt (v, true).2 = ([quote] : List Char) from rfl]
        simp only [List.cons_append, List.nil_append]
        rw [List.chain'_cons]
        refine ⟨fun hc => upper_ne_quote hv hc.1, ?_⟩
        rcases hfl : flatLits ls with _ | ⟨y, ys⟩
        · exact List.chain'_singleton _
        · rw [List.chain'_cons]
          refine ⟨?_, by rw [← hfl]; exact ih.1⟩
          intro hcon
          have hy : ¬ y = quote := by
            have := ih.2
            rw [hfl] at this
            exact this y rfl
          exact hy hcon.2
    · intro y hy
      rw [List.head?_cons, Option.mem_some_iff] at hy
      rw [← hy]
      exact upper_ne_quote hv

theorem chainQ_termRPN (t : List (Char × Bool)) (hup : ∀ x ∈ t, isUpperC x.1 = true) :
    List.Chain' sepQ (termRPN t) ∧ ∀ y ∈ (termRPN t).head?, ¬ y = quote := by
  rcases chainQ_flatLits t hup with ⟨h1, h2⟩
  constructor
  · refine chainQ_append h1 (chainQ_of_all ?_) ?_
    · intro a ha
      rw [mem_listStar _ a ha]
      decide
    · intro y hy
      rcases hst : listStar (t.length - 1) with _ | ⟨z, zs⟩
      · rw [hst] at hy
        simp at hy
      · rw [hst, List.head?_cons, Option.mem_some_iff] at hy
        have hz : z = '*' := mem_listStar _ z (by rw [hst]; exact List.mem_cons_self _ _)
        rw [← hy, hz]
        decide
  · intro y hy
    rw [termRPN] at hy
    rcases hfl : flatLits t with _ | ⟨z, zs⟩
    · rw [hfl] at hy
      simp only [List.nil_append] at hy
      rcases hst : listStar (t.length - 1) with _ | ⟨w, ws⟩
      · rw [hst] at hy
        simp at hy
      · rw [hst, List.head?_cons, Option.mem_some_iff] at hy
        have hw : w = '*' := mem_listStar _ w (by rw [hst]; exact List.mem_cons_self _ _)
        rw [← hy, hw]
        decide
    · rw [hfl] at hy
      simp only [List.cons_append, List.head?_cons, Option.mem_some_iff] at hy
      have := h2
      rw [hfl] at this
      rw [← hy]
      exact this z rfl

theorem chainQ_cat : ∀ (TS : List (List (Char × Bool))),
    (∀ t ∈ TS, t ≠ [] ∧ ∀ x ∈ t, isUpperC x.1 = true) →
    List.Chain' sepQ (TS.flatMap termRPN) ∧
      ∀ y ∈ (TS.flatMap termRPN).head?, ¬ y = quote
  | [], _ => ⟨List.chain'_nil, by simp⟩
  | t :: ts, hgood => by
    rcases hgood t (List.mem_cons_self _ _) with ⟨htne, hup⟩
    have ih := chainQ_cat ts (fun t' ht' => hgood t' (List.mem_cons_of_mem _ ht'))
    rcases chainQ_termRPN t hup with ⟨h1, h2⟩
    rw [List.flatMap_cons]
    constructor
    · exact chainQ_append h1 ih.1 ih.2
    · intro y hy
      rcases htr : termRPN t with _ | ⟨z, zs⟩
      · exfalso
        rcases t with _ | ⟨l, ls⟩
        · exact htne rfl
        · rw [termRPN] at htr
          have : flatLits (l :: ls) = [] := by
            rcases List.append_eq_nil.mp htr with ⟨h3, _⟩
            exact h3
          rw [flatLits, List.flatMap_cons, litStr2_eq] at this
          simp at this
      · rw [htr] at hy
        simp only [List.cons_append, List.head?_cons, Option.mem_some_iff] at hy
        have := h2
        rw [htr] at this
        rw [← hy]
        exact this z rfl

/-- The compression pass leaves the rendered expression's postfix string
unchanged: its apostrophes are isolated. -/
theorem compress_sop (TS : List (List (Char × Bool))) (hne : TS ≠ [])
    (hgood : ∀ t ∈ TS, t ≠ [] ∧ ∀ x ∈ t, isUpperC x.1 = true) :
    compress (TS.flatMap termRPN ++ listPlus (TS.length - 1)) 0
      = TS.flatMap termRPN ++ listPlus (TS.length - 1) := by
  rcases chainQ_cat TS hgood with ⟨h1, h2⟩
  refine compress_id _ ?_ ?_
  · refine chainQ_append h1 (chainQ_of_all ?_) ?_
    · intro a ha
      rw [mem_listPlus _ a ha]
      decide
    · intro y hy
      rcases hst : listPlus (TS.length - 1) with _ | ⟨w, ws⟩
      · rw [hst] at hy
        simp at hy
      · rw [hst, List.head?_cons, Option.mem_some_iff] at hy
        have hw : w = '+' := mem_listPlus _ w (by rw [hst]; exact List.mem_cons_self _ _)
        rw [← hy, hw]
        decide
  · rcases TS with _ | ⟨t, ts⟩
    · exact absurd rfl hne
    · rcases hgood t (List.mem_cons_self _ _) with ⟨htne, hup⟩
      rcases t with _ | ⟨l, ls⟩
      · exact absurd rfl htne
      · intro hcon
        rw [List.flatMap_cons] at hcon
        rw [show termRPN ((l :: ls : List (Char × Bool)))
            = l.1 :: ((quoteOpt l.2 ++ flatLits ls) ++ listStar ((l :: ls).length - 1)) from by
          rw [termRPN, flatLits, List.flatMap_cons, ← flatLits, litStr2_eq]
          simp] at hcon
        simp only [List.cons_append, List.head?_cons, Option.some_inj] at hcon
        exact upper_ne_quote (hup l (List.mem_cons_self _ _)) hcon

/-- The whole conversion of a rendered sum-of-products. -/
theorem cvtRPN_sop (TS : List (List (Char × Bool))) (hne : TS ≠ [])
    (hgood : ∀ t ∈ TS, t ≠ [] ∧ ∀ x ∈ t, isUpperC x.1 = true) :
    cvtRPN (alSOP TS) = some (TS.flatMap termRPN ++ listPlus (TS.length - 1)) := by
  rw [cvtRPN, rpnGo_sop TS hne hgood, Option.map_some', compress_sop TS hne hgood]

theorem and_bit {x y : Nat} (hx : x ≤ 1) (hy : y ≤ 1) : x &&& y = 1 ↔ x = 1 ∧ y = 1 := by
  interval_cases x <;> interval_cases y <;> decide

theorem or_bit {x y : Nat} (hx : x ≤ 1) (hy : y ≤ 1) : x ||| y = 1 ↔ x = 1 ∨ y = 1 := by
  interval_cases x <;> interval_cases y <;> decide

theorem buildGo_lit {l : Char × Bool} (hv : isUpperC l.1 = true) (cs : List Char)
    (stk : List OpNode) :
    buildGo (litStr2 l ++ cs) stk = buildGo cs (litTree l :: stk) := by
  rcases l with ⟨v, b⟩
  rcases b with _ | _
  · rw [show litStr2 (v, false) = [v] from rfl]
    simp only [List.cons_append, List.nil_append]
    rw [buildGo_cons_eq, if_pos hv]
    rfl
  · rw [show litStr2 (v, true) = [v, quote] from rfl]
    simp only [List.cons_append, List.nil_append]
    rw [buildGo_cons_eq, if_pos hv]
    rfl

theorem buildGo_flat : ∀ (t : List (Char × Bool)), (∀ x ∈ t, isUpperC x.1 = true) →
    ∀ (cs : List Char) (stk : List OpNode),
    buildGo (flatLits t ++ cs) stk = buildGo cs (t.reverse.map litTree ++ stk)
  | [], _, cs, stk => by simp [flatLits]
  | l :: t, hup, cs, stk => by
    rw [flatLits, List.flatMap_cons, ← flatLits, List.append_assoc]
    rw [buildGo_lit (hup l (List.mem_cons_self _ _))]
    rw [buildGo_flat t (fun x hx => hup x (List.mem_cons_of_mem _ hx))]
    rw [List.reverse_cons, List.map_append]
    simp

theorem buildGo_stars : ∀ (j : Nat) (ts : List OpNode), ts.length = j + 1 →
    ∀ (cs : List Char) (stk : List OpNode),
    ∃ T, buildGo (listStar j ++ cs) (ts ++ stk) = buildGo cs (T :: stk) ∧
      ∀ f : Char → Nat, (∀ c, f c ≤ 1) →
        (eval f T = 1 ↔ ∀ t ∈ ts, eval f t = 1)
  | 0, ts, hlen, cs, stk => by
    rcases ts with _ | ⟨t, _ | _⟩
    · simp at hlen
    · refine ⟨t, by simp [listStar], ?_⟩
      intro f hf
      simp
    · simp at hlen
  | j + 1, ts, hlen, cs, stk => by
    rcases ts with _ | ⟨a, _ | ⟨b, ts'⟩⟩
    · simp at hlen
    · simp at hlen
    · rw [show listStar (j + 1) = '*' :: listStar j from rfl]
      simp only [List.cons_append]
      rw [show buildGo ('*' :: (listStar j ++ cs)) (a :: b :: (ts' ++ stk))
          = buildGo (listStar j ++ cs) ((OpNode.andN a b :: ts') ++ stk) from rfl]
      rcases buildGo_stars j (OpNode.andN a b :: ts')
        (by simp only [List.length_cons] at hlen ⊢; omega) cs stk with ⟨T, hT, hsem⟩
      refine ⟨T, hT, ?_⟩
      intro f hf
      rw [hsem f hf]
      have hab : eval f (OpNode.andN a b) = 1 ↔ eval f a = 1 ∧ eval f b = 1 := by
        rw [show eval f (OpNode.andN a b) = eval f a &&& eval f b from rfl]
        exact and_bit (eval_le_one f hf a) (eval_le_one f hf b)
      constructor
      · intro h t ht
        rcases List.mem_cons.mp ht with rfl | ht2
        · exact (hab.mp (h _ (List.mem_cons_self _ _))).1
        · rcases List.mem_cons.mp ht2 with rfl | ht3
          · exact (hab.mp (h _ (List.mem_cons_self _ _))).2
          · exact h t (List.mem_cons_of_mem _ ht3)
      · intro h t ht
        rcases List.mem_cons.mp ht with rfl | ht2
        · exact hab.mpr ⟨h a (List.mem_cons_self _ _),
            h b (List.mem_cons_of_mem _ (List.mem_cons_self _ _))⟩
        · exact h t (List.mem_cons_of_mem _ (List.mem_cons_of_mem _ ht2))

theorem buildGo_pluses : ∀ (j : Nat) (ts : List OpNode), ts.length = j + 1 →
    ∀ (cs : List Char) (stk : List OpNode),
    ∃ T, buildGo (listPlus j ++ cs) (ts ++ stk) = buildGo cs (T :: stk) ∧
      ∀ f : Char → Nat, (∀ c, f c ≤ 1) →
        (eval f T = 1 ↔ ∃ t ∈ ts, eval f t = 1)
  | 0, ts, hlen, cs, stk => by
    rcases ts with _ | ⟨t, _ | _⟩
    · simp at hlen
    · refine ⟨t, by simp [listPlus], ?_⟩
      intro f hf
      simp
    · simp at hlen
  | j + 1, ts, hlen, cs, stk => by
    rcases ts with _ | ⟨a, _ | ⟨b, ts'⟩⟩
    · simp at hlen
    · simp at hlen
    · rw [show listPlus (j + 1) = '+' :: listPlus j from rfl]
      simp only [List.cons_append]
      rw [show buildGo ('+' :: (listPlus j ++ cs)) (a :: b :: (ts' ++ stk))
          = buildGo (listPlus j ++ cs) ((OpNode.orN a b :: ts') ++ stk) from rfl]
      rcases buildGo_pluses j (OpNode.orN a b :: ts')
        (by simp only [List.length_cons] at hlen ⊢; omega) cs stk with ⟨T, hT, hsem⟩
      refine ⟨T, hT, ?_⟩
      intro f hf
      rw [hsem f hf]
      have hab : eval f (OpNode.orN a b) = 1 ↔ eval f a = 1 ∨ eval f b = 1 := by
        rw [show eval f (OpNode.orN a b) = eval f a ||| eval f b from rfl]
        exact or_bit (eval_le_one f hf a) (eval_le_one f hf b)
      constructor
      · rintro ⟨t, ht, hev⟩
        rcases List.mem_cons.mp ht with rfl | ht2
        · rcases hab.mp hev with h | h
          · exact ⟨a, List.mem_cons_self _ _, h⟩
          · exact ⟨b, List.mem_cons_of_mem _ (List.mem_cons_self _ _), h⟩
        · exact ⟨t, List.mem_cons_of_mem _ (List.mem_cons_of_mem _ ht2), hev⟩
      · rintro ⟨t, ht, hev⟩
        rcases List.mem_cons.mp ht with rfl | ht2
        · exact ⟨OpNode.orN t b, List.mem_cons_self _ _, hab.mpr (Or.inl hev)⟩
        · rcases List.mem_cons.mp ht2 with rfl | ht3
          · exact ⟨OpNode.orN a t, List.mem_cons_self _ _, hab.mpr (Or.inr hev)⟩
          · exact ⟨t, List.mem_cons_of_mem _ ht3, hev⟩

theorem buildGo_cat : ∀ (TS : List (List (Char × Bool))),
    (∀ t ∈ TS, t ≠ [] ∧ ∀ x ∈ t, isUpperC x.1 = true) →
    ∀ (cs : List Char) (stk : List OpNode),
    ∃ trees : List OpNode, trees.length = TS.length ∧
      buildGo (TS.flatMap termRPN ++ cs) stk = buildGo cs (trees ++ stk) ∧
      ∀ f : Char → Nat, (∀ c, f c ≤ 1) →
        ((∃ T ∈ trees, eval f T = 1) ↔ ∃ t ∈ TS, ∀ l ∈ t, eval f (litTree l) = 1)
  | [], _, cs, stk => ⟨[], rfl, by simp, by simp⟩
  | t :: ts, hgood, cs, stk => by
    rcases hgood t (List.mem_cons_self _ _) with ⟨htne, hup⟩
    have hsub : ∀ t' ∈ ts, t' ≠ [] ∧ ∀ x ∈ t', isUpperC x.1 = true :=
      fun t' ht' => hgood t' (List.mem_cons_of_mem _ ht')
    have hlen : (t.reverse.map litTree).length = (t.length - 1) + 1 := by
      rcases t with _ | ⟨l, t'⟩
      · exact absurd rfl htne
      · simp
    rcases buildGo_stars (t.length - 1) (t.reverse.map litTree) hlen
      (ts.flatMap termRPN ++ cs) stk with ⟨T, hT, hsem⟩
    rcases buildGo_cat ts hsub cs (T :: stk) with ⟨trees, hlen2, hbuild, hsem2⟩
    refine ⟨trees ++ [T], by simp [hlen2], ?_, ?_⟩
    · rw [List.flatMap_cons, List.append_assoc, termRPN, List.append_assoc]
      rw [buildGo_flat t hup, hT, hbuild]
      rw [List.append_assoc]
      rfl
    · intro f hf
      constructor
      · rintro ⟨T', hT', hev⟩
        rcases List.mem_append.mp hT' with hT2 | hT2
        · rcases (hsem2 f hf).mp ⟨T', hT2, hev⟩ with ⟨t', ht', hall⟩
          exact ⟨t', List.mem_cons_of_mem _ ht', hall⟩
        · rcases List.mem_singleton.mp hT2 with rfl
          refine ⟨t, List.mem_cons_self _ _, ?_⟩
          intro l hl
          exact (hsem f hf).mp hev (litTree l)
            (List.mem_map_of_mem _ (List.mem_reverse.mpr hl))
      · rintro ⟨t', ht', hall⟩
        rcases List.mem_cons.mp ht' with rfl | ht2
        · refine ⟨T, List.mem_append_right _ (List.mem_singleton_self _), ?_⟩
          refine (hsem f hf).mpr ?_
          intro x hx
          rcases List.mem_map.mp hx with ⟨l, hl, rfl⟩
          exact hall l (List.mem_reverse.mp hl)
        · rcases (hsem2 f hf).mpr ⟨t', ht2, hall⟩ with ⟨T', hT2, hev⟩
          exact ⟨T', List.mem_append_left _ hT2, hev⟩

/-- Building the tree of a rendered sum-of-products: exactly one node remains
and it evaluates to `1` exactly when some term has all its literals true. -/
theorem buildGo_sop (TS : List (List (Char × Bool))) (hne : TS ≠ [])
    (hgood : ∀ t ∈ TS, t ≠ [] ∧ ∀ x ∈ t, isUpperC x.1 = true) :
    ∃ root2, buildGo (TS.flatMap termRPN ++ listPlus (TS.length - 1)) [] = Except.ok [root2] ∧
      ∀ f : Char → Nat, (∀ c, f c ≤ 1) →
        (eval f root2 = 1 ↔ ∃ t ∈ TS, ∀ l ∈ t, eval f (litTree l) = 1) := by
  rcases buildGo_cat TS hgood (listPlus (TS.length - 1)) [] with ⟨trees, hlen, hbuild, hsem⟩
  have hlen2 : trees.length = (TS.length - 1) + 1 := by
    rw [hlen]
    rcases TS with _ | ⟨t, ts⟩
    · exact absurd rfl hne
    · simp
  rcases buildGo_pluses (TS.length - 1) trees hlen2 [] [] with ⟨T, hT, hsemT⟩
  rw [List.append_nil, List.append_nil] at hT
  refine ⟨T, ?_, ?_⟩
  · rw [hbuild, List.append_nil, hT]
    rfl
  · intro f hf
    rw [hsemT f hf]
    exact hsem f hf

theorem xor_one_bit {x : Nat} (hx : x ≤ 1) : x ^^^ 1 = 1 ↔ x = 0 := by
  interval_cases x <;> decide

theorem lits_consistent : ∀ (vars : List Char) (p : Pat) (i : Nat) (f : Char → Nat),
    vars.length = p.length → patChars p →
    (∀ k (hk : k < vars.length), f (vars.get ⟨k, hk⟩) = (i >>> (vars.length - 1 - k)) &&& 1) →
    ((∀ l ∈ litsOf vars p, eval f (litTree l) = 1) ↔ consistent p i = true)
  | [], [], i, f, _, _, _ => by simp [litsOf, consistent]
  | [], c :: p, i, f, hlen, _, _ => by simp at hlen
  | v :: vs, [], i, f, hlen, _, _ => by simp at hlen
  | v :: vs, c :: p, i, f, hlen, hpc, hf => by
    have hlen' : vs.length = p.length := by simpa using hlen
    have hf0 : f v = (i >>> vs.length) &&& 1 := by
      have h0 := hf 0 (by simp only [List.length_cons]; omega)
      have harr : (v :: vs : List Char).length - 1 - 0 = vs.length := by
        simp only [List.length_cons]
        omega
      rw [harr] at h0
      exact h0
    have hfs : ∀ k (hk : k < vs.length),
        f (vs.get ⟨k, hk⟩) = (i >>> (vs.length - 1 - k)) &&& 1 := by
      intro k hk
      have h2 := hf (k + 1) (by simp only [List.length_cons]; omega)
      have harr : (v :: vs : List Char).length - 1 - (k + 1) = vs.length - 1 - k := by
        simp only [List.length_cons]
        omega
      rw [harr] at h2
      exact h2
    have hpc' : patChars p := fun d hd => hpc d (List.mem_cons_of_mem _ hd)
    have ih := lits_consistent vs p i f hlen' hpc' hfs
    have hb : (i >>> vs.length) &&& 1 ≤ 1 := Nat.and_le_right
    rw [consistent]
    simp only [Bool.and_eq_true, Bool.or_eq_true]
    by_cases h0 : c = '0'
    · have hlits : litsOf (v :: vs) (c :: p) = (v, true) :: litsOf vs p := by
        rw [litsOf, List.zip_cons_cons, List.filterMap_cons, if_pos h0]
        rfl
      rw [hlits, List.forall_mem_cons, ih]
      refine and_congr_left ?_
      intro _
      rw [h0]
      have hev : eval f (litTree (v, true)) = f v ^^^ 1 := rfl
      rw [hev, hf0, ← hlen', bitChar]
      rw [xor_one_bit hb]
      rcases Nat.le_one_iff_eq_zero_or_eq_one.mp hb with hbe | hbe <;> rw [hbe] <;> decide
    · by_cases h1 : c = '1'
      · have hlits : litsOf (v :: vs) (c :: p) = (v, false) :: litsOf vs p := by
          rw [litsOf, List.zip_cons_cons, List.filterMap_cons, if_neg h0, if_pos h1]
          rfl
        rw [hlits, List.forall_mem_cons, ih]
        refine and_congr_left ?_
        intro _
        rw [h1]
        have hev : eval f (litTree (v, false)) = f v := rfl
        rw [hev, hf0, ← hlen', bitChar]
        rcases Nat.le_one_iff_eq_zero_or_eq_one.mp hb with hbe | hbe <;> rw [hbe] <;> decide
      · have hcd : c = '-' := by
          rcases hpc c (List.mem_cons_self _ _) with h | h | h
          · exact absurd h h0
          · exact absurd h h1
          · exact h
        have hlits : litsOf (v :: vs) (c :: p) = litsOf vs p := by
          rw [litsOf, List.zip_cons_cons, List.filterMap_cons, if_neg h0, if_neg h1]
          rfl
        rw [hlits, ih, hcd]
        simp

theorem lits_row (vars : List Char) (hnd : vars.Nodup) (p : Pat) (i : Nat)
    (hlen : vars.length = p.length) (hpc : patChars p) :
    ((∀ l ∈ litsOf vars p, eval (mkAssign vars i (vars.length - 1)) (litTree l) = 1)
      ↔ consistent p i = true) :=
  lits_consistent vars p i _ hlen hpc (fun k hk => mkAssign_get vars i hnd k hk)

theorem sorted_eq_of_mem : ∀ {l1 l2 : List Nat}, List.Sorted (· < ·) l1 →
    List.Sorted (· < ·) l2 → (∀ i, i ∈ l1 ↔ i ∈ l2) → l1 = l2
  | [], [], _, _, _ => rfl
  | [], b :: l2, _, _, hmem => by
    have := (hmem b).mpr (List.mem_cons_self _ _)
    simp at this
  | a :: l1, [], _, _, hmem => by
    have := (hmem a).mp (List.mem_cons_self _ _)
    simp at this
  | a :: l1, b :: l2, h1, h2, hmem => by
    rcases List.sorted_cons.mp h1 with ⟨ha, h1'⟩
    rcases List.sorted_cons.mp h2 with ⟨hb, h2'⟩
    have hab : a = b := by
      have ha2 : a ∈ b :: l2 := (hmem a).mp (List.mem_cons_self _ _)
      have hb2 : b ∈ a :: l1 := (hmem b).mpr (List.mem_cons_self _ _)
      rcases List.mem_cons.mp ha2 with h | h
      · exact h
      · rcases List.mem_cons.mp hb2 with h' | h'
        · exact h'.symm
        · have hzb := hb a h
          have hza := ha b h'
          omega
    subst hab
    have hmem' : ∀ i, i ∈ l1 ↔ i ∈ l2 := by
      intro i
      constructor
      · intro hi
        have h3 := (hmem i).mp (List.mem_cons_of_mem _ hi)
        rcases List.mem_cons.mp h3 with rfl | h4
        · have := ha i hi
          omega
        · exact h4
      · intro hi
        have h3 := (hmem i).mpr (List.mem_cons_of_mem _ hi)
        rcases List.mem_cons.mp h3 with rfl | h4
        · have := hb i hi
          omega
        · exact h4
    rw [sorted_eq_of_mem h1' h2' hmem']

theorem isortT1_ne_nil (x : List (Char × Bool)) : ∀ l, isortT1 x l ≠ []
  | [] => by simp [isortT1]
  | y :: ys => by
    rw [isortT1]
    split <;> simp

/-- The values of the coverage map at the selected patterns are their cubes. -/
theorem QMA_cubes (N : Nat) (m : List Nat) (hnd : m.Nodup)
    (hsub : ∀ i ∈ m, i < 2 ^ N) :
    ∀ p ∈ (QMA N m).1, stGet (mergeResult N m).st p = cube p := by
  rcases mergeResult_spec N m hnd hsub with ⟨r2, h1, _, h3⟩
  rcases gpl_cover (mergeResult N m).ls (mergeResult N m).st with ⟨hselmem, _, _⟩
  intro p hp
  have hpls : p ∈ (mergeResult N m).ls := hselmem p hp
  have hkey : stMem (mergeResult N m).st p = true := by
    refine (h1.st_keys p).mpr ⟨((h3 p).mp hpls).1, ?_⟩
    rcases (h1.ls_iff p).mp hpls with ⟨_, hd | ⟨hd, _⟩⟩ <;> omega
  exact h1.st_val p hkey

/-- The whole re-parse pipeline on a rendered sum-of-products: conversion and
build succeed, and the resulting tree evaluates to `1` exactly when some term
has all its literals true. -/
theorem sop_pipeline (TS : List (List (Char × Bool))) (hne : TS ≠ [])
    (hgood : ∀ t ∈ TS, t ≠ [] ∧ ∀ x ∈ t, isUpperC x.1 = true) :
    ∃ rpn2 root2,
      cvtRPN (cvtAL (intercalatePlus (TS.map flatLits))) = some rpn2 ∧
      buildGo rpn2 [] = Except.ok [root2] ∧
      ∀ f : Char → Nat, (∀ c, f c ≤ 1) →
        (eval f root2 = 1 ↔ ∃ t ∈ TS, ∀ l ∈ t, eval f (litTree l) = 1) := by
  rw [cvtAL_sop TS hne hgood]
  rcases buildGo_sop TS hne hgood with ⟨root2, hb, hsem⟩
  exact ⟨_, root2, cvtRPN_sop TS hne hgood, hb, hsem⟩

/-- When the prime implicants of a minterm set are unique, the greedy cover
selector returns exactly that one pattern. -/
theorem sel_singleton (N : Nat) (m : List Nat) (hnd : m.Nodup)
    (hsub : ∀ i ∈ m, i < 2 ^ N) (hm : m ≠ []) (P : Pat)
    (hP : ∀ p, primeImp N m.toFinset p → p = P) :
    (QMA N m).1 = [P] := by
  rcases QMA_cover N m hnd hsub with ⟨hprime, hcov⟩
  rcases gpl_cover (mergeResult N m).ls (mergeResult N m).st with ⟨_, _, hnodup⟩
  have hq : (QMA N m).1 = gpl (mergeResult N m).ls (mergeResult N m).st := rfl
  rw [← hq] at hnodup
  have hneS : (QMA N m).1 ≠ [] := by
    intro hsel
    rcases List.exists_mem_of_ne_nil _ hm with ⟨i, hi⟩
    have hiM : i ∈ covUnion (mergeResult N m).st (QMA N m).1 := by
      rw [hcov]
      exact List.mem_toFinset.mpr hi
    rw [hsel] at hiM
    rcases mem_covUnion.mp hiM with ⟨p, hp, _⟩
    exact absurd hp (List.not_mem_nil p)
  have hall : ∀ p ∈ (QMA N m).1, p = P := fun p hp => hP p (hprime p hp)
  rcases hsel : (QMA N m).1 with _ | ⟨p, _ | ⟨q, ps⟩⟩
  · exact absurd hsel hneS
  · rw [hall p (by rw [hsel]; exact List.mem_cons_self _ _)]
  · exfalso
    have hp := hall p (by rw [hsel]; exact List.mem_cons_self _ _)
    have hq2 := hall q (by
      rw [hsel]
      exact List.mem_cons_of_mem _ (List.mem_cons_self _ _))
    rw [hsel] at hnodup
    rcases List.nodup_cons.mp hnodup with ⟨hpq, _⟩
    exact hpq (by rw [hp, ← hq2]; exact List.mem_cons_self _ _)

/-- The single prime implicant of `{2, 3}` over two variables. -/
theorem prime_23 : ∀ p, primeImp 2 (([2, 3] : List Nat).toFinset) p → p = ['1', '-'] := by
  intro p hp
  rcases hp with ⟨⟨hlen, hpc, hcube⟩, hmax⟩
  rcases p with _ | ⟨c1, _ | ⟨c2, _ | _⟩⟩
  · simp at hlen
  · simp at hlen
  · rcases hpc c1 (List.mem_cons_self _ _) with rfl | rfl | rfl
    · rcases hpc c2 (List.mem_cons_of_mem _ (List.mem_cons_self _ _)) with rfl | rfl | rfl
      · exact absurd (hcube (show (0 : Nat) ∈ cube ['0', '0'] by decide)) (by decide)
      · exact absurd (hcube (show (1 : Nat) ∈ cube ['0', '1'] by decide)) (by decide)
      · exact absurd (hcube (show (0 : Nat) ∈ cube ['0', '-'] by decide)) (by decide)
    · rcases hpc c2 (List.mem_cons_of_mem _ (List.mem_cons_self _ _)) with rfl | rfl | rfl
      · exact absurd (hmax ['1'] '0' [] rfl (by decide))
          (by
            intro hni
            refine hni ⟨by decide, ?_, by decide⟩
            intro c hc
            simp at hc
            rcases hc with rfl | rfl
            · decide
            · decide)
      · exact absurd (hmax ['1'] '1' [] rfl (by decide))
          (by
            intro hni
            refine hni ⟨by decide, ?_, by decide⟩
            intro c hc
            simp at hc
            rcases hc with rfl | rfl
            · decide
            · decide)
      · rfl
    · rcases hpc c2 (List.mem_cons_of_mem _ (List.mem_cons_self _ _)) with rfl | rfl | rfl
      · exact absurd (hcube (show (0 : Nat) ∈ cube ['-', '0'] by decide)) (by decide)
      · exact absurd (hcube (show (1 : Nat) ∈ cube ['-', '1'] by decide)) (by decide)
      · exact absurd (hcube (show (0 : Nat) ∈ cube ['-', '-'] by decide)) (by decide)
  · simp at hlen

/-- The single prime implicant of `{1}` over one variable. -/
theorem prime_1 : ∀ p, primeImp 1 (([1] : List Nat).toFinset) p → p = ['1'] := by
  intro p hp
  rcases hp with ⟨⟨hlen, hpc, hcube⟩, _⟩
  rcases p with _ | ⟨c1, _ | _⟩
  · simp at hlen
  · rcases hpc c1 (List.mem_cons_self _ _) with rfl | rfl | rfl
    · exact absurd (hcube (show (0 : Nat) ∈ cube ['0'] by decide)) (by decide)
    · rfl
    · exact absurd (hcube (show (0 : Nat) ∈ cube ['-'] by decide)) (by decide)
  · simp at hlen

/-- C1 counterexample: on `AB+AB'` the pipeline records the minterm set
`{2, 3}` over the variables `A, B` and renders the simplified expression `A`;
re-running the whole pipeline on that rendered expression yields the minterm
set `{1}` over the shrunken variable set `A` — not the original minterm set.
The round-trip as claimed fails because rendering can drop variables. -/
theorem C1_counterexample :
    analyze ['A', 'B', '+', 'A', 'B', quote]
      = Except.ok ⟨['A', 'B'], [2, 3], .sop [['1', '-']] ['A']⟩ ∧
    analyze ['A'] = Except.ok ⟨['A'], [1], .sop [['1']] ['A']⟩ ∧
    ([1] : List Nat) ≠ [2, 3] := by
  have hpin1 : (QMA 2 [2, 3]).1 = [['1', '-']] :=
    sel_singleton 2 [2, 3] (by decide) (by decide) (by decide) ['1', '-'] prime_23
  have hpin2 : (QMA 1 [1]).1 = [['1']] :=
    sel_singleton 1 [1] (by decide) (by decide) (by decide) ['1'] prime_1
  refine ⟨?_, ?_, by decide⟩
  · have h1 := analyze_sop ['A', 'B', '+', 'A', 'B', quote]
      ['A', 'B', '*', 'A', 'B', quote, '*', '+']
      (OpNode.orN (OpNode.andN (OpNode.notN (OpNode.varN 'B')) (OpNode.varN 'A'))
        (OpNode.andN (OpNode.varN 'B') (OpNode.varN 'A')))
      (by decide) rfl rfl (by decide) (by decide) (by decide)
    rw [show varSet ['A', 'B', '+', 'A', 'B', quote] = ['A', 'B'] from rfl] at h1
    rw [show minterms
        (OpNode.orN (OpNode.andN (OpNode.notN (OpNode.varN 'B')) (OpNode.varN 'A'))
          (OpNode.andN (OpNode.varN 'B') (OpNode.varN 'A'))) ['A', 'B'] = [2, 3]
      from rfl] at h1
    rw [show (['A', 'B'] : List Char).length = 2 from rfl, hpin1] at h1
    rw [show intercalatePlus (isortL (List.map (renderTerm ['A', 'B']) [['1', '-']]))
        = ['A'] from rfl] at h1
    exact h1
  · have h2 := analyze_sop ['A'] ['A'] (OpNode.varN 'A')
      (by decide) rfl rfl (by decide) (by decide) (by decide)
    rw [show varSet ['A'] = ['A'] from rfl] at h2
    rw [show minterms (OpNode.varN 'A') ['A'] = [1] from rfl] at h2
    rw [show (['A'] : List Char).length = 1 from rfl, hpin2] at h2
    rw [show intercalatePlus (isortL (List.map (renderTerm ['A']) [['1']]))
        = ['A'] from rfl] at h2
    exact h2

/-- C1 (amended): on a valid expression whose minterm set is non-empty and
non-full, re-parsing the rendered simplified expression through the same
front end (implicit-AND insertion, postfix conversion, tree build) succeeds,
and enumerating the resulting tree over the ORIGINAL variable set reproduces
exactly the original minterm set. -/
theorem C1_semantic_roundtrip (input rpn : List Char) (root : OpNode)
    (hv : validate input = true)
    (hr : cvtRPN (cvtAL input) = some rpn)
    (hb : buildGo rpn [] = Except.ok [root])
    (hne : varSet input ≠ [])
    (hm : minterms root (varSet input) ≠ [])
    (hnf : (minterms root (varSet input)).length ≠ 2 ^ (varSet input).length) :
    ∃ rpn2 root2,
      cvtRPN (cvtAL (intercalatePlus (isortL
        ((QMA (varSet input).length (minterms root (varSet input))).1.map
          (renderTerm (varSet input)))))) = some rpn2 ∧
      buildGo rpn2 [] = Except.ok [root2] ∧
      minterms root2 (varSet input) = minterms root (varSet input) := by
  have hvars_up : ∀ v ∈ varSet input, isUpperC v = true := fun v hv2 => (mem_varSet.mp hv2).1
  have hnd := varSet_nodup input
  rcases QMA_cover (varSet input).length (minterms root (varSet input))
      (minterms_nodup root (varSet input)) (minterms_lt root (varSet input)) with ⟨hprime, hcov⟩
  have hcubes := QMA_cubes (varSet input).length (minterms root (varSet input))
    (minterms_nodup root (varSet input)) (minterms_lt root (varSet input))
  generalize hselq : (QMA (varSet input).length (minterms root (varSet input))).1 = sel
    at hprime hcov hcubes ⊢
  have hmapTS : (isortT (sel.map (litsOf (varSet input)))).map flatLits
      = isortL (sel.map (renderTerm (varSet input))) := by
    rw [isortT_map, List.map_map]
    congr 1
    apply List.map_congr_left
    intro p _
    exact (renderTerm_eq (varSet input) p).symm
  have hTS_good : ∀ t ∈ isortT (sel.map (litsOf (varSet input))),
      t ≠ [] ∧ ∀ x ∈ t, isUpperC x.1 = true := by
    intro t ht
    have ht2 : t ∈ sel.map (litsOf (varSet input)) := (mem_isortT t _).mp ht
    rcases List.mem_map.mp ht2 with ⟨p, hp, rfl⟩
    have hpr := hprime p hp
    refine ⟨?_, litsOf_upper hvars_up⟩
    refine litsOf_ne_nil (varSet input) p hpr.1.1.symm hpr.1.2.1 ?_
    by_contra hall
    push_neg at hall
    have hcube : cube p = Finset.range (2 ^ (varSet input).length) := by
      rw [cube, hpr.1.1]
      apply Finset.filter_true_of_mem
      intro i _
      exact consistent_all_dash hall i
    have hsub2 := hpr.1.2.2
    rw [hcube] at hsub2
    have hcard : 2 ^ (varSet input).length ≤ (minterms root (varSet input)).toFinset.card := by
      have := Finset.card_le_card hsub2
      rwa [Finset.card_range] at this
    have hcard2 : (minterms root (varSet input)).toFinset.card
        = (minterms root (varSet input)).length :=
      List.toFinset_card_of_nodup (minterms_nodup root (varSet input))
    have hlenle := minterms_length_le root (varSet input)
    omega
  have hselne : sel ≠ [] := by
    intro hsel
    rcases List.exists_mem_of_ne_nil _ hm with ⟨i, hi⟩
    have hiM : i ∈ covUnion (mergeResult (varSet input).length
        (minterms root (varSet input))).st sel := by
      rw [hcov]
      exact List.mem_toFinset.mpr hi
    rw [hsel] at hiM
    rcases mem_covUnion.mp hiM with ⟨p, hp, _⟩
    exact absurd hp (List.not_mem_nil p)
  have hTSne : isortT (sel.map (litsOf (varSet input))) ≠ [] := by
    rcases sel with _ | ⟨p, ps⟩
    · exact absurd rfl hselne
    · rw [List.map_cons, isortT]
      exact isortT1_ne_nil _ _
  rcases sop_pipeline (isortT (sel.map (litsOf (varSet input)))) hTSne hTS_good
    with ⟨rpn2, root2, hcvt, hbuild, hsem⟩
  rw [hmapTS] at hcvt
  refine ⟨rpn2, root2, hcvt, hbuild, ?_⟩
  refine sorted_eq_of_mem (minterms_sorted root2 (varSet input))
    (minterms_sorted root (varSet input)) ?_
  intro i
  rw [mem_minterms, mem_minterms]
  refine and_congr_right ?_
  intro hilt
  have hf : ∀ c, mkAssign (varSet input) i ((varSet input).length - 1) c ≤ 1 :=
    fun c => mkAssign_le_one _ _ _ c
  have hle2 := rowEval_le_one root2 (varSet input) i
  have hle1 := rowEval_le_one root (varSet input) i
  have hsem2 := hsem (mkAssign (varSet input) i ((varSet input).length - 1)) hf
  have hrw2 : rowEval root2 (varSet input) i
      = eval (mkAssign (varSet input) i ((varSet input).length - 1)) root2 := rfl
  constructor
  · intro hne0
    have h1 : eval (mkAssign (varSet input) i ((varSet input).length - 1)) root2 = 1 := by
      omega
    rcases hsem2.mp h1 with ⟨t, ht, hall⟩
    have ht2 := (mem_isortT t _).mp ht
    rcases List.mem_map.mp ht2 with ⟨p, hp, rfl⟩
    have hcons : consistent p i = true :=
      (lits_row (varSet input) hnd p i (hprime p hp).1.1.symm (hprime p hp).1.2.1).mp hall
    have hicube : i ∈ cube p :=
      mem_cube.mpr ⟨by rw [(hprime p hp).1.1]; exact hilt, hcons⟩
    have hiM := (hprime p hp).1.2.2 hicube
    exact (mem_minterms.mp (List.mem_toFinset.mp hiM)).2
  · intro hne0
    have hiM : i ∈ (minterms root (varSet input)).toFinset :=
      List.mem_toFinset.mpr (mem_minterms.mpr ⟨hilt, hne0⟩)
    rw [← hcov] at hiM
    rcases mem_covUnion.mp hiM with ⟨p, hp, hip⟩
    rw [hcubes p hp] at hip
    rcases mem_cube.mp hip with ⟨_, hcons⟩
    have hall := (lits_row (varSet input) hnd p i
      (hprime p hp).1.1.symm (hprime p hp).1.2.1).mpr hcons
    have ht : litsOf (varSet input) p ∈ isortT (sel.map (litsOf (varSet input))) :=
      (mem_isortT _ _).mpr (List.mem_map_of_mem _ hp)
    have h1 : eval (mkAssign (varSet input) i ((varSet input).length - 1)) root2 = 1 :=
      hsem2.mpr ⟨_, ht, hall⟩
    omega

theorem C1_witness :
    validate ['A', '+', 'B'] = true ∧
    cvtRPN (cvtAL ['A', '+', 'B']) = some ['A', 'B', '+'] ∧
    buildGo ['A', 'B', '+'] [] = Except.ok [OpNode.orN (OpNode.varN 'B') (OpNode.varN 'A')] ∧
    varSet ['A', '+', 'B'] ≠ [] ∧
    minterms (OpNode.orN (OpNode.varN 'B') (OpNode.varN 'A')) (varSet ['A', '+', 'B']) ≠ [] ∧
    (minterms (OpNode.orN (OpNode.varN 'B') (OpNode.varN 'A'))
        (varSet ['A', '+', 'B'])).length ≠ 2 ^ (varSet ['A', '+', 'B']).length ∧
    (∃ rpn2 root2,
      cvtRPN (cvtAL (intercalatePlus (isortL
        ((QMA (varSet ['A', '+', 'B']).length
            (minterms (OpNode.orN (OpNode.varN 'B') (OpNode.varN 'A'))
              (varSet ['A', '+', 'B']))).1.map
          (renderTerm (varSet ['A', '+', 'B'])))))) = some rpn2 ∧
      buildGo rpn2 [] = Except.ok [root2] ∧
      minterms root2 (varSet ['A', '+', 'B'])
        = minterms (OpNode.orN (OpNode.varN 'B') (OpNode.varN 'A')) (varSet ['A', '+', 'B'])) :=
  ⟨by decide, rfl, rfl, by decide, by decide, by decide,
    C1_semantic_roundtrip ['A', '+', 'B'] ['A', 'B', '+']
      (OpNode.orN (OpNode.varN 'B') (OpNode.varN 'A'))
      (by decide) rfl rfl (by decide) (by decide) (by decide)⟩

end QMC
